import Mathlib

/-!
Verification of the B-tree implementation in `btree/__init__.py` and `main.py`
(repository CodeWithHitesh/B-Tree-Python).

The Python classes `BTreeNode` / `BTree` are shallowly embedded as the
inductive type `Node` and the structure `BTree` below.  Every method of the
source is translated into a pure Lean function on these types; Python's
in-place mutation becomes returning the updated node.  Python lists become
Lean `List`s, Python ints become `Int`, and list indexing that the source
only performs under preconditions which make it safe is totalised with
`getD` / bounds-checked branches (the unreachable out-of-range branches are
modelled as the identity and are marked by comments).

`bisect.bisect_left(keys, key)` is modelled by `get_key_index`, a linear
scan returning the first index whose element is `≥ key`; on the sorted key
lists the source maintains this is exactly what `bisect_left` computes.
-/

inductive Node where
  | mk (keys : List Int) (children : List Node) (is_leaf : Bool)

instance : Inhabited Node := ⟨Node.mk [] [] true⟩

/-- Projection of the `keys` attribute. -/
def Node.keys : Node → List Int
  | .mk ks _ _ => ks

/-- Projection of the `children` attribute. -/
def Node.children : Node → List Node
  | .mk _ cs _ => cs

/-- Projection of the `is_leaf` attribute. -/
def Node.leafFlag : Node → Bool
  | .mk _ _ b => b

@[simp] theorem Node.keys_mk (ks : List Int) (cs : List Node) (b : Bool) :
    (Node.mk ks cs b).keys = ks := rfl

@[simp] theorem Node.children_mk (ks : List Int) (cs : List Node) (b : Bool) :
    (Node.mk ks cs b).children = cs := rfl

@[simp] theorem Node.leafFlag_mk (ks : List Int) (cs : List Node) (b : Bool) :
    (Node.mk ks cs b).leafFlag = b := rfl

theorem Node.ext_iff (n : Node) : n = Node.mk n.keys n.children n.leafFlag := by
  cases n; rfl

mutual
/-- Height of a node: 0 for a node without children, otherwise one more than
the maximal height of a child.  Used as the termination measure of the
recursive operations. -/
def height : Node → Nat
  | .mk _ cs _ => heights cs

/-- Maximal height of a child in the list, plus one; 0 for the empty list. -/
def heights : List Node → Nat
  | [] => 0
  | c :: cs => max (height c + 1) (heights cs)
end

@[simp] theorem heights_nil : heights [] = 0 := rfl

theorem heights_cons (c : Node) (cs : List Node) :
    heights (c :: cs) = max (height c + 1) (heights cs) := rfl

@[simp] theorem height_mk (ks : List Int) (cs : List Node) (b : Bool) :
    height (.mk ks cs b) = heights cs := rfl

theorem height_eq_heights (n : Node) : height n = heights n.children := by
  cases n; rfl

theorem height_lt_of_mem {c : Node} {cs : List Node} (h : c ∈ cs) :
    height c < heights cs := by
  induction cs with
  | nil => cases h
  | cons d ds ih =>
    rcases List.mem_cons.mp h with h1 | h1
    · subst h1; rw [heights_cons]; omega
    · have := ih h1; rw [heights_cons]; omega

theorem heights_sublist {cs ds : List Node} (h : List.Sublist cs ds) :
    heights cs ≤ heights ds := by
  induction h with
  | slnil => exact le_refl _
  | cons d _ ih => rw [heights_cons]; omega
  | cons₂ d _ ih => rw [heights_cons, heights_cons]; omega

theorem heights_append (cs ds : List Node) :
    heights (cs ++ ds) = max (heights cs) (heights ds) := by
  induction cs with
  | nil => simp
  | cons c cs ih => rw [List.cons_append, heights_cons, heights_cons, ih]; omega

/-- Strong induction on the height of a node. -/
theorem Node.height_induction {P : Node → Prop}
    (step : ∀ n, (∀ m, height m < height n → P m) → P n) : ∀ n, P n := by
  intro n
  have : ∀ k n, height n < k → P n := by
    intro k
    induction k with
    | zero => intro n h; omega
    | succ k ih =>
      intro n h
      exact step n fun m hm => ih m (by omega)
  exact this (height n + 1) n (by omega)

mutual
/-- In-order key sequence of the subtree, as printed by `BTreeNode.traverse`:
for a leaf just the keys, otherwise child 0, key 0, child 1, key 1, …,
last child. -/
def toList : Node → List Int
  | .mk ks cs leaf => if leaf then ks else inter cs ks

/-- Interleaving used by `toList`: one child before each key, and one final
child after the last key.  A missing child (possible only on ill-formed
nodes, where the source would raise `IndexError`) contributes nothing. -/
def inter : List Node → List Int → List Int
  | [], _ => []
  | c :: _, [] => toList c
  | c :: cs, k :: ks => toList c ++ k :: inter cs ks
end

@[simp] theorem toList_leaf (ks : List Int) (cs : List Node) :
    toList (.mk ks cs true) = ks := rfl

@[simp] theorem toList_node (ks : List Int) (cs : List Node) :
    toList (.mk ks cs false) = inter cs ks := rfl

@[simp] theorem inter_nil (ks : List Int) : inter [] ks = [] := rfl

@[simp] theorem inter_cons_nil (c : Node) (cs : List Node) :
    inter (c :: cs) [] = toList c := rfl

@[simp] theorem inter_cons_cons (c : Node) (cs : List Node) (k : Int) (ks : List Int) :
    inter (c :: cs) (k :: ks) = toList c ++ k :: inter cs ks := rfl

/-- Prefix interleaving: child–key pairs, used to split `inter` into pieces. -/
def interPre : List Node → List Int → List Int
  | c :: cs, k :: ks => toList c ++ k :: interPre cs ks
  | _, _ => []

@[simp] theorem interPre_nil_left (ks : List Int) : interPre [] ks = [] := by
  cases ks <;> rfl

@[simp] theorem interPre_nil_right (cs : List Node) : interPre cs [] = [] := by
  cases cs <;> rfl

@[simp] theorem interPre_cons (c : Node) (cs : List Node) (k : Int) (ks : List Int) :
    interPre (c :: cs) (k :: ks) = toList c ++ k :: interPre cs ks := rfl

/-- Splitting lemma for `inter`: a balanced prefix can be factored out. -/
theorem inter_append {cs₁ cs₂ : List Node} {ks₁ ks₂ : List Int}
    (h : cs₁.length = ks₁.length) :
    inter (cs₁ ++ cs₂) (ks₁ ++ ks₂) = interPre cs₁ ks₁ ++ inter cs₂ ks₂ := by
  induction cs₁ generalizing ks₁ with
  | nil =>
    cases ks₁ with
    | nil => simp
    | cons k ks => simp at h
  | cons c cs ih =>
    cases ks₁ with
    | nil => simp at h
    | cons k ks =>
      simp only [List.length_cons, Nat.succ_inj] at h
      simp [ih h]

/-- The `get_key_index` method: first index whose key is `≥ key`
(the value `bisect.bisect_left` returns on a sorted list). -/
def get_key_index (keys : List Int) (key : Int) : Nat :=
  match keys with
  | [] => 0
  | k :: ks => if key ≤ k then 0 else get_key_index ks key + 1

theorem get_key_index_le_length (keys : List Int) (key : Int) :
    get_key_index keys key ≤ keys.length := by
  induction keys with
  | nil => simp [get_key_index]
  | cons k ks ih =>
    simp only [get_key_index, List.length_cons]
    split <;> omega

/-- The `is_full` method. -/
def Node.is_full (t : Nat) (n : Node) : Bool :=
  n.keys.length == 2 * t - 1

/-- The `split_child` method: split the full child at index `i`, promote its
median key into this node, and insert the new right sibling after it. -/
def split_child (t : Nat) (n : Node) (i : Nat) : Node :=
  let c := n.children.getD i default
  let middle := c.keys.getD (t - 1) 0
  let newc : Node := .mk (c.keys.drop t)
    (if c.leafFlag then [] else c.children.drop t) c.leafFlag
  let c' : Node := .mk (c.keys.take (t - 1))
    (if c.leafFlag then c.children else c.children.take t) c.leafFlag
  .mk (n.keys.insertIdx i middle) ((n.children.set i c').insertIdx (i + 1) newc) n.leafFlag

theorem mem_of_mem_insertIdx {c y : Node} {l : List Node} {j : Nat}
    (h : c ∈ List.insertIdx j y l) : c = y ∨ c ∈ l := by
  by_cases hj : j ≤ l.length
  · exact (List.mem_insertIdx hj).mp h
  · rw [List.insertIdx_of_length_lt _ _ _ (by omega)] at h
    exact Or.inr h

theorem height_take_subnode_le (c : Node) (ks' : List Int) (b' : Bool) (f : List Node → List Node)
    (hf : List.Sublist (f c.children) c.children) :
    height (Node.mk ks' (if c.leafFlag then c.children else f c.children) b') ≤ height c := by
  rw [height_mk, height_eq_heights c]
  split
  · exact le_refl _
  · exact heights_sublist hf

theorem height_split_lt {t : Nat} {n : Node} {i : Nat} {c : Node}
    (h : c ∈ (split_child t n i).children) : height c < height n := by
  cases n with
  | mk ks cs b =>
  simp only [split_child, Node.children_mk, Node.keys_mk, Node.leafFlag_mk] at h
  rw [height_mk]
  by_cases hi : i < cs.length
  · have hmem : cs.getD i default ∈ cs := by
      rw [List.getD_eq_getElem _ _ hi]; exact List.getElem_mem hi
    have hlt : height (cs.getD i default) < heights cs := height_lt_of_mem hmem
    rcases mem_of_mem_insertIdx h with h | h
    · subst h
      have hb : height (Node.mk (List.drop t (cs.getD i default).keys)
          (if (cs.getD i default).leafFlag = true then []
            else List.drop t (cs.getD i default).children) (cs.getD i default).leafFlag)
          ≤ height (cs.getD i default) := by
        rw [height_mk, height_eq_heights (cs.getD i default)]
        split
        · simp
        · exact heights_sublist (List.drop_sublist t _)
      omega
    · rcases List.mem_or_eq_of_mem_set h with h | h
      · exact height_lt_of_mem h
      · subst h
        have := height_take_subnode_le (cs.getD i default)
          (List.take (t - 1) (cs.getD i default).keys) (cs.getD i default).leafFlag
          (List.take t) (List.take_sublist t _)
        omega
  · rw [List.set_eq_of_length_le (by omega),
      List.insertIdx_of_length_lt _ _ _ (by omega)] at h
    exact height_lt_of_mem h

/-- The `insert_non_full` method.  On a leaf the key is inserted at the
`bisect_left` position; otherwise the covering child is found, split first
if it is full (re-deriving the destination index by comparison with the
promoted key, exactly as the source does), and the insertion recurses into
it.  The out-of-range child access (impossible on well-formed input, where
the source would raise `IndexError`) is modelled as the identity. -/
def insert_non_full (t : Nat) (n : Node) (key : Int) : Node :=
  match n with
  | .mk ks cs leaf =>
    if leaf then .mk (ks.insertIdx (get_key_index ks key) key) cs leaf
    else
      let i := get_key_index ks key
      if (cs.getD i default).keys.length = 2 * t - 1 then
        let m := split_child t (.mk ks cs leaf) i
        let i' := if key > m.keys.getD i 0 then i + 1 else i
        if h : i' < m.children.length then
          .mk m.keys (m.children.set i' (insert_non_full t (m.children.get ⟨i', h⟩) key))
            m.leafFlag
        else m
      else
        if h : i < cs.length then
          .mk ks (cs.set i (insert_non_full t (cs.get ⟨i, h⟩) key)) leaf
        else .mk ks cs leaf
termination_by height n
decreasing_by
  · exact height_split_lt (List.get_mem _ _ _)
  · rw [height_mk]
    exact height_lt_of_mem (List.get_mem _ _ _)

/-- The `BTreeNode.search` method: binary-search this node's keys, succeed
when the key is found here, fail at a leaf, otherwise recurse into the
covering child.  A node with no keys reports failure immediately. -/
def searchNode (n : Node) (key : Int) : Option Node :=
  match n with
  | .mk ks cs leaf =>
    if ks = [] then none
    else
      let idx := get_key_index ks key
      if idx < ks.length ∧ ks.getD idx 0 = key then some (.mk ks cs leaf)
      else if leaf then none
      else
        if h : idx < cs.length then searchNode (cs.get ⟨idx, h⟩) key
        else none
termination_by height n
decreasing_by
  rw [height_mk]
  exact height_lt_of_mem (List.get_mem _ _ _)

/-- The `get_predecessor` method: follow last children down to a leaf and
return its last key. -/
def get_predecessor (n : Node) : Int :=
  match n with
  | .mk ks cs leaf =>
    if leaf then ks.getLastD 0
    else
      match cs with
      | [] => 0
      | c :: rest => get_predecessor ((c :: rest).getLast (List.cons_ne_nil c rest))
termination_by height n
decreasing_by
  rw [height_mk]
  exact height_lt_of_mem (List.getLast_mem _)

/-- The `get_successor` method: follow first children down to a leaf and
return its first key. -/
def get_successor (n : Node) : Int :=
  match n with
  | .mk ks cs leaf =>
    if leaf then ks.headD 0
    else
      match cs with
      | [] => 0
      | c :: rest => get_successor ((c :: rest).head (List.cons_ne_nil c rest))
termination_by height n
decreasing_by
  rw [height_mk]
  exact height_lt_of_mem (List.head_mem _)

theorem mem_of_getLast?_eq {α : Type} {l : List α} {a : α} (h : l.getLast? = some a) : a ∈ l := by
  cases l with
  | nil => simp at h
  | cons x xs =>
    rw [List.getLast?_eq_getLast_of_ne_nil (List.cons_ne_nil x xs)] at h
    simp only [Option.some.injEq] at h
    subst h
    exact List.getLast_mem _

theorem mem_set_cases {c x : Node} {cs : List Node} {i : Nat} (h : c ∈ cs.set i x) :
    c ∈ cs ∨ (c = x ∧ i < cs.length) := by
  by_cases hi : i < cs.length
  · rcases List.mem_or_eq_of_mem_set h with h | h
    · exact Or.inl h
    · exact Or.inr ⟨h, hi⟩
  · rw [List.set_eq_of_length_le (by omega)] at h
    exact Or.inl h

/-- The `borrow_from_prev` method: move the separating key of the parent
down to the front of `children[idx]`, move the left sibling's last child
over (for internal nodes), and move the left sibling's last key up into
the parent.  The pops that would raise on empty lists in Python
(unreachable under the invariants) are modelled as no-ops. -/
def borrow_from_prev (n : Node) (idx : Nat) : Node :=
  match n with
  | .mk ks cs leaf =>
    let child := cs.getD idx default
    let sib := cs.getD (idx - 1) default
    let childKeys := ks.getD (idx - 1) 0 :: child.keys
    let childCh := if child.leafFlag then child.children
      else match sib.children.getLast? with
        | some sc => sc :: child.children
        | none => child.children
    let sibCh := if child.leafFlag then sib.children else sib.children.dropLast
    let child2 : Node := .mk childKeys childCh child.leafFlag
    let sib2 : Node := .mk sib.keys.dropLast sibCh sib.leafFlag
    .mk (ks.set (idx - 1) (sib.keys.getLastD 0)) ((cs.set idx child2).set (idx - 1) sib2) leaf

/-- The `borrow_from_next` method: move the separating key of the parent
to the back of `children[idx]`, move the right sibling's first child over
(for internal nodes), and move the right sibling's first key up into the
parent. -/
def borrow_from_next (n : Node) (idx : Nat) : Node :=
  match n with
  | .mk ks cs leaf =>
    let child := cs.getD idx default
    let sib := cs.getD (idx + 1) default
    let childKeys := child.keys ++ [ks.getD idx 0]
    let childCh := if child.leafFlag then child.children
      else match sib.children with
        | sc :: _ => child.children ++ [sc]
        | [] => child.children
    let sibCh := if child.leafFlag then sib.children else sib.children.drop 1
    let child2 : Node := .mk childKeys childCh child.leafFlag
    let sib2 : Node := .mk (sib.keys.drop 1) sibCh sib.leafFlag
    .mk (ks.set idx (sib.keys.headD 0)) ((cs.set idx child2).set (idx + 1) sib2) leaf

/-- The `merge` method: fold the separating key and the right sibling
`children[idx+1]` into `children[idx]`, removing both from the parent. -/
def merge (n : Node) (idx : Nat) : Node :=
  match n with
  | .mk ks cs leaf =>
    let child := cs.getD idx default
    let sib := cs.getD (idx + 1) default
    let childKeys := child.keys ++ ks.getD idx 0 :: sib.keys
    let childCh := if child.leafFlag then child.children else child.children ++ sib.children
    let child2 : Node := .mk childKeys childCh child.leafFlag
    .mk (ks.eraseIdx idx) ((cs.set idx child2).eraseIdx (idx + 1)) leaf

/-- The `fill` method: give `children[idx]` at least `t` keys by borrowing
from the left sibling, else borrowing from the right sibling, else merging
with a sibling (the right one when it exists, otherwise the left one). -/
def fill (t : Nat) (n : Node) (idx : Nat) : Node :=
  match n with
  | .mk ks cs leaf =>
    if idx ≠ 0 ∧ t ≤ (cs.getD (idx - 1) default).keys.length then
      borrow_from_prev (.mk ks cs leaf) idx
    else if idx ≠ ks.length ∧ t ≤ (cs.getD (idx + 1) default).keys.length then
      borrow_from_next (.mk ks cs leaf) idx
    else if idx ≠ ks.length then merge (.mk ks cs leaf) idx
    else merge (.mk ks cs leaf) (idx - 1)

theorem height_borrow_prev_lt {n : Node} {idx : Nat} {c : Node}
    (h : c ∈ (borrow_from_prev n idx).children) : height c < height n := by
  cases n with
  | mk ks cs leaf =>
  simp only [borrow_from_prev, Node.children_mk] at h
  rw [height_mk]
  rcases mem_set_cases h with h | ⟨h, hlen⟩
  · rcases mem_set_cases h with h | ⟨h, hlen⟩
    · exact height_lt_of_mem h
    · -- c is the rebuilt child at idx
      subst h
      have hmem : cs.getD idx default ∈ cs := by
        rw [List.getD_eq_getElem _ _ hlen]; exact List.getElem_mem hlen
      have hchild : height (cs.getD idx default) < heights cs := height_lt_of_mem hmem
      rw [height_mk]
      rcases hf : (cs.getD idx default).leafFlag with _ | _
      · simp only [hf, Bool.false_eq_true, if_false]
        rcases hl : (cs.getD (idx - 1) default).children.getLast? with _ | sc
        · simp only [hl]
          rw [← height_eq_heights]
          exact hchild
        · simp only [hl, heights_cons]
          have hsc : sc ∈ (cs.getD (idx - 1) default).children := mem_of_getLast?_eq hl
          have h1 : height sc < heights (cs.getD (idx - 1) default).children :=
            height_lt_of_mem hsc
          by_cases hi1 : idx - 1 < cs.length
          · have hmem1 : cs.getD (idx - 1) default ∈ cs := by
              rw [List.getD_eq_getElem _ _ hi1]; exact List.getElem_mem hi1
            have h2 : height (cs.getD (idx - 1) default) < heights cs :=
              height_lt_of_mem hmem1
            rw [← height_eq_heights] at h1
            rw [← height_eq_heights]
            omega
          · omega
      · simp only [hf, if_true]
        rw [← height_eq_heights]
        exact hchild
  · -- c is the rebuilt left sibling
    subst h
    rw [List.length_set] at hlen
    have hmem1 : cs.getD (idx - 1) default ∈ cs := by
      rw [List.getD_eq_getElem _ _ hlen]; exact List.getElem_mem hlen
    have h2 : height (cs.getD (idx - 1) default) < heights cs := height_lt_of_mem hmem1
    rw [height_mk]
    have hle : heights (if (cs.getD idx default).leafFlag then
        (cs.getD (idx - 1) default).children
      else (cs.getD (idx - 1) default).children.dropLast) ≤
        heights (cs.getD (idx - 1) default).children := by
      split
      · exact le_refl _
      · exact heights_sublist (List.dropLast_sublist _)
    rw [← height_eq_heights] at hle
    omega

theorem height_borrow_next_lt {n : Node} {idx : Nat} {c : Node}
    (h : c ∈ (borrow_from_next n idx).children) : height c < height n := by
  cases n with
  | mk ks cs leaf =>
  simp only [borrow_from_next, Node.children_mk] at h
  rw [height_mk]
  rcases mem_set_cases h with h | ⟨h, hlen⟩
  · rcases mem_set_cases h with h | ⟨h, hlen⟩
    · exact height_lt_of_mem h
    · subst h
      have hmem : cs.getD idx default ∈ cs := by
        rw [List.getD_eq_getElem _ _ hlen]; exact List.getElem_mem hlen
      have hchild : height (cs.getD idx default) < heights cs := height_lt_of_mem hmem
      rw [height_mk]
      rcases hf : (cs.getD idx default).leafFlag with _ | _
      · simp only [hf, Bool.false_eq_true, if_false]
        rcases hl : (cs.getD (idx + 1) default).children with _ | ⟨sc, rest⟩
        · rw [← height_eq_heights]
          exact hchild
        · rw [heights_append]
          have hsc : sc ∈ (cs.getD (idx + 1) default).children := by
            rw [hl]; exact List.mem_cons_self sc rest
          have h1 : height sc < heights (cs.getD (idx + 1) default).children :=
            height_lt_of_mem hsc
          by_cases hi1 : idx + 1 < cs.length
          · have hmem1 : cs.getD (idx + 1) default ∈ cs := by
              rw [List.getD_eq_getElem _ _ hi1]; exact List.getElem_mem hi1
            have h2 : height (cs.getD (idx + 1) default) < heights cs :=
              height_lt_of_mem hmem1
            rw [← height_eq_heights] at h1
            rw [← height_eq_heights]
            simp only [heights_cons, heights_nil]
            omega
          · rw [List.getD_eq_default _ _ (by omega)] at hl
            simp [Inhabited.default] at hl
      · simp only [hf, if_true]
        rw [← height_eq_heights]
        exact hchild
  · subst h
    rw [List.length_set] at hlen
    have hmem1 : cs.getD (idx + 1) default ∈ cs := by
      rw [List.getD_eq_getElem _ _ hlen]; exact List.getElem_mem hlen
    have h2 : height (cs.getD (idx + 1) default) < heights cs := height_lt_of_mem hmem1
    rw [height_mk]
    have hle : heights (if (cs.getD idx default).leafFlag then
        (cs.getD (idx + 1) default).children
      else (cs.getD (idx + 1) default).children.drop 1) ≤
        heights (cs.getD (idx + 1) default).children := by
      split
      · exact le_refl _
      · exact heights_sublist (List.drop_sublist _ _)
    rw [← height_eq_heights] at hle
    omega

theorem height_merge_lt {n : Node} {idx : Nat} {c : Node}
    (h : c ∈ (merge n idx).children) : height c < height n := by
  cases n with
  | mk ks cs leaf =>
  simp only [merge, Node.children_mk] at h
  rw [height_mk]
  have h' := List.mem_of_mem_eraseIdx h
  rcases mem_set_cases h' with h' | ⟨h', hlen⟩
  · exact height_lt_of_mem h'
  · subst h'
    have hmem : cs.getD idx default ∈ cs := by
      rw [List.getD_eq_getElem _ _ hlen]; exact List.getElem_mem hlen
    have hchild : height (cs.getD idx default) < heights cs := height_lt_of_mem hmem
    rw [height_mk]
    rcases hf : (cs.getD idx default).leafFlag with _ | _
    · simp only [hf, Bool.false_eq_true, if_false]
      rw [heights_append]
      by_cases hi1 : idx + 1 < cs.length
      · have hmem1 : cs.getD (idx + 1) default ∈ cs := by
          rw [List.getD_eq_getElem _ _ hi1]; exact List.getElem_mem hi1
        have h2 : height (cs.getD (idx + 1) default) < heights cs :=
          height_lt_of_mem hmem1
        rw [← height_eq_heights, ← height_eq_heights]
        exact max_lt hchild h2
      · rw [show cs.getD (idx + 1) default = default from
          List.getD_eq_default cs default (by omega)]
        have hd : (default : Node).children = [] := rfl
        rw [hd, heights_nil, Nat.max_zero, ← height_eq_heights]
        exact hchild
    · simp only [hf, if_true]
      rw [← height_eq_heights]
      exact hchild

theorem height_fill_lt {t : Nat} {n : Node} {idx : Nat} {c : Node}
    (h : c ∈ (fill t n idx).children) : height c < height n := by
  cases n with
  | mk ks cs leaf =>
  simp only [fill] at h
  split at h
  · exact height_borrow_prev_lt h
  · split at h
    · exact height_borrow_next_lt h
    · split at h
      · exact height_merge_lt h
      · exact height_merge_lt h

theorem height_fill_branch_lt {t idx : Nat} {ks : List Int} {cs : List Node} {leaf : Bool}
    {P : Prop} [Decidable P] {c : Node}
    (h : c ∈ (if P then fill t (.mk ks cs leaf) idx else .mk ks cs leaf).children) :
    height c < height (Node.mk ks cs leaf) := by
  split at h
  · exact height_fill_lt h
  · rw [height_mk]
    exact height_lt_of_mem h

mutual
/-- The `_delete_internal` method of `btree/__init__.py`: delete `key` from
the subtree rooted here, assuming the caller has checked that it is
present.  When the key is found at this node it is removed from a leaf
directly or via `remove_from_non_leaf`; otherwise the covering child is
refilled if deficient and the deletion recurses, re-aiming at `idx - 1`
when a merge into the left sibling shifted the last position.  The branch
in which this node is a leaf and the key is missing is unreachable under
the caller's precondition (the source would raise `IndexError` right
after it); it is modelled as the identity. -/
def delete_internal (t : Nat) (n : Node) (key : Int) : Node :=
  match n with
  | .mk ks cs leaf =>
    let idx := get_key_index ks key
    if idx < ks.length ∧ ks.getD idx 0 = key then
      if leaf then .mk (ks.eraseIdx idx) cs leaf
      else remove_from_non_leaf t (.mk ks cs leaf) idx
    else
      if leaf then .mk ks cs leaf
      else
        let m := if (cs.getD idx default).keys.length < t then fill t (.mk ks cs leaf) idx
          else .mk ks cs leaf
        let idx' := if idx = ks.length ∧ m.keys.length < idx then idx - 1 else idx
        if h : idx' < m.children.length then
          .mk m.keys (m.children.set idx' (delete_internal t (m.children.get ⟨idx', h⟩) key))
            m.leafFlag
        else m
termination_by (height n, 1)
decreasing_by
  · apply Prod.Lex.right
    omega
  · apply Prod.Lex.left
    exact height_fill_branch_lt (List.get_mem _ _ _)

/-- The `remove_from_non_leaf` method of `btree/__init__.py`: remove the
key stored at position `idx` of this internal node by replacing it with
its in-order predecessor (when the left child can spare a key) or
successor (when the right child can), deleting that replacement from the
child, or else by merging the two children around it and deleting the key
from the merged child. -/
def remove_from_non_leaf (t : Nat) (n : Node) (idx : Nat) : Node :=
  match n with
  | .mk ks cs leaf =>
    let key := ks.getD idx 0
    if t ≤ (cs.getD idx default).keys.length then
      let predk := get_predecessor (cs.getD idx default)
      if h : idx < cs.length then
        .mk (ks.set idx predk) (cs.set idx (delete_internal t (cs.get ⟨idx, h⟩) predk)) leaf
      else .mk ks cs leaf
    else if t ≤ (cs.getD (idx + 1) default).keys.length then
      let succk := get_successor (cs.getD (idx + 1) default)
      if h : idx + 1 < cs.length then
        .mk (ks.set idx succk)
          (cs.set (idx + 1) (delete_internal t (cs.get ⟨idx + 1, h⟩) succk)) leaf
      else .mk ks cs leaf
    else
      let m := merge (.mk ks cs leaf) idx
      if h : idx < m.children.length then
        .mk m.keys (m.children.set idx (delete_internal t (m.children.get ⟨idx, h⟩) key))
          m.leafFlag
      else m
termination_by (height n, 0)
decreasing_by
  · apply Prod.Lex.left
    rw [height_mk]
    exact height_lt_of_mem (List.get_mem _ _ _)
  · apply Prod.Lex.left
    rw [height_mk]
    exact height_lt_of_mem (List.get_mem _ _ _)
  · apply Prod.Lex.left
    exact height_merge_lt (List.get_mem _ _ _)
end

mutual
/-- The `delete` method of `main.py`'s `BTreeNode`: the same algorithm as
`delete_internal`, except that a missing key is detected at a leaf and
simply ignored (`return`), so no up-front search is needed. -/
def deleteMNode (t : Nat) (n : Node) (key : Int) : Node :=
  match n with
  | .mk ks cs leaf =>
    let idx := get_key_index ks key
    if idx < ks.length ∧ ks.getD idx 0 = key then
      if leaf then .mk (ks.eraseIdx idx) cs leaf
      else remove_from_non_leafM t (.mk ks cs leaf) idx
    else
      if leaf then .mk ks cs leaf
      else
        let m := if (cs.getD idx default).keys.length < t then fill t (.mk ks cs leaf) idx
          else .mk ks cs leaf
        let idx' := if idx = ks.length ∧ m.keys.length < idx then idx - 1 else idx
        if h : idx' < m.children.length then
          .mk m.keys (m.children.set idx' (deleteMNode t (m.children.get ⟨idx', h⟩) key))
            m.leafFlag
        else m
termination_by (height n, 1)
decreasing_by
  · apply Prod.Lex.right
    omega
  · apply Prod.Lex.left
    exact height_fill_branch_lt (List.get_mem _ _ _)

/-- The `remove_from_non_leaf` method of `main.py`: identical to the
package version except that the recursive deletions go through `deleteM`. -/
def remove_from_non_leafM (t : Nat) (n : Node) (idx : Nat) : Node :=
  match n with
  | .mk ks cs leaf =>
    let key := ks.getD idx 0
    if t ≤ (cs.getD idx default).keys.length then
      let predk := get_predecessor (cs.getD idx default)
      if h : idx < cs.length then
        .mk (ks.set idx predk) (cs.set idx (deleteMNode t (cs.get ⟨idx, h⟩) predk)) leaf
      else .mk ks cs leaf
    else if t ≤ (cs.getD (idx + 1) default).keys.length then
      let succk := get_successor (cs.getD (idx + 1) default)
      if h : idx + 1 < cs.length then
        .mk (ks.set idx succk)
          (cs.set (idx + 1) (deleteMNode t (cs.get ⟨idx + 1, h⟩) succk)) leaf
      else .mk ks cs leaf
    else
      let m := merge (.mk ks cs leaf) idx
      if h : idx < m.children.length then
        .mk m.keys (m.children.set idx (deleteMNode t (m.children.get ⟨idx, h⟩) key))
          m.leafFlag
      else m
termination_by (height n, 0)
decreasing_by
  · apply Prod.Lex.left
    rw [height_mk]
    exact height_lt_of_mem (List.get_mem _ _ _)
  · apply Prod.Lex.left
    rw [height_mk]
    exact height_lt_of_mem (List.get_mem _ _ _)
  · apply Prod.Lex.left
    exact height_merge_lt (List.get_mem _ _ _)
end

/-- The `delete` method of `btree/__init__.py`'s `BTreeNode`: search for
the key first and return unchanged when it is absent, otherwise run the
real deletion. -/
def deleteNode (t : Nat) (n : Node) (key : Int) : Node :=
  match searchNode n key with
  | none => n
  | some _ => delete_internal t n key

/-- The `BTree` class: a root node and the tree-wide minimum degree.  In
the source every node also stores `min_degree`, but it is passed down
unchanged from the tree to every node it creates, so it is threaded here
as an explicit parameter instead. -/
structure BTree where
  root : Node
  min_degree : Nat

/-- The `BTree.__init__` constructor of both copies: `ValueError` when
`min_degree < 2` (modelled as `none`), otherwise a tree whose root is an
empty leaf. -/
def BTree.create (min_degree : Int) : Option BTree :=
  if min_degree < 2 then none
  else some ⟨Node.mk [] [] true, min_degree.toNat⟩

/-- The `BTree.insert` method of `btree/__init__.py`: split a full root
first (new internal root over the old one, `split_child` at index 0),
then `insert_non_full` into the root. -/
def BTree.insertI (tr : BTree) (key : Int) : BTree :=
  let t := tr.min_degree
  if tr.root.keys.length = 2 * t - 1 then
    let new_root := split_child t (.mk [] [tr.root] false) 0
    ⟨insert_non_full t new_root key, t⟩
  else ⟨insert_non_full t tr.root key, t⟩

/-- The `BTree.insert` method of `main.py`: identical except that the new
root is populated before being assigned. -/
def BTree.insertM (tr : BTree) (key : Int) : BTree :=
  let t := tr.min_degree
  if tr.root.keys.length = 2 * t - 1 then
    let new_root := split_child t (.mk [] [tr.root] false) 0
    let new_root2 := insert_non_full t new_root key
    ⟨new_root2, t⟩
  else ⟨insert_non_full t tr.root key, t⟩

/-- The `BTree.search` method of `btree/__init__.py`: `None` when the root
has no keys, otherwise the node-level search. -/
def BTree.searchI (tr : BTree) (key : Int) : Option Node :=
  if tr.root.keys = [] then none
  else searchNode tr.root key

/-- The `BTree.search` method of `main.py`: the root always exists, so it
just delegates to the node-level search. -/
def BTree.searchM (tr : BTree) (key : Int) : Option Node :=
  searchNode tr.root key

/-- The `BTree.traverse` method (both copies print the same sequence): the
in-order key sequence of the root. -/
def BTree.traverse (tr : BTree) : List Int :=
  toList tr.root

/-- The `BTree.delete` method of `btree/__init__.py`: delete from the root
(a no-op when the key is absent thanks to the node-level search guard),
then shrink the tree one level when the root is an internal node left
without keys. -/
def BTree.deleteI (tr : BTree) (key : Int) : BTree :=
  let r := deleteNode tr.min_degree tr.root key
  if r.keys.length = 0 ∧ r.leafFlag = false then
    ⟨r.children.getD 0 default, tr.min_degree⟩
  else ⟨r, tr.min_degree⟩

/-- The `BTree.delete` method of `main.py`: delete from the root with the
total node-level deletion, then shrink exactly as the package version. -/
def BTree.deleteM (tr : BTree) (key : Int) : BTree :=
  let r := deleteMNode tr.min_degree tr.root key
  if r.keys.length = 0 ∧ r.leafFlag = false then
    ⟨r.children.getD 0 default, tr.min_degree⟩
  else ⟨r, tr.min_degree⟩

/-- Operations applied to a tree by a test sequence. -/
inductive Op where
  | ins (key : Int)
  | del (key : Int)

/-- Application of one operation, package (`btree/__init__.py`) version. -/
def stepI (tr : BTree) : Op → BTree
  | .ins k => tr.insertI k
  | .del k => tr.deleteI k

/-- Application of one operation, `main.py` version. -/
def stepM (tr : BTree) : Op → BTree
  | .ins k => tr.insertM k
  | .del k => tr.deleteM k

/-- The tree obtained by running a sequence of operations on a freshly
constructed (empty-leaf-root) tree of minimum degree `t`, package version. -/
def runI (t : Nat) (ops : List Op) : BTree :=
  ops.foldl stepI ⟨Node.mk [] [] true, t⟩

/-- The tree obtained by running a sequence of operations on a freshly
constructed tree of minimum degree `t`, `main.py` version. -/
def runM (t : Nat) (ops : List Op) : BTree :=
  ops.foldl stepM ⟨Node.mk [] [] true, t⟩

/-! Splice lemmas: the index-based list operations of the source written as
`take ++ _ :: drop` decompositions. -/

theorem insertIdx_splice {α : Type} (a : α) :
    ∀ (i : Nat) (l : List α), i ≤ l.length →
      l.insertIdx i a = l.take i ++ a :: l.drop i
  | 0, l, _ => by simp [List.insertIdx_zero]
  | i + 1, [], h => by simp at h
  | i + 1, x :: l, h => by
    rw [List.insertIdx_succ_cons, insertIdx_splice a i l (by simpa using h)]
    simp

theorem set_splice {α : Type} (a : α) {i : Nat} {l : List α} (h : i < l.length) :
    l.set i a = l.take i ++ a :: l.drop (i + 1) :=
  List.set_eq_take_cons_drop a h

theorem eraseIdx_splice {α : Type} (i : Nat) (l : List α) :
    l.eraseIdx i = l.take i ++ l.drop (i + 1) :=
  List.eraseIdx_eq_take_drop_succ l i

theorem drop_splice {α : Type} [Inhabited α] {i : Nat} {l : List α} (h : i < l.length) :
    l.drop i = l.getD i default :: l.drop (i + 1) := by
  rw [List.getD_eq_getElem _ _ h]
  exact List.drop_eq_getElem_cons h

theorem splice_getD {α : Type} [Inhabited α] (xs zs : List α) (y : α) :
    (xs ++ y :: zs).getD xs.length default = y := by
  rw [List.getD_eq_getElem _ _ (by simp)]
  rw [List.getElem_append_right (le_refl _)]
  simp

theorem splice_getD_succ {α : Type} [Inhabited α] (xs zs : List α) (y z : α) :
    (xs ++ y :: z :: zs).getD (xs.length + 1) default = z := by
  rw [List.getD_eq_getElem _ _ (by simp)]
  rw [List.getElem_append_right (by omega)]
  simp

theorem splice_set {α : Type} (xs zs : List α) (y y' : α) :
    (xs ++ y :: zs).set xs.length y' = xs ++ y' :: zs := by
  rw [List.set_append_right _ _ (le_refl _)]
  simp

theorem splice_set_succ {α : Type} (xs zs : List α) (y z z' : α) :
    (xs ++ y :: z :: zs).set (xs.length + 1) z' = xs ++ y :: z' :: zs := by
  rw [List.set_append_right _ _ (by omega)]
  have : xs.length + 1 - xs.length = 1 := by omega
  rw [this]
  rfl

/-! Lemmas about `inter`, `interPre` and sortedness of the flattening. -/

/-- Tail of an interleaving after its first child has been removed. -/
def interTail : List Node → List Int → List Int
  | _, [] => []
  | cs, k :: ks => k :: inter cs ks

@[simp] theorem interTail_nil (cs : List Node) : interTail cs [] = [] := by
  cases cs <;> rfl

@[simp] theorem interTail_cons (cs : List Node) (k : Int) (ks : List Int) :
    interTail cs (k :: ks) = k :: inter cs ks := by
  cases cs <;> rfl

theorem inter_cons_eq (x : Node) (cs : List Node) (ks : List Int) :
    inter (x :: cs) ks = toList x ++ interTail cs ks := by
  cases ks <;> simp [interTail]

/-- Splitting an interleaving at the key in position `a`. -/
theorem inter_split {a : Nat} : ∀ {cs : List Node} {ks : List Int}, a < ks.length →
    cs.length = ks.length + 1 →
    inter cs ks = inter (cs.take (a + 1)) (ks.take a) ++
      ks.getD a 0 :: inter (cs.drop (a + 1)) (ks.drop (a + 1)) := by
  induction a with
  | zero =>
    intro cs ks hk hc
    cases ks with
    | nil => simp at hk
    | cons k ks =>
      cases cs with
      | nil => simp at hc
      | cons c cs => simp
  | succ a ih =>
    intro cs ks hk hc
    cases ks with
    | nil => simp at hk
    | cons k ks =>
      cases cs with
      | nil => simp at hc
      | cons c cs =>
        simp only [List.length_cons] at hk hc
        have := @ih cs ks (by omega) (by omega)
        simp [this]

theorem interPre_elems_lt {key : Int} : ∀ {cs : List Node} {ks : List Int},
    cs.length = ks.length → List.Sorted (· ≤ ·) (interPre cs ks) →
    (∀ k ∈ ks, k < key) → ∀ x ∈ interPre cs ks, x < key := by
  intro cs
  induction cs with
  | nil => intro ks _ _ _ x hx; simp at hx
  | cons c cs ih =>
    intro ks hlen hs hk x hx
    cases ks with
    | nil => simp at hlen
    | cons k ks =>
      simp only [interPre_cons] at hx hs
      rcases List.mem_append.mp hx with hx | hx
      · have h1 : x ≤ k := (List.pairwise_append.mp hs).2.2 x hx k (by simp)
        have h2 : k < key := hk k (by simp)
        omega
      · rcases List.mem_cons.mp hx with hx | hx
        · subst hx; exact hk x (by simp)
        · have hs2 := (List.pairwise_append.mp hs).2.1
          exact ih (by simpa using hlen)
            (List.Pairwise.sublist (List.sublist_cons_self k _) hs2)
            (fun a ha => hk a (by simp [ha])) x hx

theorem sorted_le_getLast {l : List Int} (hs : List.Sorted (· ≤ ·) l) (h : l ≠ [])
    {x : Int} (hx : x ∈ l) : x ≤ l.getLast h := by
  induction l with
  | nil => simp at hx
  | cons a l ih =>
    cases l with
    | nil =>
      simp at hx
      subst hx
      simp [List.getLast]
    | cons b l =>
      rw [List.getLast_cons (List.cons_ne_nil b l)]
      rcases List.mem_cons.mp hx with hx | hx
      · subst hx
        exact List.rel_of_sorted_cons hs _ (List.getLast_mem (List.cons_ne_nil b l))
      · exact ih (List.Sorted.of_cons hs) (List.cons_ne_nil b l) hx

theorem all_eq_append_comm {l : List Int} {a : Int} (h : ∀ x ∈ l, x = a) :
    l ++ [a] = a :: l := by
  induction l with
  | nil => rfl
  | cons b l ih =>
    have hb : b = a := h b (by simp)
    subst hb
    rw [List.cons_append, ih (fun x hx => h x (by simp [hx]))]

theorem erase_getLast_append {l : List Int} (hs : List.Sorted (· ≤ ·) l) (h : l ≠ []) :
    (l.erase (l.getLast h)) ++ [l.getLast h] = l := by
  induction l with
  | nil => simp at h
  | cons a l ih =>
    cases l with
    | nil => simp [List.getLast]
    | cons b l =>
      rw [List.getLast_cons (by simp)]
      by_cases ha : a = (b :: l).getLast (by simp)
      · have hall : ∀ x ∈ b :: l, x = a := by
          intro x hx
          have h1 : a ≤ x := List.rel_of_sorted_cons hs x hx
          have h2 : x ≤ (b :: l).getLast (by simp) :=
            sorted_le_getLast (List.Sorted.of_cons hs) (by simp) hx
          omega
        have herase : (a :: b :: l).erase ((b :: l).getLast (by simp)) = b :: l := by
          rw [← ha]
          exact List.erase_cons_head a _
        rw [herase, ← ha]
        exact all_eq_append_comm hall
      · have herase : (a :: b :: l).erase ((b :: l).getLast (by simp)) =
            a :: (b :: l).erase ((b :: l).getLast (by simp)) := by
          rw [List.erase_cons_tail]
          simp only [beq_iff_eq]
          exact ha
        rw [herase, List.cons_append, ih (List.Sorted.of_cons hs) (by simp)]

/-! Properties of `get_key_index`. -/

theorem gki_take_lt (keys : List Int) (key : Int) :
    ∀ x ∈ keys.take (get_key_index keys key), x < key := by
  induction keys with
  | nil => simp
  | cons k ks ih =>
    simp only [get_key_index]
    split
    · simp
    · intro x hx
      rw [List.take_succ_cons] at hx
      rcases List.mem_cons.mp hx with hx | hx
      · subst hx; omega
      · exact ih x hx

theorem gki_le_getD (keys : List Int) (key : Int)
    (h : get_key_index keys key < keys.length) :
    key ≤ keys.getD (get_key_index keys key) 0 := by
  induction keys with
  | nil => simp at h
  | cons k ks ih =>
    simp only [get_key_index] at h ⊢
    split
    · rename_i hle
      simpa using hle
    · rename_i hgt
      rw [if_neg hgt] at h
      simp only [List.length_cons] at h
      rw [List.getD_cons_succ]
      exact ih (by omega)

theorem gki_lt_of_sorted_mem {keys : List Int} {key : Int}
    (hs : List.Sorted (· ≤ ·) keys) (h : key ∈ keys) :
    get_key_index keys key < keys.length ∧ keys.getD (get_key_index keys key) 0 = key := by
  induction keys with
  | nil => simp at h
  | cons k ks ih =>
    simp only [get_key_index]
    split
    · rename_i hle
      have hk : k ≤ key := by
        rcases List.mem_cons.mp h with h1 | h1
        · omega
        · exact List.rel_of_sorted_cons hs key h1
      refine ⟨by simp, ?_⟩
      simp only [List.getD_cons_zero]
      omega
    · rename_i hgt
      have hmem : key ∈ ks := by
        rcases List.mem_cons.mp h with h | h
        · omega
        · exact h
      have := ih (List.Sorted.of_cons hs) hmem
      simp only [List.length_cons, List.getD_cons_succ]
      omega

theorem gki_not_mem_of_sorted {keys : List Int} {key : Int}
    (hs : List.Sorted (· ≤ ·) keys)
    (h : ¬ (get_key_index keys key < keys.length ∧ keys.getD (get_key_index keys key) 0 = key)) :
    key ∉ keys := by
  intro hmem
  exact h (gki_lt_of_sorted_mem hs hmem)

/-! Structural invariants of the B-tree, as maintained by the source:
`ok t n` states that below `n` the leaf flags match the absence of
children, every internal node with `k` keys has `k + 1` children, every
non-root node carries between `t - 1` and `2t - 1` keys, and all children
of a node have equal height (all leaves at the same depth). -/

/-- All nodes of the list have the same height. -/
def sameHB : List Node → Bool
  | [] => true
  | c :: rest => rest.all (fun d => height d == height c)

mutual
/-- Structural invariant below a node (the node's own key-count bounds are
not included, since they differ between the root and inner nodes). -/
def ok (t : Nat) : Node → Bool
  | .mk ks cs leaf =>
    if leaf then cs.isEmpty
    else (cs.length == ks.length + 1) && sameHB cs && okAll t cs

/-- Invariant plus non-root key-count bounds for every node of a list. -/
def okAll (t : Nat) : List Node → Bool
  | [] => true
  | c :: rest => ok t c && decide (t - 1 ≤ c.keys.length) &&
      decide (c.keys.length ≤ 2 * t - 1) && okAll t rest
end

@[simp] theorem ok_leaf (t : Nat) (ks : List Int) (cs : List Node) :
    ok t (.mk ks cs true) = cs.isEmpty := by
  simp [ok]

theorem ok_node (t : Nat) (ks : List Int) (cs : List Node) :
    ok t (.mk ks cs false) =
      ((cs.length == ks.length + 1) && sameHB cs && okAll t cs) := by
  simp [ok]

theorem okAll_iff (t : Nat) (cs : List Node) :
    okAll t cs = true ↔ ∀ c ∈ cs, ok t c = true ∧ t - 1 ≤ c.keys.length ∧
      c.keys.length ≤ 2 * t - 1 := by
  induction cs with
  | nil => simp [okAll]
  | cons c rest ih =>
    simp only [okAll, Bool.and_eq_true, decide_eq_true_eq, ih]
    constructor
    · rintro ⟨⟨⟨h1, h2⟩, h3⟩, h4⟩ d hd
      rcases List.mem_cons.mp hd with hd | hd
      · subst hd; exact ⟨h1, h2, h3⟩
      · exact h4 d hd
    · intro h
      refine ⟨⟨⟨(h c (by simp)).1, (h c (by simp)).2.1⟩, (h c (by simp)).2.2⟩, ?_⟩
      intro d hd
      exact h d (by simp [hd])

theorem sameHB_iff (cs : List Node) :
    sameHB cs = true ↔ ∀ c ∈ cs, ∀ d ∈ cs, height c = height d := by
  cases cs with
  | nil => simp [sameHB]
  | cons c rest =>
    simp only [sameHB, List.all_eq_true, beq_iff_eq]
    constructor
    · intro h x hx y hy
      have hx' : height x = height c := by
        rcases List.mem_cons.mp hx with hx | hx
        · rw [hx]
        · exact h x hx
      have hy' : height y = height c := by
        rcases List.mem_cons.mp hy with hy | hy
        · rw [hy]
        · exact h y hy
      omega
    · intro h x hx
      exact h x (by simp [hx]) c (by simp)

theorem sameHB_of_forall {cs : List Node} {hgt : Nat}
    (h : ∀ c ∈ cs, height c = hgt) : sameHB cs = true := by
  rw [sameHB_iff]
  intro c hc d hd
  rw [h c hc, h d hd]

theorem heights_eq_of_forall {cs : List Node} {hgt : Nat}
    (hall : ∀ d ∈ cs, height d = hgt) (hne : cs ≠ []) : heights cs = hgt + 1 := by
  induction cs with
  | nil => exact absurd rfl hne
  | cons d rest ih =>
    rw [heights_cons, hall d (by simp)]
    cases rest with
    | nil => simp
    | cons e rest2 =>
      rw [ih (fun x hx => hall x (by simp [hx])) (by simp)]
      omega

theorem heights_eq_of_sameHB {cs : List Node} {c : Node} (hs : sameHB cs = true)
    (hc : c ∈ cs) : heights cs = height c + 1 := by
  rw [sameHB_iff] at hs
  exact heights_eq_of_forall (fun d hd => hs d hd c hc) (List.ne_nil_of_mem hc)

/-! Relating node keys to the flattened sequence. -/

theorem sublist_inter : ∀ (ks : List Int) (cs : List Node),
    ks.length < cs.length → List.Sublist ks (inter cs ks) := by
  intro ks
  induction ks with
  | nil => intro cs _; simp
  | cons k ks ih =>
    intro cs hlen
    cases cs with
    | nil => simp at hlen
    | cons c cs =>
      rw [inter_cons_cons]
      have h1 : List.Sublist (k :: ks) (k :: inter cs ks) :=
        List.Sublist.cons₂ k (ih cs (by simp at hlen; omega))
      exact h1.trans (List.sublist_append_right (toList c) _)

theorem keys_sublist_toList {t : Nat} {n : Node} (h : ok t n = true) :
    List.Sublist n.keys (toList n) := by
  cases n with
  | mk ks cs leaf =>
    cases leaf with
    | true => simp
    | false =>
      rw [ok_node] at h
      simp only [Bool.and_eq_true, beq_iff_eq] at h
      rw [Node.keys_mk, toList_node]
      exact sublist_inter ks cs (by omega)

theorem toList_ne_nil {t : Nat} {n : Node} (h : ok t n = true) (hk : n.keys ≠ []) :
    toList n ≠ [] := by
  intro hnil
  have := keys_sublist_toList h
  rw [hnil, List.sublist_nil] at this
  exact hk this

/-! Bridging lemmas for `List.orderedInsert`. -/

theorem orderedInsert_append_left {A B : List Int} {key : Int}
    (h : ∀ x ∈ A, x < key) :
    List.orderedInsert (· ≤ ·) key (A ++ B) = A ++ List.orderedInsert (· ≤ ·) key B := by
  induction A with
  | nil => rfl
  | cons a A ih =>
    have hna : ¬ key ≤ a := by have := h a (by simp); omega
    simp only [List.cons_append, List.orderedInsert, if_neg hna, List.append_eq]
    rw [ih (fun x hx => h x (by simp [hx]))]

theorem orderedInsert_append_right {X Y : List Int} {key y : Int} (hy : key ≤ y) :
    List.orderedInsert (· ≤ ·) key (X ++ y :: Y) =
      List.orderedInsert (· ≤ ·) key X ++ y :: Y := by
  induction X with
  | nil => simp [List.orderedInsert, hy]
  | cons x X ih =>
    by_cases hx : key ≤ x
    · simp [List.orderedInsert, hx]
    · simp [List.orderedInsert, hx, ih]

theorem insertIdx_gki (ks : List Int) (key : Int) :
    ks.insertIdx (get_key_index ks key) key = List.orderedInsert (· ≤ ·) key ks := by
  induction ks with
  | nil => rfl
  | cons k ks ih =>
    simp only [get_key_index]
    split
    · rename_i h
      simp [List.insertIdx_zero, List.orderedInsert, h]
    · rename_i h
      rw [List.insertIdx_succ_cons]
      simp [List.orderedInsert, h, ih]

/-! The predecessor and successor walks reach the last and first key of the
flattened subtree. -/

theorem inter_getLast : ∀ (ks : List Int) (cs : List Node) (h : cs ≠ []),
    cs.length = ks.length + 1 → toList (cs.getLast h) ≠ [] →
    (inter cs ks).getLast? = (toList (cs.getLast h)).getLast? ∧ inter cs ks ≠ [] := by
  intro ks
  induction ks with
  | nil =>
    intro cs h hlen hne
    cases cs with
    | nil => simp at hlen
    | cons c cs =>
      cases cs with
      | nil => simpa using hne
      | cons d ds => simp at hlen
  | cons k ks ih =>
    intro cs h hlen hne
    cases cs with
    | nil => simp at hlen
    | cons c cs =>
      have hcs : cs ≠ [] := by
        intro hc; subst hc; simp at hlen
      have hlast : (c :: cs).getLast h = cs.getLast hcs := List.getLast_cons hcs
      rw [hlast] at hne
      have := ih cs hcs (by simp at hlen; omega) hne
      rw [inter_cons_cons]
      constructor
      · rw [List.getLast?_append_of_ne_nil _ (by simp),
          show (k :: inter cs ks).getLast? = (inter cs ks).getLast? from by
            cases hi : inter cs ks with
            | nil => exact absurd hi this.2
            | cons x xs => simp [List.getLast?_cons_cons],
          this.1, hlast]
      · simp

theorem get_predecessor_spec (t : Nat) (ht : 2 ≤ t) :
    ∀ n, ok t n = true → n.keys ≠ [] →
      get_predecessor n = (toList n).getLastD 0 ∧ toList n ≠ [] := by
  apply Node.height_induction
    (P := fun n => ok t n = true → n.keys ≠ [] →
      get_predecessor n = (toList n).getLastD 0 ∧ toList n ≠ [])
  intro n IH hok hk
  cases n with
  | mk ks cs leaf =>
    cases leaf with
    | true =>
      rw [get_predecessor.eq_def]
      simp only [toList_leaf, Node.keys_mk] at *
      exact ⟨by simp, hk⟩
    | false =>
      rw [ok_node] at hok
      simp only [Bool.and_eq_true, beq_iff_eq] at hok
      obtain ⟨⟨hlen, hsame⟩, hall⟩ := hok
      have hcs : cs ≠ [] := by
        intro hc; subst hc; simp at hlen
      have hmem : cs.getLast hcs ∈ cs := List.getLast_mem hcs
      have hcprops := (okAll_iff t cs).mp hall _ hmem
      have hckeys : (cs.getLast hcs).keys ≠ [] := by
        intro hc
        have := hcprops.2.1
        rw [hc] at this
        simp at this
        omega
      have hrec := IH (cs.getLast hcs) (by
          rw [height_mk]; exact height_lt_of_mem hmem) hcprops.1 hckeys
      have hinter := inter_getLast ks cs hcs hlen hrec.2
      rw [get_predecessor.eq_def]
      simp only [Bool.false_eq_true, if_false]
      constructor
      · cases cs with
        | nil => exact absurd rfl hcs
        | cons c0 cs0 =>
          rw [toList_node, List.getLastD_eq_getLast?, hinter.1,
            ← List.getLastD_eq_getLast?]
          exact hrec.1
      · rw [toList_node]
        exact hinter.2

theorem inter_head : ∀ (ks : List Int) (cs : List Node) (h : cs ≠ []),
    toList (cs.head h) ≠ [] →
    (inter cs ks).head? = (toList (cs.head h)).head? ∧ inter cs ks ≠ [] := by
  intro ks cs h hne
  cases cs with
  | nil => exact absurd rfl h
  | cons c cs =>
    simp only [List.head_cons] at hne
    cases ks with
    | nil =>
      refine ⟨?_, ?_⟩ <;> simpa using hne
    | cons k ks =>
      rw [inter_cons_cons]
      constructor
      · rw [List.head?_append_of_ne_nil _ hne]
        rfl
      · simp [hne]

theorem get_successor_spec (t : Nat) (ht : 2 ≤ t) :
    ∀ n, ok t n = true → n.keys ≠ [] →
      get_successor n = (toList n).headD 0 ∧ toList n ≠ [] := by
  apply Node.height_induction
    (P := fun n => ok t n = true → n.keys ≠ [] →
      get_successor n = (toList n).headD 0 ∧ toList n ≠ [])
  intro n IH hok hk
  cases n with
  | mk ks cs leaf =>
    cases leaf with
    | true =>
      rw [get_successor.eq_def]
      simp only [toList_leaf, Node.keys_mk] at *
      exact ⟨by simp, hk⟩
    | false =>
      rw [ok_node] at hok
      simp only [Bool.and_eq_true, beq_iff_eq] at hok
      obtain ⟨⟨hlen, hsame⟩, hall⟩ := hok
      have hcs : cs ≠ [] := by
        intro hc; subst hc; simp at hlen
      have hmem : cs.head hcs ∈ cs := List.head_mem hcs
      have hcprops := (okAll_iff t cs).mp hall _ hmem
      have hckeys : (cs.head hcs).keys ≠ [] := by
        intro hc
        have := hcprops.2.1
        rw [hc] at this
        simp at this
        omega
      have hrec := IH (cs.head hcs) (by
          rw [height_mk]; exact height_lt_of_mem hmem) hcprops.1 hckeys
      have hinter := inter_head ks cs hcs hrec.2
      rw [get_successor.eq_def]
      simp only [Bool.false_eq_true, if_false]
      constructor
      · cases cs with
        | nil => exact absurd rfl hcs
        | cons c0 cs0 =>
          rw [toList_node, List.headD_eq_head?_getD, hinter.1,
            ← List.headD_eq_head?_getD]
          exact hrec.1
      · rw [toList_node]
        exact hinter.2

/-! Helpers for reassembling a node after one child was replaced. -/

theorem sorted_of_sublist {l l' : List Int} (h : List.Sublist l' l)
    (hs : List.Sorted (· ≤ ·) l) : List.Sorted (· ≤ ·) l' :=
  List.Pairwise.sublist h hs

theorem sublist_of_segment {A B T l : List Int} (h : l = A ++ B ++ T) :
    List.Sublist B l := by
  subst h
  have h1 : List.Sublist B (B ++ T) := List.sublist_append_left _ _
  have h2 : List.Sublist (B ++ T) (A ++ (B ++ T)) := List.sublist_append_right _ _
  rw [← List.append_assoc] at h2
  exact h1.trans h2

theorem take_splice {α : Type} (A B : List α) (n : Nat) :
    (A ++ B).take (A.length + n) = A ++ B.take n := by
  induction A with
  | nil => simp
  | cons a A ih => simp [List.take_succ_cons, Nat.succ_add, ih]

theorem drop_splice' {α : Type} (A B : List α) (n : Nat) :
    (A ++ B).drop (A.length + n) = B.drop n := by
  induction A with
  | nil => simp
  | cons a A ih => simp [List.drop_succ_cons, Nat.succ_add, ih]

theorem sameHB_set {cs : List Node} {j : Nat} {X : Node} (hsame : sameHB cs = true)
    (hX : height X = height (cs.getD j default)) (hj : j < cs.length) :
    sameHB (cs.set j X) = true := by
  rw [sameHB_iff] at hsame ⊢
  have hmem : cs.getD j default ∈ cs := by
    rw [List.getD_eq_getElem _ _ hj]; exact List.getElem_mem hj
  intro c hc d hd
  have hcase : ∀ e, e ∈ cs.set j X → height e = height (cs.getD j default) := by
    intro e he
    rcases mem_set_cases he with he | ⟨he, _⟩
    · exact hsame e he _ hmem
    · rw [he, hX]
  rw [hcase c hc, hcase d hd]

theorem okAll_set {t : Nat} {cs : List Node} {j : Nat} {X : Node}
    (hall : okAll t cs = true) (hXok : ok t X = true)
    (hXlo : t - 1 ≤ X.keys.length) (hXhi : X.keys.length ≤ 2 * t - 1) :
    okAll t (cs.set j X) = true := by
  rw [okAll_iff] at hall ⊢
  intro c hc
  rcases mem_set_cases hc with hc | ⟨hc, _⟩
  · exact hall c hc
  · rw [hc]; exact ⟨hXok, hXlo, hXhi⟩

theorem heights_set_eq {cs : List Node} {j : Nat} {X : Node} (hsame : sameHB cs = true)
    (hj : j < cs.length) (hX : height X = height (cs.getD j default)) :
    heights (cs.set j X) = heights cs := by
  have hmem : cs.getD j default ∈ cs := by
    rw [List.getD_eq_getElem _ _ hj]; exact List.getElem_mem hj
  have hne : cs ≠ [] := List.ne_nil_of_mem hmem
  rw [sameHB_iff] at hsame
  have h1 : heights cs = height (cs.getD j default) + 1 :=
    heights_eq_of_forall (fun d hd => hsame d hd _ hmem) hne
  have h2 : heights (cs.set j X) = height (cs.getD j default) + 1 :=
    heights_eq_of_forall (fun d hd => by
      rcases mem_set_cases hd with hd | ⟨hd, _⟩
      · exact hsame d hd _ hmem
      · rw [hd, hX]) (by
        intro hc
        have := congrArg List.length hc
        rw [List.length_set] at this
        simp at this
        subst this
        simp at hj)
  rw [h1, h2]

/-- Decomposition of a flattening at the child in position `j`. -/
theorem toList_decomp {ks : List Int} {cs : List Node} (hlen : cs.length = ks.length + 1)
    {j : Nat} (hj : j < cs.length) :
    inter cs ks = interPre (cs.take j) (ks.take j) ++ toList (cs.getD j default) ++
      interTail (cs.drop (j + 1)) (ks.drop j) := by
  have hjk : j ≤ ks.length := by omega
  conv_lhs => rw [← List.take_append_drop j cs, ← List.take_append_drop j ks]
  rw [inter_append (by
    rw [List.length_take, List.length_take]
    omega)]
  rw [drop_splice hj, inter_cons_eq, List.append_assoc]

theorem int_default : (default : Int) = 0 := rfl

theorem getD_of_drop_cons {ks : List Int} {j : Nat} {k0 : Int} {ks0 : List Int}
    (hdk : ks.drop j = k0 :: ks0) : ks.getD j 0 = k0 ∧ j < ks.length := by
  have hjlt : j < ks.length := by
    by_contra hcon
    rw [List.drop_eq_nil_of_le (by omega)] at hdk
    simp at hdk
  have hds := drop_splice hjlt (l := ks)
  rw [int_default] at hds
  rw [hdk] at hds
  exact ⟨(List.cons.injEq _ _ _ _ ▸ hds).1.symm, hjlt⟩

/-- Reassembly: replacing the child in position `j` by a node whose
flattening is the ordered insertion of `key` into that child's flattening
turns the whole flattening into the ordered insertion of `key`. -/
theorem assemble_set {t : Nat} {ks : List Int} {cs : List Node} {j : Nat} {X : Node}
    {key : Int}
    (hlen : cs.length = ks.length + 1)
    (hsame : sameHB cs = true) (hall : okAll t cs = true)
    (hj : j < cs.length)
    (hs : List.Sorted (· ≤ ·) (inter cs ks))
    (htake : ∀ x ∈ ks.take j, x < key)
    (hdrop : j < ks.length → key ≤ ks.getD j 0)
    (hX : toList X = List.orderedInsert (· ≤ ·) key (toList (cs.getD j default)))
    (hXok : ok t X = true) (hXh : height X = height (cs.getD j default))
    (hXlo : t - 1 ≤ X.keys.length) (hXhi : X.keys.length ≤ 2 * t - 1) :
    toList (.mk ks (cs.set j X) false) = List.orderedInsert (· ≤ ·) key (inter cs ks)
    ∧ ok t (.mk ks (cs.set j X) false) = true
    ∧ height (.mk ks (cs.set j X) false) = height (.mk ks cs false) := by
  have hjk : j ≤ ks.length := by omega
  have hdec := @toList_decomp ks cs hlen j hj
  have hlhs : toList (.mk ks (cs.set j X) false) =
      interPre (cs.take j) (ks.take j) ++ toList X ++
        interTail (cs.drop (j + 1)) (ks.drop j) := by
    rw [toList_node, set_splice X hj]
    conv_lhs => rw [← List.take_append_drop j ks]
    rw [inter_append (by
      rw [List.length_take, List.length_take]
      omega)]
    rw [inter_cons_eq, List.append_assoc]
  have hPreSorted : List.Sorted (· ≤ ·) (interPre (cs.take j) (ks.take j)) := by
    apply sorted_of_sublist _ hs
    rw [hdec, List.append_assoc]
    exact List.sublist_append_left _ _
  have hPre : ∀ x ∈ interPre (cs.take j) (ks.take j), x < key :=
    interPre_elems_lt (by rw [List.length_take, List.length_take]; omega)
      hPreSorted htake
  have hmain : List.orderedInsert (· ≤ ·) key (inter cs ks) =
      interPre (cs.take j) (ks.take j) ++ toList X ++
        interTail (cs.drop (j + 1)) (ks.drop j) := by
    rw [hdec, List.append_assoc, orderedInsert_append_left hPre]
    cases hdk : ks.drop j with
    | nil =>
      rw [interTail_nil, List.append_nil, List.append_nil, hX]
    | cons k0 ks0 =>
      obtain ⟨hk0, hjlt⟩ := getD_of_drop_cons hdk
      rw [interTail_cons, orderedInsert_append_right (by rw [← hk0]; exact hdrop hjlt),
        hX, List.append_assoc]
  refine ⟨by rw [hlhs, hmain], ?_, ?_⟩
  · rw [ok_node]
    have hmem : cs.getD j default ∈ cs := by
      rw [List.getD_eq_getElem _ _ hj]; exact List.getElem_mem hj
    simp only [Bool.and_eq_true, beq_iff_eq, List.length_set]
    exact ⟨⟨by omega, sameHB_set hsame hXh hj⟩, okAll_set hall hXok hXlo hXhi⟩
  · rw [height_mk, height_mk, heights_set_eq hsame hj hXh]

/-! Properties of `split_child`. -/

/-- The node keeping the lower half of a split child (proof-side shorthand
for the updated `existing_child` of `split_child`). -/
def leftHalf (t : Nat) (c : Node) : Node :=
  .mk (c.keys.take (t - 1)) (if c.leafFlag then c.children else c.children.take t) c.leafFlag

/-- The new sibling keeping the upper half of a split child (proof-side
shorthand for the `new_child` of `split_child`). -/
def rightHalf (t : Nat) (c : Node) : Node :=
  .mk (c.keys.drop t) (if c.leafFlag then [] else c.children.drop t) c.leafFlag

theorem split_child_eq {t i : Nat} {ks : List Int} {cs : List Node} {b : Bool}
    (hi : i < cs.length) :
    split_child t (.mk ks cs b) i =
      .mk (ks.take i ++ (cs.getD i default).keys.getD (t - 1) 0 :: ks.drop i)
        (cs.take i ++ leftHalf t (cs.getD i default) ::
          rightHalf t (cs.getD i default) :: cs.drop (i + 1)) b
    ∨ (ks.length < i ∧ split_child t (.mk ks cs b) i =
        .mk ks (cs.take i ++ leftHalf t (cs.getD i default) ::
          rightHalf t (cs.getD i default) :: cs.drop (i + 1)) b) := by
  by_cases hik : i ≤ ks.length
  · left
    simp only [split_child, Node.keys_mk, Node.children_mk, Node.leafFlag_mk,
      leftHalf, rightHalf]
    rw [insertIdx_splice _ i ks hik, set_splice _ hi]
    rw [insertIdx_splice _ (i + 1) _ (by
      rw [List.length_append, List.length_take]
      simp
      omega)]
    have h1 : (cs.take i ++ leftHalf t (cs.getD i default) :: cs.drop (i + 1)).take (i + 1) =
        cs.take i ++ [leftHalf t (cs.getD i default)] := by
      have : i + 1 = (cs.take i).length + 1 := by rw [List.length_take]; omega
      rw [this, take_splice]
      rfl
    have h2 : (cs.take i ++ leftHalf t (cs.getD i default) :: cs.drop (i + 1)).drop (i + 1) =
        cs.drop (i + 1) := by
      have : i + 1 = (cs.take i).length + 1 := by rw [List.length_take]; omega
      rw [this, drop_splice']
      rfl
    simp only [leftHalf, rightHalf] at h1 h2
    rw [h1, h2, List.append_assoc]
    rfl
  · right
    refine ⟨by omega, ?_⟩
    simp only [split_child, Node.keys_mk, Node.children_mk, Node.leafFlag_mk,
      leftHalf, rightHalf]
    rw [List.insertIdx_of_length_lt _ _ _ (by omega), set_splice _ hi]
    rw [insertIdx_splice _ (i + 1) _ (by
      rw [List.length_append, List.length_take]
      simp
      omega)]
    have h1 : (cs.take i ++ leftHalf t (cs.getD i default) :: cs.drop (i + 1)).take (i + 1) =
        cs.take i ++ [leftHalf t (cs.getD i default)] := by
      have : i + 1 = (cs.take i).length + 1 := by rw [List.length_take]; omega
      rw [this, take_splice]
      rfl
    have h2 : (cs.take i ++ leftHalf t (cs.getD i default) :: cs.drop (i + 1)).drop (i + 1) =
        cs.drop (i + 1) := by
      have : i + 1 = (cs.take i).length + 1 := by rw [List.length_take]; omega
      rw [this, drop_splice']
      rfl
    simp only [leftHalf, rightHalf] at h1 h2
    rw [h1, h2, List.append_assoc]
    rfl

theorem split_child_eq_in {t i : Nat} {ks : List Int} {cs : List Node} {b : Bool}
    (hi : i < cs.length) (hik : i ≤ ks.length) :
    split_child t (.mk ks cs b) i =
      .mk (ks.take i ++ (cs.getD i default).keys.getD (t - 1) 0 :: ks.drop i)
        (cs.take i ++ leftHalf t (cs.getD i default) ::
          rightHalf t (cs.getD i default) :: cs.drop (i + 1)) b := by
  rcases @split_child_eq t _ ks _ b hi with h | ⟨hlt, _⟩
  · exact h
  · omega

/-- Splitting a full well-formed child yields two well-formed halves of
`t - 1` keys each, the same height, and the same flattening around the
promoted median. -/
theorem halves_spec {t : Nat} (ht : 2 ≤ t) {c : Node} (hok : ok t c = true)
    (hfull : c.keys.length = 2 * t - 1) :
    toList c = toList (leftHalf t c) ++ c.keys.getD (t - 1) 0 :: toList (rightHalf t c)
    ∧ ok t (leftHalf t c) = true ∧ ok t (rightHalf t c) = true
    ∧ (leftHalf t c).keys.length = t - 1 ∧ (rightHalf t c).keys.length = t - 1
    ∧ height (leftHalf t c) = height c ∧ height (rightHalf t c) = height c
    ∧ (leftHalf t c).leafFlag = c.leafFlag ∧ (rightHalf t c).leafFlag = c.leafFlag := by
  cases c with
  | mk cks ccs cleaf =>
  simp only [Node.keys_mk] at hfull
  cases cleaf with
  | true =>
    have hccs : ccs = [] := by simpa using hok
    subst hccs
    have hL : leftHalf t (.mk cks [] true) = .mk (cks.take (t - 1)) [] true := by
      simp [leftHalf]
    have hR : rightHalf t (.mk cks [] true) = .mk (cks.drop t) [] true := by
      simp [rightHalf]
    rw [hL, hR]
    refine ⟨?_, by simp, by simp, ?_, ?_, by simp, by simp, by simp, by simp⟩
    · simp only [toList_leaf, Node.keys_mk]
      conv_lhs => rw [← List.take_append_drop (t - 1) cks]
      rw [drop_splice (l := cks) (by omega : t - 1 < cks.length), int_default,
        (by omega : t - 1 + 1 = t)]
    · simp only [Node.keys_mk, List.length_take]; omega
    · simp only [Node.keys_mk, List.length_drop]; omega
  | false =>
    rw [ok_node] at hok
    simp only [Bool.and_eq_true, beq_iff_eq] at hok
    obtain ⟨⟨hlen, hsame⟩, hall⟩ := hok
    have hccsne : ccs ≠ [] := by
      intro hc; subst hc; simp at hlen
    have hhd : ccs.head hccsne ∈ ccs := List.head_mem hccsne
    rw [sameHB_iff] at hsame
    have hforall : ∀ d ∈ ccs, height d = height (ccs.head hccsne) :=
      fun d hd => hsame d hd _ hhd
    have hcheight : heights ccs = height (ccs.head hccsne) + 1 :=
      heights_eq_of_forall hforall hccsne
    have htake_ne : ccs.take t ≠ [] := by
      intro hc
      have hlc := congrArg List.length hc
      rw [List.length_take] at hlc
      simp only [List.length_nil] at hlc
      omega
    have hdrop_ne : ccs.drop t ≠ [] := by
      intro hc
      have hlc := congrArg List.length hc
      rw [List.length_drop] at hlc
      simp only [List.length_nil] at hlc
      omega
    have htakeh : heights (ccs.take t) = height (ccs.head hccsne) + 1 :=
      heights_eq_of_forall (fun d hd => hforall d (List.mem_of_mem_take hd)) htake_ne
    have hdroph : heights (ccs.drop t) = height (ccs.head hccsne) + 1 :=
      heights_eq_of_forall (fun d hd => hforall d (List.mem_of_mem_drop hd)) hdrop_ne
    have hL : leftHalf t (.mk cks ccs false) = .mk (cks.take (t - 1)) (ccs.take t) false := by
      simp [leftHalf]
    have hR : rightHalf t (.mk cks ccs false) = .mk (cks.drop t) (ccs.drop t) false := by
      simp [rightHalf]
    rw [hL, hR]
    refine ⟨?_, ?_, ?_, ?_, ?_, ?_, ?_, by simp, by simp⟩
    · simp only [toList_node, Node.keys_mk]
      rw [inter_split (a := t - 1) (by omega) (by omega),
        (by omega : t - 1 + 1 = t)]
    · rw [ok_node]
      simp only [Bool.and_eq_true, beq_iff_eq]
      refine ⟨⟨?_, ?_⟩, ?_⟩
      · rw [List.length_take, List.length_take]; omega
      · rw [sameHB_iff]
        intro x hx y hy
        rw [hforall x (List.mem_of_mem_take hx), hforall y (List.mem_of_mem_take hy)]
      · rw [okAll_iff] at hall ⊢
        exact fun d hd => hall d (List.mem_of_mem_take hd)
    · rw [ok_node]
      simp only [Bool.and_eq_true, beq_iff_eq]
      refine ⟨⟨?_, ?_⟩, ?_⟩
      · rw [List.length_drop, List.length_drop]; omega
      · rw [sameHB_iff]
        intro x hx y hy
        rw [hforall x (List.mem_of_mem_drop hx), hforall y (List.mem_of_mem_drop hy)]
      · rw [okAll_iff] at hall ⊢
        exact fun d hd => hall d (List.mem_of_mem_drop hd)
    · simp only [Node.keys_mk, List.length_take]; omega
    · simp only [Node.keys_mk, List.length_drop]; omega
    · simp only [height_mk]
      rw [htakeh, hcheight]
    · simp only [height_mk]
      rw [hdroph, hcheight]

theorem getD_splice_at {A B : List Node} {y : Node} {n : Nat} (h : A.length = n) :
    (A ++ y :: B).getD n default = y := by
  subst h; exact splice_getD A B y

theorem getD_splice_at_succ {A B : List Node} {y z : Node} {n : Nat} (h : A.length = n) :
    (A ++ y :: z :: B).getD (n + 1) default = z := by
  subst h; exact splice_getD_succ A B y z

theorem getD_splice_at_int {A B : List Int} {y : Int} {n : Nat} (h : A.length = n) :
    (A ++ y :: B).getD n 0 = y := by
  subst h
  have := splice_getD A B y
  rwa [int_default] at this

theorem getD_splice_at_succ_int {A B : List Int} {y z : Int} {n : Nat} (h : A.length = n) :
    (A ++ y :: z :: B).getD (n + 1) 0 = z := by
  subst h
  have := splice_getD_succ A B y z
  rwa [int_default] at this

/-- Key contents specification of `insert_non_full`: on a well-formed,
sorted, non-full node it performs exactly an ordered insertion into the
flattening, preserves the invariant, the height and the leaf flag, and
grows this node's key list by at most one. -/
theorem insert_non_full_spec {t : Nat} (ht : 2 ≤ t) :
    ∀ n, ok t n = true → List.Sorted (· ≤ ·) (toList n) →
    ∀ key, n.keys.length ≤ 2 * t - 2 →
    toList (insert_non_full t n key) = List.orderedInsert (· ≤ ·) key (toList n)
    ∧ ok t (insert_non_full t n key) = true
    ∧ height (insert_non_full t n key) = height n
    ∧ (insert_non_full t n key).leafFlag = n.leafFlag
    ∧ n.keys.length ≤ (insert_non_full t n key).keys.length
    ∧ (insert_non_full t n key).keys.length ≤ n.keys.length + 1 := by
  apply Node.height_induction (P := fun n => ok t n = true →
    List.Sorted (· ≤ ·) (toList n) → ∀ key, n.keys.length ≤ 2 * t - 2 →
    toList (insert_non_full t n key) = List.orderedInsert (· ≤ ·) key (toList n)
    ∧ ok t (insert_non_full t n key) = true
    ∧ height (insert_non_full t n key) = height n
    ∧ (insert_non_full t n key).leafFlag = n.leafFlag
    ∧ n.keys.length ≤ (insert_non_full t n key).keys.length
    ∧ (insert_non_full t n key).keys.length ≤ n.keys.length + 1)
  intro n IH hok hs key hnf
  cases n with
  | mk ks cs leaf =>
  simp only [Node.keys_mk] at hnf
  cases leaf with
  | true =>
    have hcs : cs = [] := by simpa using hok
    subst hcs
    have heq : insert_non_full t (.mk ks [] true) key =
        .mk (ks.insertIdx (get_key_index ks key) key) [] true := by
      rw [insert_non_full.eq_def]
      rfl
    rw [heq]
    have hkeys : ks.insertIdx (get_key_index ks key) key =
        List.orderedInsert (· ≤ ·) key ks := insertIdx_gki ks key
    refine ⟨by simp [hkeys], by simp, by simp, by simp, ?_, ?_⟩
    · simp only [Node.keys_mk, hkeys, List.orderedInsert_length]
      omega
    · simp only [Node.keys_mk, hkeys, List.orderedInsert_length]
      omega
  | false =>
    have hokn := hok
    rw [ok_node] at hokn
    simp only [Bool.and_eq_true, beq_iff_eq] at hokn
    obtain ⟨⟨hlen, hsame⟩, hall⟩ := hokn
    set i := get_key_index ks key with hidef
    have hile : i ≤ ks.length := get_key_index_le_length ks key
    have hi : i < cs.length := by omega
    have hCmem : cs.getD i default ∈ cs := by
      rw [List.getD_eq_getElem _ _ hi]; exact List.getElem_mem hi
    have hCfacts := (okAll_iff t cs).mp hall _ hCmem
    have hsorted_inter : List.Sorted (· ≤ ·) (inter cs ks) := by
      simpa using hs
    have hCsorted : List.Sorted (· ≤ ·) (toList (cs.getD i default)) :=
      sorted_of_sublist (sublist_of_segment (toList_decomp hlen hi)) hsorted_inter
    by_cases hfull : (cs.getD i default).keys.length = 2 * t - 1
    · -- the covering child is full: split it first
      have hhalves := halves_spec ht hCfacts.1 hfull
      obtain ⟨hsplitL, hokL, hokR, hlenL, hlenR, hhL, hhR, hfL, hfR⟩ := hhalves
      have hsc := split_child_eq_in (t := t) hi hile (b := false)
      -- flattening of the split node equals the original flattening
      have hmid_lt : ∀ x ∈ ks.take i, x < key := gki_take_lt ks key
      have hsplit_toList :
          inter (cs.take i ++ leftHalf t (cs.getD i default) ::
              rightHalf t (cs.getD i default) :: cs.drop (i + 1))
            (ks.take i ++ (cs.getD i default).keys.getD (t - 1) 0 :: ks.drop i) =
          inter cs ks := by
        rw [inter_append (by rw [List.length_take, List.length_take]; omega)]
        rw [inter_cons_eq, interTail_cons, inter_cons_eq]
        rw [toList_decomp hlen hi, hsplitL]
        simp [List.append_assoc]
      have htakei : (ks.take i).length = i := by rw [List.length_take]; omega
      have htakeci : (cs.take i).length = i := by rw [List.length_take]; omega
      have hlenKS2 : (ks.take i ++ (cs.getD i default).keys.getD (t - 1) 0 ::
          ks.drop i).length = ks.length + 1 := by
        simp only [List.length_append, List.length_cons, List.length_take,
          List.length_drop]
        omega
      have hlenCS2 : (cs.take i ++ leftHalf t (cs.getD i default) ::
          rightHalf t (cs.getD i default) :: cs.drop (i + 1)).length = cs.length + 1 := by
        simp only [List.length_append, List.length_cons, List.length_take,
          List.length_drop]
        omega
      have hKS2getD : (ks.take i ++ (cs.getD i default).keys.getD (t - 1) 0 ::
          ks.drop i).getD i 0 = (cs.getD i default).keys.getD (t - 1) 0 :=
        getD_splice_at_int htakei
      have hCS2getD : (cs.take i ++ leftHalf t (cs.getD i default) ::
          rightHalf t (cs.getD i default) :: cs.drop (i + 1)).getD i default =
          leftHalf t (cs.getD i default) := getD_splice_at htakeci
      have hCS2getD' : (cs.take i ++ leftHalf t (cs.getD i default) ::
          rightHalf t (cs.getD i default) :: cs.drop (i + 1)).getD (i + 1) default =
          rightHalf t (cs.getD i default) := getD_splice_at_succ htakeci
      have hsame_iff := (sameHB_iff cs).mp hsame
      have hforallCS2 : ∀ d ∈ cs.take i ++ leftHalf t (cs.getD i default) ::
          rightHalf t (cs.getD i default) :: cs.drop (i + 1),
          height d = height (cs.getD i default) := by
        intro d hd
        simp only [List.mem_append, List.mem_cons] at hd
        rcases hd with hd | hd | hd | hd
        · exact hsame_iff d (List.mem_of_mem_take hd) _ hCmem
        · rw [hd]; exact hhL
        · rw [hd]; exact hhR
        · exact hsame_iff d (List.mem_of_mem_drop hd) _ hCmem
      have hallCS2 : okAll t (cs.take i ++ leftHalf t (cs.getD i default) ::
          rightHalf t (cs.getD i default) :: cs.drop (i + 1)) = true := by
        rw [okAll_iff]
        intro d hd
        simp only [List.mem_append, List.mem_cons] at hd
        rcases hd with hd | hd | hd | hd
        · exact (okAll_iff t cs).mp hall d (List.mem_of_mem_take hd)
        · rw [hd]; exact ⟨hokL, by omega, by omega⟩
        · rw [hd]; exact ⟨hokR, by omega, by omega⟩
        · exact (okAll_iff t cs).mp hall d (List.mem_of_mem_drop hd)
      have hsameCS2 : sameHB (cs.take i ++ leftHalf t (cs.getD i default) ::
          rightHalf t (cs.getD i default) :: cs.drop (i + 1)) = true :=
        sameHB_of_forall hforallCS2
      have hheightsCS2 : heights (cs.take i ++ leftHalf t (cs.getD i default) ::
          rightHalf t (cs.getD i default) :: cs.drop (i + 1)) = heights cs := by
        have h1 : heights cs = height (cs.getD i default) + 1 :=
          heights_eq_of_sameHB hsame hCmem
        have h2 := heights_eq_of_forall hforallCS2 (by
          intro hc
          have := congrArg List.length hc
          rw [hlenCS2] at this
          simp at this)
        omega
      have hsortedCS2 : List.Sorted (· ≤ ·)
          (inter (cs.take i ++ leftHalf t (cs.getD i default) ::
              rightHalf t (cs.getD i default) :: cs.drop (i + 1))
            (ks.take i ++ (cs.getD i default).keys.getD (t - 1) 0 :: ks.drop i)) := by
        rw [hsplit_toList]; exact hsorted_inter
      have hCsub : List.Sublist (toList (cs.getD i default)) (inter cs ks) :=
        sublist_of_segment (toList_decomp hlen hi)
      have hLsub : List.Sublist (toList (leftHalf t (cs.getD i default)))
          (toList (cs.getD i default)) := by
        rw [hsplitL]; exact List.sublist_append_left _ _
      have hRsub : List.Sublist (toList (rightHalf t (cs.getD i default)))
          (toList (cs.getD i default)) := by
        rw [hsplitL]
        exact (List.sublist_cons_self _ _).trans (List.sublist_append_right _ _)
      have hLsorted := sorted_of_sublist (hLsub.trans hCsub) hsorted_inter
      have hRsorted := sorted_of_sublist (hRsub.trans hCsub) hsorted_inter
      have hhL' : height (leftHalf t (cs.getD i default)) < height (.mk ks cs false) := by
        rw [height_mk, hhL]
        exact height_lt_of_mem hCmem
      have hhR' : height (rightHalf t (cs.getD i default)) < height (.mk ks cs false) := by
        rw [height_mk, hhR]
        exact height_lt_of_mem hCmem
      have IHL := IH _ hhL' hokL hLsorted key (by omega)
      have IHR := IH _ hhR' hokR hRsorted key (by omega)
      by_cases hcmp : (cs.getD i default).keys.getD (t - 1) 0 < key
      · -- the key belongs to the new right sibling
        have hdpos : i + 1 < (cs.take i ++ leftHalf t (cs.getD i default) ::
            rightHalf t (cs.getD i default) :: cs.drop (i + 1)).length := by
          rw [hlenCS2]; omega
        have hres : insert_non_full t (.mk ks cs false) key =
            .mk (ks.take i ++ (cs.getD i default).keys.getD (t - 1) 0 :: ks.drop i)
              ((cs.take i ++ leftHalf t (cs.getD i default) ::
                  rightHalf t (cs.getD i default) :: cs.drop (i + 1)).set (i + 1)
                (insert_non_full t (rightHalf t (cs.getD i default)) key)) false := by
          conv_lhs => rw [insert_non_full.eq_def]
          simp only [← hidef, Bool.false_eq_true, if_false, hfull, if_pos, if_true, hsc,
            Node.keys_mk, Node.children_mk, Node.leafFlag_mk, hKS2getD, gt_iff_lt, hcmp,
            dif_pos hdpos]
          simp only [List.get_eq_getElem]
          have hdpos0 : i + 1 <
              (split_child t (Node.mk ks cs false) (get_key_index ks key)).children.length := by
            rw [← hidef, hsc, Node.children_mk, hlenCS2]
            omega
          rw [← List.getD_eq_getElem _ default hdpos0, ← hidef, hsc]
          simp only [Node.children_mk, hCS2getD']
        obtain ⟨hA1, hA2, hA3⟩ := @assemble_set t _ _ _ _ key
          (by rw [hlenKS2, hlenCS2]; omega) hsameCS2 hallCS2 hdpos hsortedCS2
          (by
            have hform : (ks.take i ++ (cs.getD i default).keys.getD (t - 1) 0 ::
                ks.drop i).take (i + 1) = ks.take i ++
                  [(cs.getD i default).keys.getD (t - 1) 0] := by
              rw [show i + 1 = (ks.take i).length + 1 by omega, take_splice]
              rfl
            rw [hform]
            intro x hx
            simp only [List.mem_append, List.mem_cons, List.not_mem_nil, or_false] at hx
            rcases hx with hx | hx
            · exact hmid_lt x hx
            · rw [hx]; exact hcmp)
          (by
            intro hlt
            rw [hlenKS2] at hlt
            have hilt : i < ks.length := by omega
            have hdropeq : ks.drop i = ks.getD i 0 :: ks.drop (i + 1) := by
              rw [drop_splice hilt, int_default]
            rw [hdropeq, getD_splice_at_succ_int htakei]
            exact gki_le_getD ks key hilt)
          (by rw [hCS2getD']; exact IHR.1)
          IHR.2.1
          (by rw [hCS2getD']; exact IHR.2.2.1)
          (by omega)
          (by omega)
        rw [hres]
        refine ⟨?_, hA2, ?_, by simp, ?_, ?_⟩
        · rw [hA1, hsplit_toList, toList_node]
        · rw [hA3, height_mk, height_mk, hheightsCS2]
        · simp only [Node.keys_mk]
          rw [hlenKS2]
          omega
        · simp only [Node.keys_mk]
          rw [hlenKS2]
      · -- the key stays in the lower half
        have hdpos : i < (cs.take i ++ leftHalf t (cs.getD i default) ::
            rightHalf t (cs.getD i default) :: cs.drop (i + 1)).length := by
          rw [hlenCS2]; omega
        have hres : insert_non_full t (.mk ks cs false) key =
            .mk (ks.take i ++ (cs.getD i default).keys.getD (t - 1) 0 :: ks.drop i)
              ((cs.take i ++ leftHalf t (cs.getD i default) ::
                  rightHalf t (cs.getD i default) :: cs.drop (i + 1)).set i
                (insert_non_full t (leftHalf t (cs.getD i default)) key)) false := by
          conv_lhs => rw [insert_non_full.eq_def]
          simp only [← hidef, Bool.false_eq_true, if_false, hfull, if_pos, if_true, hsc,
            Node.keys_mk, Node.children_mk, Node.leafFlag_mk, hKS2getD, gt_iff_lt,
            if_neg hcmp, dif_pos hdpos]
          simp only [List.get_eq_getElem]
          have hdpos0 : i <
              (split_child t (Node.mk ks cs false) (get_key_index ks key)).children.length := by
            rw [← hidef, hsc, Node.children_mk, hlenCS2]
            omega
          rw [← List.getD_eq_getElem _ default hdpos0, ← hidef, hsc]
          simp only [Node.children_mk, hCS2getD]
        obtain ⟨hA1, hA2, hA3⟩ := @assemble_set t _ _ _ _ key
          (by rw [hlenKS2, hlenCS2]; omega) hsameCS2 hallCS2 hdpos hsortedCS2
          (by
            have hform : (ks.take i ++ (cs.getD i default).keys.getD (t - 1) 0 ::
                ks.drop i).take i = ks.take i := by
              rw [show (ks.take i ++ (cs.getD i default).keys.getD (t - 1) 0 ::
                ks.drop i).take i = (ks.take i ++ ((cs.getD i default).keys.getD (t - 1) 0 ::
                ks.drop i)).take ((ks.take i).length + 0) by rw [htakei]; rfl, take_splice]
              simp
            rw [hform]
            exact hmid_lt)
          (by
            intro hlt
            rw [hKS2getD]
            omega)
          (by rw [hCS2getD]; exact IHL.1)
          IHL.2.1
          (by rw [hCS2getD]; exact IHL.2.2.1)
          (by omega)
          (by omega)
        rw [hres]
        refine ⟨?_, hA2, ?_, by simp, ?_, ?_⟩
        · rw [hA1, hsplit_toList, toList_node]
        · rw [hA3, height_mk, height_mk, hheightsCS2]
        · simp only [Node.keys_mk]
          rw [hlenKS2]
          omega
        · simp only [Node.keys_mk]
          rw [hlenKS2]
    · -- the covering child is not full: recurse directly
      have hCnf : (cs.getD i default).keys.length ≤ 2 * t - 2 := by
        have := hCfacts.2.2
        omega
      have hres : insert_non_full t (.mk ks cs false) key =
          .mk ks (cs.set i (insert_non_full t (cs.getD i default) key)) false := by
        conv_lhs => rw [insert_non_full.eq_def]
        simp only [← hidef, Bool.false_eq_true, if_false, if_neg hfull, dif_pos hi]
        simp only [List.get_eq_getElem]
        rw [← List.getD_eq_getElem _ default hi]
      have IHC := IH (cs.getD i default) (by
          rw [height_mk]; exact height_lt_of_mem hCmem) hCfacts.1 hCsorted key hCnf
      obtain ⟨hA1, hA2, hA3⟩ := @assemble_set t _ _ _ _ key hlen hsame hall hi
        hsorted_inter (gki_take_lt ks key) (fun hlt => gki_le_getD ks key hlt)
        IHC.1 IHC.2.1 IHC.2.2.1
        (by have := IHC.2.2.2.2.1; omega)
        (by have := IHC.2.2.2.2.2; omega)
      rw [hres]
      refine ⟨?_, hA2, ?_, by simp, by simp, by simp⟩
      · rw [hA1, toList_node]
      · rw [hA3]

/-! Specification of `search`. -/

theorem searchNode_spec {t : Nat} (ht : 2 ≤ t) :
    ∀ n, ok t n = true → List.Sorted (· ≤ ·) (toList n) →
    (n.leafFlag = false → 1 ≤ n.keys.length) →
    ∀ key, (searchNode n key = none ↔ key ∉ toList n) := by
  apply Node.height_induction (P := fun n => ok t n = true →
    List.Sorted (· ≤ ·) (toList n) → (n.leafFlag = false → 1 ≤ n.keys.length) →
    ∀ key, (searchNode n key = none ↔ key ∉ toList n))
  intro n IH hok hs hleaf key
  cases n with
  | mk ks cs leaf =>
  have hks_sorted : List.Sorted (· ≤ ·) ks := by
    have := keys_sublist_toList hok
    exact sorted_of_sublist (by simpa using this) hs
  by_cases hempty : ks = []
  · subst hempty
    have hsearch : searchNode (.mk [] cs leaf) key = none := by
      rw [searchNode.eq_def]
      simp
    rw [hsearch]
    simp only [true_iff]
    cases leaf with
    | true => simp
    | false =>
      have := hleaf rfl
      simp at this
  · set idx := get_key_index ks key with hidx
    by_cases hfound : idx < ks.length ∧ ks.getD idx 0 = key
    · have hsearch : searchNode (.mk ks cs leaf) key = some (.mk ks cs leaf) := by
        rw [searchNode.eq_def]
        simp only [← hidx, if_neg hempty, if_pos hfound]
      rw [hsearch]
      constructor
      · intro hc; simp at hc
      · intro hc
        exfalso
        apply hc
        have hkey : key ∈ ks := by
          have h1 : ks.getD idx 0 ∈ ks := by
            rw [List.getD_eq_getElem _ _ hfound.1]
            exact List.getElem_mem hfound.1
          rw [hfound.2] at h1
          exact h1
        exact (keys_sublist_toList hok).mem hkey
    · have hnotmem_ks : key ∉ ks := gki_not_mem_of_sorted hks_sorted (by
        rw [← hidx]; exact hfound)
      cases leaf with
      | true =>
        have hsearch : searchNode (.mk ks cs true) key = none := by
          rw [searchNode.eq_def]
          simp only [← hidx, if_neg hempty, if_neg hfound]
          simp
        rw [hsearch, toList_leaf]
        simp [hnotmem_ks]
      | false =>
        rw [ok_node] at hok
        simp only [Bool.and_eq_true, beq_iff_eq] at hok
        obtain ⟨⟨hlen, hsame⟩, hall⟩ := hok
        have hile : idx ≤ ks.length := get_key_index_le_length ks key
        have hi : idx < cs.length := by omega
        have hCmem : cs.getD idx default ∈ cs := by
          rw [List.getD_eq_getElem _ _ hi]; exact List.getElem_mem hi
        have hCfacts := (okAll_iff t cs).mp hall _ hCmem
        have hsearch : searchNode (.mk ks cs false) key =
            searchNode (cs.getD idx default) key := by
          rw [searchNode.eq_def]
          simp only [← hidx, if_neg hempty, if_neg hfound, Bool.false_eq_true, if_false,
            dif_pos hi, List.get_eq_getElem]
          rw [← List.getD_eq_getElem _ default hi]
        have hsorted_inter : List.Sorted (· ≤ ·) (inter cs ks) := by simpa using hs
        have hdec := @toList_decomp ks cs hlen idx hi
        have hCsorted : List.Sorted (· ≤ ·) (toList (cs.getD idx default)) :=
          sorted_of_sublist (sublist_of_segment hdec) hsorted_inter
        have hIH := IH (cs.getD idx default) (by
            rw [height_mk]; exact height_lt_of_mem hCmem) hCfacts.1 hCsorted
          (fun _ => by have := hCfacts.2.1; omega) key
        rw [hsearch, hIH, toList_node, hdec]
        have hPre : key ∉ interPre (cs.take idx) (ks.take idx) := by
          intro hmem
          have hPreSorted : List.Sorted (· ≤ ·) (interPre (cs.take idx) (ks.take idx)) := by
            apply sorted_of_sublist _ hsorted_inter
            rw [hdec, List.append_assoc]
            exact List.sublist_append_left _ _
          have := @interPre_elems_lt key (cs.take idx) (ks.take idx)
            (by rw [List.length_take, List.length_take]; omega) hPreSorted
            (gki_take_lt ks key) key hmem
          omega
        have hT : key ∉ interTail (cs.drop (idx + 1)) (ks.drop idx) := by
          cases hdk : ks.drop idx with
          | nil => simp [interTail_nil]
          | cons k0 ks0 =>
            obtain ⟨hk0, hjlt⟩ := getD_of_drop_cons hdk
            have hk0gt : key < k0 := by
              have h1 : key ≤ ks.getD idx 0 := gki_le_getD ks key (by rw [← hidx]; omega)
              have h2 : ks.getD idx 0 ≠ key := by
                intro hc
                exact hfound ⟨by omega, hc⟩
              omega
            rw [interTail_cons]
            have hTsorted : List.Sorted (· ≤ ·) (k0 :: inter (cs.drop (idx + 1)) ks0) := by
              apply sorted_of_sublist _ hsorted_inter
              rw [hdec]
              have : interTail (cs.drop (idx + 1)) (ks.drop idx) =
                  k0 :: inter (cs.drop (idx + 1)) ks0 := by
                rw [hdk, interTail_cons]
              rw [← this]
              exact List.sublist_append_right _ _
            intro hmem
            rcases List.mem_cons.mp hmem with hmem | hmem
            · omega
            · have := List.rel_of_sorted_cons hTsorted key hmem
              omega
        constructor
        · intro hnc hmem
          simp only [List.mem_append] at hmem
          rcases hmem with (hmem | hmem) | hmem
          · exact hPre hmem
          · exact hnc hmem
          · exact hT hmem
        · intro hnc hmem
          exact hnc (List.mem_append.mpr (Or.inl (List.mem_append.mpr (Or.inr hmem))))

/-! Tree-level invariant and the specification of `BTree.insert`. -/

/-- Invariant of a whole tree as maintained by the public operations:
minimum degree at least 2, structurally well-formed root with at most
`2t - 1` keys (at least one when it is internal), and a sorted flattening. -/
def TreeInv (tr : BTree) : Prop :=
  2 ≤ tr.min_degree ∧ ok tr.min_degree tr.root = true ∧
    tr.root.keys.length ≤ 2 * tr.min_degree - 1 ∧
    (tr.root.leafFlag = false → 1 ≤ tr.root.keys.length) ∧
    List.Sorted (· ≤ ·) (toList tr.root)

theorem TreeInv_new {t : Nat} (ht : 2 ≤ t) : TreeInv ⟨Node.mk [] [] true, t⟩ := by
  refine ⟨ht, by simp, by simp, by simp, by simp⟩

theorem TreeInv_mk {n : Node} {t : Nat} (h1 : 2 ≤ t) (h2 : ok t n = true)
    (h3 : n.keys.length ≤ 2 * t - 1) (h4 : n.leafFlag = false → 1 ≤ n.keys.length)
    (h5 : List.Sorted (· ≤ ·) (toList n)) : TreeInv ⟨n, t⟩ :=
  ⟨h1, h2, h3, h4, h5⟩

theorem insertI_spec {tr : BTree} (hinv : TreeInv tr) (key : Int) :
    TreeInv (tr.insertI key)
    ∧ (tr.insertI key).min_degree = tr.min_degree
    ∧ toList (tr.insertI key).root =
        List.orderedInsert (· ≤ ·) key (toList tr.root) := by
  obtain ⟨ht, hok, hcount, hleaf1, hs⟩ := hinv
  obtain ⟨root, t⟩ := tr
  simp only at ht hok hcount hleaf1 hs ⊢
  rw [BTree.insertI]
  simp only
  by_cases hfull : root.keys.length = 2 * t - 1
  · rw [if_pos hfull]
    -- root split
    have hhalves := halves_spec ht hok hfull
    obtain ⟨hsplitL, hokL, hokR, hlenL, hlenR, hhL, hhR, hfL, hfR⟩ := hhalves
    have hsc : split_child t (.mk [] [root] false) 0 =
        .mk [root.keys.getD (t - 1) 0] [leftHalf t root, rightHalf t root] false := by
      have h0 : (0 : Nat) < ([root] : List Node).length := by simp
      have := @split_child_eq_in t _ ([] : List Int) _ false h0 (by simp)
      simpa using this
    have hnr_ok : ok t (.mk [root.keys.getD (t - 1) 0]
        [leftHalf t root, rightHalf t root] false) = true := by
      rw [ok_node]
      simp only [Bool.and_eq_true, beq_iff_eq]
      refine ⟨⟨by simp, ?_⟩, ?_⟩
      · rw [sameHB_iff]
        intro x hx y hy
        simp only [List.mem_cons, List.mem_singleton, List.not_mem_nil, or_false] at hx hy
        rcases hx with hx | hx <;> rcases hy with hy | hy <;>
          simp [hx, hy, hhL, hhR]
      · rw [okAll_iff]
        intro c hc
        simp only [List.mem_cons, List.mem_singleton, List.not_mem_nil, or_false] at hc
        rcases hc with hc | hc
        · rw [hc]; exact ⟨hokL, by omega, by omega⟩
        · rw [hc]; exact ⟨hokR, by omega, by omega⟩
    have hnr_toList : toList (.mk [root.keys.getD (t - 1) 0]
        [leftHalf t root, rightHalf t root] false) = toList root := by
      rw [toList_node, inter_cons_cons, inter_cons_nil, hsplitL]
    have hnr_sorted : List.Sorted (· ≤ ·) (toList (.mk [root.keys.getD (t - 1) 0]
        [leftHalf t root, rightHalf t root] false)) := by
      rw [hnr_toList]; exact hs
    have hspec := insert_non_full_spec ht _ hnr_ok hnr_sorted key (by simp; omega)
    rw [hsc]
    refine ⟨TreeInv_mk ht hspec.2.1 ?_ ?_ ?_, rfl, ?_⟩
    · have := hspec.2.2.2.2.2
      simp only [Node.keys_mk, List.length_cons, List.length_nil] at this
      omega
    · intro _
      have := hspec.2.2.2.2.1
      simp only [Node.keys_mk, List.length_cons, List.length_nil] at this
      omega
    · rw [hspec.1]
      exact List.Sorted.orderedInsert _ _ hnr_sorted
    · rw [hspec.1, hnr_toList]
  · rw [if_neg hfull]
    have hspec := insert_non_full_spec ht root hok hs key (by omega)
    refine ⟨TreeInv_mk ht hspec.2.1 ?_ ?_ ?_, rfl, hspec.1⟩
    · have := hspec.2.2.2.2.2
      omega
    · intro hlf
      have h1 := hspec.2.2.2.1
      have h2 := hspec.2.2.2.2.1
      have := hleaf1 (by rw [← h1, hlf])
      omega
    · rw [hspec.1]
      exact List.Sorted.orderedInsert _ _ hs

/-! Helper lemmas for the deletion phase. -/

theorem take_succ_getD {α : Type} [Inhabited α] {l : List α} {j : Nat} (h : j < l.length) :
    l.take (j + 1) = l.take j ++ [l.getD j default] := by
  have hlen : (l.take j).length = j := by rw [List.length_take]; omega
  conv_lhs => rw [← List.take_append_drop j l, drop_splice h]
  calc (l.take j ++ l.getD j default :: l.drop (j + 1)).take (j + 1)
      = (l.take j ++ l.getD j default :: l.drop (j + 1)).take ((l.take j).length + 1) := by
        rw [hlen]
    _ = l.take j ++ (l.getD j default :: l.drop (j + 1)).take 1 := take_splice _ _ _
    _ = l.take j ++ [l.getD j default] := by simp

theorem set_take_of_le {α : Type} (x : α) : ∀ (i j : Nat) (l : List α), j ≤ i →
    (l.set i x).take j = l.take j := by
  intro i
  induction i with
  | zero =>
    intro j l h
    have hj : j = 0 := by omega
    subst hj
    simp
  | succ i ih =>
    intro j l h
    cases l with
    | nil => simp
    | cons a l =>
      cases j with
      | zero => simp
      | succ j =>
        rw [List.set_cons_succ, List.take_succ_cons, List.take_succ_cons, ih j l (by omega)]

theorem set_drop_of_lt {α : Type} (x : α) : ∀ (i j : Nat) (l : List α), i < j →
    (l.set i x).drop j = l.drop j := by
  intro i
  induction i with
  | zero =>
    intro j l h
    cases l with
    | nil => simp
    | cons a l =>
      cases j with
      | zero => omega
      | succ j => rw [List.set_cons_zero, List.drop_succ_cons, List.drop_succ_cons]
  | succ i ih =>
    intro j l h
    cases l with
    | nil => simp
    | cons a l =>
      cases j with
      | zero => omega
      | succ j =>
        rw [List.set_cons_succ, List.drop_succ_cons, List.drop_succ_cons, ih j l (by omega)]

theorem mem_interPre_of_mem_keys {k : Int} : ∀ {cs : List Node} {ks : List Int},
    ks.length ≤ cs.length → k ∈ ks → k ∈ interPre cs ks := by
  intro cs
  induction cs with
  | nil =>
    intro ks h hk
    cases ks with
    | nil => simp at hk
    | cons a l => simp at h
  | cons c cs ih =>
    intro ks h hk
    cases ks with
    | nil => simp at hk
    | cons a l =>
      simp only [interPre_cons, List.mem_append, List.mem_cons]
      rcases List.mem_cons.mp hk with hk | hk
      · exact Or.inr (Or.inl hk)
      · exact Or.inr (Or.inr (ih (by simpa using h) hk))

/-- Every element of the child left of the separator at `j` is `≤` it. -/
theorem child_le_sep {cs : List Node} {ks : List Int} (hlen : cs.length = ks.length + 1)
    (hs : List.Sorted (· ≤ ·) (inter cs ks)) {j : Nat} (hj : j < ks.length) :
    ∀ x ∈ toList (cs.getD j default), x ≤ ks.getD j 0 := by
  intro x hx
  have hdec := @toList_decomp ks cs hlen j (by omega)
  rw [hdec] at hs
  have hdk := drop_splice (l := ks) hj
  rw [int_default] at hdk
  rw [hdk, interTail_cons] at hs
  have h1 := (List.pairwise_append.mp hs).2.2
  exact h1 x (List.mem_append.mpr (Or.inr hx)) _ (by simp)

/-- Every element of the child right of the separator at `j` is `≥` it. -/
theorem sep_le_child {cs : List Node} {ks : List Int} (hlen : cs.length = ks.length + 1)
    (hs : List.Sorted (· ≤ ·) (inter cs ks)) {j : Nat} (hj : j < ks.length) :
    ∀ x ∈ toList (cs.getD (j + 1) default), ks.getD j 0 ≤ x := by
  intro x hx
  have hdec := @toList_decomp ks cs hlen (j + 1) (by omega)
  rw [hdec] at hs
  have hkmem : ks.getD j 0 ∈ interPre (cs.take (j + 1)) (ks.take (j + 1)) := by
    apply mem_interPre_of_mem_keys
    · rw [List.length_take, List.length_take]; omega
    · have h1 : ks.take (j + 1) = ks.take j ++ [ks.getD j default] := take_succ_getD (by omega)
      rw [int_default] at h1
      rw [h1]
      simp
  have h1 := (List.pairwise_append.mp (List.pairwise_append.mp hs).1).2.2
  exact h1 _ hkmem x hx

/-- Under the invariant, the leaf flag is determined by the height. -/
theorem leafFlag_of_ok {t : Nat} {n : Node} (hok : ok t n = true) :
    n.leafFlag = true ↔ height n = 0 := by
  cases n with
  | mk ks cs leaf =>
    cases leaf with
    | true =>
      rw [ok_leaf] at hok
      simp only [Node.leafFlag_mk, height_mk]
      have hcs : cs = [] := by simpa [List.isEmpty_iff] using hok
      subst hcs
      simp [heights]
    | false =>
      rw [ok_node] at hok
      simp only [Bool.and_eq_true, beq_iff_eq] at hok
      simp only [Node.leafFlag_mk, height_mk]
      constructor
      · intro h
        exact absurd h (by simp)
      · intro h
        exfalso
        cases cs with
        | nil =>
          obtain ⟨⟨h1, _⟩, _⟩ := hok
          simp at h1
        | cons c cs0 =>
          rw [heights_cons] at h
          omega

/-- Flattening of a node after one child has been replaced. -/
theorem toList_set_decomp {ks : List Int} {cs : List Node} (hlen : cs.length = ks.length + 1)
    {j : Nat} (hj : j < cs.length) (X : Node) :
    toList (.mk ks (cs.set j X) false) =
      interPre (cs.take j) (ks.take j) ++ toList X ++
        interTail (cs.drop (j + 1)) (ks.drop j) := by
  rw [toList_node, set_splice X hj]
  conv_lhs => rw [← List.take_append_drop j ks]
  rw [inter_append (by rw [List.length_take, List.length_take]; omega)]
  rw [inter_cons_eq, List.append_assoc]

/-- Replacing one child by an equally tall well-formed node with in-bounds
key count keeps the parent well formed at the same height. -/
theorem set_child_ok {t : Nat} {ks : List Int} {cs : List Node} {j : Nat} {X : Node}
    (hlen : cs.length = ks.length + 1)
    (hsame : sameHB cs = true) (hall : okAll t cs = true)
    (hj : j < cs.length)
    (hXok : ok t X = true) (hXh : height X = height (cs.getD j default))
    (hXlo : t - 1 ≤ X.keys.length) (hXhi : X.keys.length ≤ 2 * t - 1) :
    ok t (.mk ks (cs.set j X) false) = true
    ∧ height (.mk ks (cs.set j X) false) = height (.mk ks cs false) := by
  constructor
  · rw [ok_node]
    simp only [Bool.and_eq_true, beq_iff_eq, List.length_set]
    exact ⟨⟨by omega, sameHB_set hsame hXh hj⟩, okAll_set hall hXok hXlo hXhi⟩
  · rw [height_mk, height_mk, heights_set_eq hsame hj hXh]

theorem getLastD_erase_append {l : List Int} (hs : List.Sorted (· ≤ ·) l) (h : l ≠ []) :
    l.erase (l.getLastD 0) ++ [l.getLastD 0] = l := by
  have h1 : l.getLastD 0 = l.getLast h := by
    rw [List.getLastD_eq_getLast?, List.getLast?_eq_getLast_of_ne_nil h]
    simp
  rw [h1]
  exact erase_getLast_append hs h

theorem getLastD_eq_of_mem_of_le {l : List Int} (hs : List.Sorted (· ≤ ·) l)
    {key : Int} (hmem : key ∈ l) (hub : ∀ x ∈ l, x ≤ key) :
    l.getLastD 0 = key := by
  have hne := List.ne_nil_of_mem hmem
  have h1 : l.getLastD 0 = l.getLast hne := by
    rw [List.getLastD_eq_getLast?, List.getLast?_eq_getLast_of_ne_nil hne]
    simp
  have h2 := sorted_le_getLast hs hne hmem
  have h3 := hub _ (List.getLast_mem hne)
  omega

theorem headD_cons_erase {l : List Int} (h : l ≠ []) :
    l.headD 0 :: l.erase (l.headD 0) = l := by
  cases l with
  | nil => exact absurd rfl h
  | cons a l => simp [List.headD, List.erase_cons_head]

/-- All elements of the tail segment of a decomposition sit strictly above
`key` when the separating key does. -/
theorem interTail_elems_gt {key : Int} {CS : List Node} {KS : List Int} {j : Nat}
    (hsT : List.Sorted (· ≤ ·) (interTail (CS.drop (j + 1)) (KS.drop j)))
    (hgt : j < KS.length → key < KS.getD j 0) :
    ∀ x ∈ interTail (CS.drop (j + 1)) (KS.drop j), key < x := by
  by_cases hjlt : j < KS.length
  · have hdk := drop_splice (l := KS) hjlt
    rw [int_default] at hdk
    rw [hdk, interTail_cons] at hsT ⊢
    intro x hx
    rcases List.mem_cons.mp hx with hx | hx
    · subst hx
      exact hgt hjlt
    · have h1 := List.rel_of_sorted_cons hsT x hx
      have h2 := hgt hjlt
      omega
  · have hks : KS.drop j = [] := List.drop_eq_nil_of_le (by omega)
    rw [hks, interTail_nil]
    simp

/-- Contents of a merged pair of children with their separator. -/
theorem merge_child_toList {t : Nat} {C D : Node} (hokC : ok t C = true)
    (hokD : ok t D = true) (hflag : C.leafFlag = D.leafFlag) (key : Int) :
    toList (.mk (C.keys ++ key :: D.keys)
      (if C.leafFlag then C.children else C.children ++ D.children) C.leafFlag) =
    toList C ++ key :: toList D := by
  cases C with
  | mk Ck Cc Cl =>
  cases D with
  | mk Dk Dc Dl =>
  simp only [Node.keys_mk, Node.children_mk, Node.leafFlag_mk] at *
  cases Cl with
  | true =>
    cases Dl with
    | false => simp at hflag
    | true => simp
  | false =>
    cases Dl with
    | true => simp at hflag
    | false =>
      rw [ok_node] at hokC hokD
      simp only [Bool.and_eq_true, beq_iff_eq] at hokC hokD
      obtain ⟨⟨hClen, _⟩, _⟩ := hokC
      obtain ⟨⟨hDlen, _⟩, _⟩ := hokD
      simp only [Bool.false_eq_true, if_false, toList_node]
      have hsplit := @inter_split (Ck.length) (Cc ++ Dc) (Ck ++ key :: Dk)
        (by simp) (by simp; omega)
      have h1 : (Cc ++ Dc).take (Ck.length + 1) = Cc := by
        rw [← hClen]
        exact List.take_left _ _
      have h2 : (Ck ++ key :: Dk).take Ck.length = Ck := List.take_left _ _
      have h3 : (Ck ++ key :: Dk).getD Ck.length 0 = key := getD_splice_at_int rfl
      have h4 : (Cc ++ Dc).drop (Ck.length + 1) = Dc := by
        rw [← hClen]
        exact List.drop_left _ _
      have h5 : (Ck ++ key :: Dk).drop (Ck.length + 1) = Dk := by
        have h6 := drop_splice' Ck (key :: Dk) 1
        simpa using h6
      rw [hsplit, h1, h2, h3, h4, h5]

/-- Well-formedness and height of a merged pair of children. -/
theorem merge_child_ok {t : Nat} {C D : Node} (hokC : ok t C = true)
    (hokD : ok t D = true) (hflag : C.leafFlag = D.leafFlag)
    (hh : height C = height D) (key : Int) :
    ok t (.mk (C.keys ++ key :: D.keys)
      (if C.leafFlag then C.children else C.children ++ D.children) C.leafFlag) = true
    ∧ height (.mk (C.keys ++ key :: D.keys)
      (if C.leafFlag then C.children else C.children ++ D.children) C.leafFlag)
      = height C := by
  cases C with
  | mk Ck Cc Cl =>
  cases D with
  | mk Dk Dc Dl =>
  simp only [Node.keys_mk, Node.children_mk, Node.leafFlag_mk] at *
  cases Cl with
  | true =>
    cases Dl with
    | false => simp at hflag
    | true =>
      rw [ok_leaf] at hokC
      have hCc : Cc = [] := by simpa [List.isEmpty_iff] using hokC
      subst hCc
      refine ⟨by simp, ?_⟩
      simp [height_mk, heights]
  | false =>
    cases Dl with
    | true => simp at hflag
    | false =>
      rw [ok_node] at hokC hokD
      simp only [Bool.and_eq_true, beq_iff_eq] at hokC hokD
      obtain ⟨⟨hClen, hCsame⟩, hCall⟩ := hokC
      obtain ⟨⟨hDlen, hDsame⟩, hDall⟩ := hokD
      simp only [Bool.false_eq_true, if_false]
      have hCne : Cc ≠ [] := by intro hc; subst hc; simp at hClen
      have hDne : Dc ≠ [] := by intro hc; subst hc; simp at hDlen
      rw [height_mk, height_mk] at hh
      constructor
      · rw [ok_node]
        simp only [Bool.and_eq_true, beq_iff_eq]
        refine ⟨⟨by simp; omega, ?_⟩, ?_⟩
        · obtain ⟨c0, hc0⟩ := List.exists_mem_of_ne_nil Cc hCne
          have hxx : ∀ c ∈ Cc ++ Dc, height c = height c0 := by
            intro c hc
            rcases List.mem_append.mp hc with hc | hc
            · exact (sameHB_iff Cc).mp hCsame c hc c0 hc0
            · have hd1 := heights_eq_of_sameHB hDsame hc
              have hd2 := heights_eq_of_sameHB hCsame hc0
              omega
          exact sameHB_of_forall hxx
        · rw [okAll_iff] at hCall hDall ⊢
          intro c hc
          rcases List.mem_append.mp hc with hc | hc
          · exact hCall c hc
          · exact hDall c hc
      · rw [height_mk, height_mk, heights_append]
        omega

/-! Splice computations at a stated index. -/

theorem splice_set_at {α : Type} {A B : List α} {y y' : α} {n : Nat} (h : A.length = n) :
    (A ++ y :: B).set n y' = A ++ y' :: B := by
  subst h
  exact splice_set A B y y'

theorem splice_set_succ_at {α : Type} {A B : List α} {y z z' : α} {n : Nat}
    (h : A.length = n) :
    (A ++ y :: z :: B).set (n + 1) z' = A ++ y :: z' :: B := by
  subst h
  exact splice_set_succ A B y z z'

theorem splice_take_at {α : Type} {A B : List α} {y : α} {n : Nat} (h : A.length = n) :
    (A ++ y :: B).take n = A := by
  subst h
  exact List.take_left A _

theorem splice_take_succ_at {α : Type} {A B : List α} {y : α} {n : Nat} (h : A.length = n) :
    (A ++ y :: B).take (n + 1) = A ++ [y] := by
  subst h
  rw [take_splice A (y :: B) 1]
  simp

theorem splice_drop_at {α : Type} {A B : List α} {y : α} {n : Nat} (h : A.length = n) :
    (A ++ y :: B).drop (n + 1) = B := by
  subst h
  have h1 := drop_splice' A (y :: B) 1
  simpa using h1

theorem splice_drop_succ_at {α : Type} {A B : List α} {y z : α} {n : Nat}
    (h : A.length = n) :
    (A ++ y :: z :: B).drop (n + 2) = B := by
  subst h
  have h1 := drop_splice' A (y :: z :: B) 2
  simpa using h1

theorem splice_eraseIdx_at {α : Type} {A B : List α} {y : α} {n : Nat} (h : A.length = n) :
    (A ++ y :: B).eraseIdx n = A ++ B := by
  rw [eraseIdx_splice, splice_take_at h, splice_drop_at h]

theorem splice_eraseIdx_succ_at {α : Type} {A B : List α} {y z : α} {n : Nat}
    (h : A.length = n) :
    (A ++ y :: z :: B).eraseIdx (n + 1) = A ++ y :: B := by
  rw [eraseIdx_splice, splice_take_succ_at h, splice_drop_succ_at h]
  simp

theorem match_getLast_some {l cs : List Node} {a : Node} (h : l.getLast? = some a) :
    (match l.getLast? with | some sc => sc :: cs | none => cs) = a :: cs := by
  rw [h]

theorem getLastD_mem {l : List Int} (h : l ≠ []) : l.getLastD 0 ∈ l := by
  rw [List.getLastD_eq_getLast?, List.getLast?_eq_getLast_of_ne_nil h]
  simp [List.getLast_mem]

theorem headD_mem {l : List Int} (h : l ≠ []) : l.headD 0 ∈ l := by
  cases l with
  | nil => exact absurd rfl h
  | cons a l => simp

theorem okAll_sublist {t : Nat} {cs ds : List Node} (h : List.Sublist cs ds)
    (hall : okAll t ds = true) : okAll t cs = true := by
  rw [okAll_iff] at hall ⊢
  intro c hc
  exact hall c (h.subset hc)

theorem sameHB_sublist {cs ds : List Node} (h : List.Sublist cs ds)
    (hsame : sameHB ds = true) : sameHB cs = true := by
  rw [sameHB_iff] at hsame ⊢
  intro c hc d hd
  exact hsame c (h.subset hc) d (h.subset hd)

theorem heights_dropLast {cs : List Node} (hsame : sameHB cs = true)
    (h2 : 2 ≤ cs.length) : heights cs.dropLast = heights cs := by
  have hne : cs.dropLast ≠ [] := by
    intro hc
    have := congrArg List.length hc
    rw [List.length_dropLast] at this
    simp at this
    omega
  obtain ⟨c0, hc0⟩ := List.exists_mem_of_ne_nil cs.dropLast hne
  have hc0' : c0 ∈ cs := (List.dropLast_sublist cs).subset hc0
  rw [sameHB_iff] at hsame
  have h1 : heights cs = height c0 + 1 :=
    heights_eq_of_forall (fun d hd => hsame d hd c0 hc0') (List.ne_nil_of_mem hc0')
  have h3 : heights cs.dropLast = height c0 + 1 :=
    heights_eq_of_forall
      (fun d hd => hsame d ((List.dropLast_sublist cs).subset hd) c0 hc0') hne
  omega

theorem heights_drop_one {cs : List Node} (hsame : sameHB cs = true)
    (h2 : 2 ≤ cs.length) : heights (cs.drop 1) = heights cs := by
  have hne : cs.drop 1 ≠ [] := by
    intro hc
    have := congrArg List.length hc
    rw [List.length_drop] at this
    simp at this
    omega
  obtain ⟨c0, hc0⟩ := List.exists_mem_of_ne_nil (cs.drop 1) hne
  have hc0' : c0 ∈ cs := (List.drop_sublist 1 cs).subset hc0
  rw [sameHB_iff] at hsame
  have h1 : heights cs = height c0 + 1 :=
    heights_eq_of_forall (fun d hd => hsame d hd c0 hc0') (List.ne_nil_of_mem hc0')
  have h3 : heights (cs.drop 1) = height c0 + 1 :=
    heights_eq_of_forall
      (fun d hd => hsame d ((List.drop_sublist 1 cs).subset hd) c0 hc0') hne
  omega

theorem sorted_getD_le {l : List Int} (hs : List.Sorted (· ≤ ·) l) {i j : Nat}
    (hij : i ≤ j) (hj : j < l.length) : l.getD i 0 ≤ l.getD j 0 := by
  rcases Nat.eq_or_lt_of_le hij with h | h
  · subst h
    exact le_refl _
  · rw [List.getD_eq_getElem _ _ (by omega), List.getD_eq_getElem _ _ hj]
    have h1 := List.Sorted.rel_get_of_lt hs (a := ⟨i, by omega⟩) (b := ⟨j, hj⟩) h
    simpa using h1

/-! Structure equations: the rotation and merge operations evaluated on a
node whose lists are written as splices around the touched positions. -/

theorem borrow_from_prev_eq {A B : List Node} {S C : Node} {ka kb : List Int} {s : Int}
    {i : Nat} (hA : A.length = i) (hka : ka.length = i) :
    borrow_from_prev (.mk (ka ++ s :: kb) (A ++ S :: C :: B) false) (i + 1) =
    .mk (ka ++ S.keys.getLastD 0 :: kb)
      (A ++ (Node.mk S.keys.dropLast
          (if C.leafFlag then S.children else S.children.dropLast) S.leafFlag)
        :: (Node.mk (s :: C.keys)
          (if C.leafFlag then C.children
            else match S.children.getLast? with
              | some sc => sc :: C.children
              | none => C.children) C.leafFlag) :: B) false := by
  simp only [borrow_from_prev, Nat.add_sub_cancel]
  rw [getD_splice_at_succ hA, getD_splice_at hA, getD_splice_at_int hka]
  rw [splice_set_succ_at hA, splice_set_at hA, splice_set_at hka]

theorem borrow_from_next_eq {A B : List Node} {C D : Node} {ka kb : List Int} {s : Int}
    {i : Nat} (hA : A.length = i) (hka : ka.length = i) :
    borrow_from_next (.mk (ka ++ s :: kb) (A ++ C :: D :: B) false) i =
    .mk (ka ++ D.keys.headD 0 :: kb)
      (A ++ (Node.mk (C.keys ++ [s])
          (if C.leafFlag then C.children
            else match D.children with
              | sc :: _ => C.children ++ [sc]
              | [] => C.children) C.leafFlag)
        :: (Node.mk (D.keys.drop 1)
          (if C.leafFlag then D.children else D.children.drop 1) D.leafFlag) :: B)
      false := by
  simp only [borrow_from_next]
  rw [getD_splice_at hA, getD_splice_at_succ hA, getD_splice_at_int hka]
  rw [splice_set_at hA, splice_set_succ_at hA, splice_set_at hka]

theorem merge_eq {A B : List Node} {C D : Node} {ka kb : List Int} {s : Int}
    {i : Nat} (hA : A.length = i) (hka : ka.length = i) :
    merge (.mk (ka ++ s :: kb) (A ++ C :: D :: B) false) i =
    .mk (ka ++ kb)
      (A ++ (Node.mk (C.keys ++ s :: D.keys)
        (if C.leafFlag then C.children else C.children ++ D.children) C.leafFlag)
        :: B) false := by
  simp only [merge]
  rw [getD_splice_at hA, getD_splice_at_succ hA, getD_splice_at_int hka]
  rw [splice_set_at hA]
  rw [splice_eraseIdx_at hka, splice_eraseIdx_succ_at hA]

theorem take_left_at {α : Type} {A B : List α} {n : Nat} (h : A.length = n) :
    (A ++ B).take n = A := by
  subst h
  exact List.take_left A B

theorem drop_left_at {α : Type} {A B : List α} {n : Nat} (h : A.length = n) :
    (A ++ B).drop n = B := by
  subst h
  exact List.drop_left A B

theorem match_cons_app {d : Node} {rest cs : List Node} :
    (match d :: rest with | sc :: _ => cs ++ [sc] | [] => cs) = cs ++ [d] := rfl

/-- The left-rotation performed by `borrow_from_prev`, seen from the two
children involved: contents are rearranged exactly, both children stay
well formed at their heights. -/
theorem borrow_pair_prev {t : Nat} (ht : 2 ≤ t) {S C : Node}
    (hokS : ok t S = true) (hokC : ok t C = true)
    (hh : height S = height C) (hSk : t ≤ S.keys.length) (s : Int) :
    toList (.mk S.keys.dropLast
        (if C.leafFlag then S.children else S.children.dropLast) S.leafFlag)
      ++ S.keys.getLastD 0 ::
        toList (.mk (s :: C.keys)
          (if C.leafFlag then C.children
            else match S.children.getLast? with
              | some sc => sc :: C.children
              | none => C.children) C.leafFlag)
      = toList S ++ s :: toList C
    ∧ ok t (.mk S.keys.dropLast
        (if C.leafFlag then S.children else S.children.dropLast) S.leafFlag) = true
    ∧ ok t (.mk (s :: C.keys)
        (if C.leafFlag then C.children
          else match S.children.getLast? with
            | some sc => sc :: C.children
            | none => C.children) C.leafFlag) = true
    ∧ height (.mk S.keys.dropLast
        (if C.leafFlag then S.children else S.children.dropLast) S.leafFlag) = height S
    ∧ height (.mk (s :: C.keys)
        (if C.leafFlag then C.children
          else match S.children.getLast? with
            | some sc => sc :: C.children
            | none => C.children) C.leafFlag) = height C := by
  cases S with
  | mk Sk Sc Sl =>
  cases C with
  | mk Ck Cc Cl =>
  have h1 := leafFlag_of_ok hokS
  have h2 := leafFlag_of_ok hokC
  simp only [Node.leafFlag_mk, height_mk] at h1 h2
  simp only [Node.keys_mk, Node.children_mk, Node.leafFlag_mk, height_mk] at hh hSk ⊢
  have hflag : Sl = Cl := by
    cases Sl with
    | true =>
      cases Cl with
      | true => rfl
      | false =>
        exfalso
        have h3 : heights Sc = 0 := h1.mp rfl
        rw [hh] at h3
        have h4 := h2.mpr h3
        exact absurd h4 (by simp)
    | false =>
      cases Cl with
      | true =>
        exfalso
        have h3 : heights Cc = 0 := h2.mp rfl
        rw [← hh] at h3
        have h4 := h1.mpr h3
        exact absurd h4 (by simp)
      | false => rfl
  subst hflag
  cases Sl with
  | true =>
    rw [ok_leaf] at hokS hokC
    have hSc : Sc = [] := by simpa [List.isEmpty_iff] using hokS
    have hCc : Cc = [] := by simpa [List.isEmpty_iff] using hokC
    subst hSc hCc
    have hSkne : Sk ≠ [] := by
      intro hc
      rw [hc] at hSk
      simp at hSk
      omega
    have hl2 : Sk.getLastD 0 = Sk.getLast hSkne := by
      rw [List.getLastD_eq_getLast?, List.getLast?_eq_getLast_of_ne_nil hSkne]
      simp
    have hsks : Sk.dropLast ++ [Sk.getLastD 0] = Sk := by
      rw [hl2]
      exact List.dropLast_append_getLast hSkne
    refine ⟨?_, by simp [ok], by simp [ok], by simp [height_mk], by simp [height_mk]⟩
    simp only [toList_leaf]
    calc Sk.dropLast ++ Sk.getLastD 0 :: s :: Ck
        = (Sk.dropLast ++ [Sk.getLastD 0]) ++ s :: Ck := by simp
      _ = Sk ++ s :: Ck := by rw [hsks]
  | false =>
    rw [ok_node] at hokS hokC
    simp only [Bool.and_eq_true, beq_iff_eq] at hokS hokC
    obtain ⟨⟨hSlen, hSsame⟩, hSall⟩ := hokS
    obtain ⟨⟨hClen, hCsame⟩, hCall⟩ := hokC
    have hScne : Sc ≠ [] := by intro hc; rw [hc] at hSlen; simp at hSlen
    have hCcne : Cc ≠ [] := by intro hc; rw [hc] at hClen; simp at hClen
    have hSkne : Sk ≠ [] := by
      intro hc
      rw [hc] at hSk
      simp at hSk
      omega
    have hgl : Sc.getLast? = some (Sc.getLast hScne) :=
      List.getLast?_eq_getLast_of_ne_nil hScne
    have hsc_mem : Sc.getLast hScne ∈ Sc := List.getLast_mem hScne
    have hscs : Sc.dropLast ++ [Sc.getLast hScne] = Sc := List.dropLast_append_getLast hScne
    have hdl_len : Sc.dropLast.length = Sk.length := by rw [List.length_dropLast]; omega
    have hl2 : Sk.getLastD 0 = Sk.getLast hSkne := by
      rw [List.getLastD_eq_getLast?, List.getLast?_eq_getLast_of_ne_nil hSkne]
      simp
    have hsks : Sk.dropLast ++ [Sk.getLastD 0] = Sk := by
      rw [hl2]
      exact List.dropLast_append_getLast hSkne
    have hdk_len : Sk.dropLast.length = Sk.length - 1 := List.length_dropLast Sk
    have hSdec : inter Sc Sk =
        inter Sc.dropLast Sk.dropLast ++ Sk.getLastD 0 :: toList (Sc.getLast hScne) := by
      have hsplit := @inter_split (Sk.length - 1) Sc Sk (by omega) (by omega)
      have e1 : Sk.length - 1 + 1 = Sk.length := by omega
      rw [e1] at hsplit
      have e2 : Sc.take Sk.length = Sc.dropLast := by
        conv_lhs => rw [← hscs]
        exact take_left_at hdl_len
      have e3 : Sk.take (Sk.length - 1) = Sk.dropLast := by
        have e3' : ∀ m, m = Sk.length - 1 → Sk.take m = Sk.dropLast := by
          intro m hm
          conv_lhs => rw [← hsks]
          exact take_left_at (by omega)
        exact e3' _ rfl
      have e4 : Sk.getD (Sk.length - 1) 0 = Sk.getLastD 0 := by
        have e4' : ∀ m, m = Sk.length - 1 → Sk.getD m 0 = Sk.getLastD 0 := by
          intro m hm
          conv_lhs => rw [← hsks]
          exact getD_splice_at_int (by omega)
        exact e4' _ rfl
      have e5 : Sc.drop Sk.length = [Sc.getLast hScne] := by
        conv_lhs => rw [← hscs]
        exact drop_left_at hdl_len
      rw [e2, e3, e4, e5, List.drop_length] at hsplit
      rw [hsplit, inter_cons_nil]
    have hhsc : heights Sc = height (Sc.getLast hScne) + 1 :=
      heights_eq_of_sameHB hSsame hsc_mem
    refine ⟨?_, ?_, ?_, ?_, ?_⟩
    · simp only [Bool.false_eq_true, if_false, toList_node, match_getLast_some hgl,
        inter_cons_cons]
      rw [hSdec]
      simp [List.append_assoc]
    · simp only [Bool.false_eq_true, if_false]
      rw [ok_node]
      simp only [Bool.and_eq_true, beq_iff_eq]
      refine ⟨⟨?_, ?_⟩, ?_⟩
      · rw [List.length_dropLast, List.length_dropLast]
        omega
      · exact sameHB_sublist (List.dropLast_sublist Sc) hSsame
      · exact okAll_sublist (List.dropLast_sublist Sc) hSall
    · simp only [Bool.false_eq_true, if_false, match_getLast_some hgl]
      rw [ok_node]
      simp only [Bool.and_eq_true, beq_iff_eq]
      refine ⟨⟨by simp; omega, ?_⟩, ?_⟩
      · obtain ⟨c0, hc0⟩ := List.exists_mem_of_ne_nil Cc hCcne
        have hx1 := heights_eq_of_sameHB hCsame hc0
        have hxx : ∀ c ∈ Sc.getLast hScne :: Cc, height c = height c0 := by
          intro c hc
          rcases List.mem_cons.mp hc with hc | hc
          · subst hc
            omega
          · exact (sameHB_iff Cc).mp hCsame c hc c0 hc0
        exact sameHB_of_forall hxx
      · rw [okAll_iff] at hSall hCall ⊢
        intro c hc
        rcases List.mem_cons.mp hc with hc | hc
        · subst hc
          exact hSall _ hsc_mem
        · exact hCall c hc
    · simp only [Bool.false_eq_true, if_false, height_mk]
      exact heights_dropLast hSsame (by omega)
    · simp only [Bool.false_eq_true, if_false, match_getLast_some hgl, height_mk,
        heights_cons]
      have h9 : height (Sc.getLast hScne) + 1 = heights Cc := by omega
      rw [h9, Nat.max_self]

/-- The right-rotation performed by `borrow_from_next`, seen from the two
children involved. -/
theorem borrow_pair_next {t : Nat} (ht : 2 ≤ t) {C D : Node}
    (hokC : ok t C = true) (hokD : ok t D = true)
    (hh : height C = height D) (hDk : t ≤ D.keys.length) (s : Int) :
    toList (.mk (C.keys ++ [s])
        (if C.leafFlag then C.children
          else match D.children with
            | sc :: _ => C.children ++ [sc]
            | [] => C.children) C.leafFlag)
      ++ D.keys.headD 0 ::
        toList (.mk (D.keys.drop 1)
          (if C.leafFlag then D.children else D.children.drop 1) D.leafFlag)
      = toList C ++ s :: toList D
    ∧ ok t (.mk (C.keys ++ [s])
        (if C.leafFlag then C.children
          else match D.children with
            | sc :: _ => C.children ++ [sc]
            | [] => C.children) C.leafFlag) = true
    ∧ ok t (.mk (D.keys.drop 1)
        (if C.leafFlag then D.children else D.children.drop 1) D.leafFlag) = true
    ∧ height (.mk (C.keys ++ [s])
        (if C.leafFlag then C.children
          else match D.children with
            | sc :: _ => C.children ++ [sc]
            | [] => C.children) C.leafFlag) = height C
    ∧ height (.mk (D.keys.drop 1)
        (if C.leafFlag then D.children else D.children.drop 1) D.leafFlag)
      = height D := by
  cases C with
  | mk Ck Cc Cl =>
  cases D with
  | mk Dk Dc Dl =>
  have h1 := leafFlag_of_ok hokC
  have h2 := leafFlag_of_ok hokD
  simp only [Node.leafFlag_mk, height_mk] at h1 h2
  simp only [Node.keys_mk, Node.children_mk, Node.leafFlag_mk, height_mk] at hh hDk ⊢
  have hflag : Cl = Dl := by
    cases Cl with
    | true =>
      cases Dl with
      | true => rfl
      | false =>
        exfalso
        have h3 : heights Cc = 0 := h1.mp rfl
        rw [hh] at h3
        have h4 := h2.mpr h3
        exact absurd h4 (by simp)
    | false =>
      cases Dl with
      | true =>
        exfalso
        have h3 : heights Dc = 0 := h2.mp rfl
        rw [← hh] at h3
        have h4 := h1.mpr h3
        exact absurd h4 (by simp)
      | false => rfl
  subst hflag
  have hDkne : Dk ≠ [] := by
    intro hc
    rw [hc] at hDk
    simp at hDk
    omega
  have hDkcons : Dk.headD 0 :: Dk.drop 1 = Dk := by
    cases Dk with
    | nil => exact absurd rfl hDkne
    | cons a l => simp
  cases Cl with
  | true =>
    rw [ok_leaf] at hokC hokD
    have hCc : Cc = [] := by simpa [List.isEmpty_iff] using hokC
    have hDc : Dc = [] := by simpa [List.isEmpty_iff] using hokD
    subst hCc hDc
    refine ⟨?_, by simp [ok], by simp [ok], by simp [height_mk], by simp [height_mk]⟩
    simp only [toList_leaf]
    calc (Ck ++ [s]) ++ Dk.headD 0 :: Dk.drop 1
        = Ck ++ s :: (Dk.headD 0 :: Dk.drop 1) := by simp
      _ = Ck ++ s :: Dk := by rw [hDkcons]
  | false =>
    rw [ok_node] at hokC hokD
    simp only [Bool.and_eq_true, beq_iff_eq] at hokC hokD
    obtain ⟨⟨hClen, hCsame⟩, hCall⟩ := hokC
    obtain ⟨⟨hDlen, hDsame⟩, hDall⟩ := hokD
    have hCcne : Cc ≠ [] := by intro hc; rw [hc] at hClen; simp at hClen
    have hDcne : Dc ≠ [] := by intro hc; rw [hc] at hDlen; simp at hDlen
    obtain ⟨d0, rest, hDc⟩ : ∃ d r, Dc = d :: r := by
      cases Dc with
      | nil => exact absurd rfl hDcne
      | cons d r => exact ⟨d, r, rfl⟩
    subst hDc
    have hd0_mem : d0 ∈ d0 :: rest := by simp
    have hrest_ne : rest ≠ [] := by
      intro hc
      subst hc
      simp only [List.length_cons, List.length_nil] at hDlen
      omega
    have hc2 : inter (Cc ++ [d0]) (Ck ++ [s]) = inter Cc Ck ++ s :: toList d0 := by
      have hsplit := @inter_split Ck.length (Cc ++ [d0]) (Ck ++ [s]) (by simp)
        (by simp; omega)
      have e2 : (Cc ++ [d0]).take (Ck.length + 1) = Cc := take_left_at (by omega)
      have e3 : (Ck ++ [s]).take Ck.length = Ck := take_left_at rfl
      have e4 : (Ck ++ [s]).getD Ck.length 0 = s := getD_splice_at_int rfl
      have e5 : (Cc ++ [d0]).drop (Ck.length + 1) = [d0] := drop_left_at (by omega)
      have e6 : (Ck ++ [s]).drop (Ck.length + 1) = [] := by
        have h6 := drop_splice' Ck [s] 1
        simpa using h6
      rw [e2, e3, e4, e5, e6] at hsplit
      rw [hsplit, inter_cons_nil]
    have hDdec : inter (d0 :: rest) Dk =
        toList d0 ++ Dk.headD 0 :: inter rest (Dk.drop 1) := by
      conv_lhs => rw [← hDkcons]
      rw [inter_cons_cons]
    have hhd0 : heights (d0 :: rest) = height d0 + 1 :=
      heights_eq_of_sameHB hDsame hd0_mem
    refine ⟨?_, ?_, ?_, ?_, ?_⟩
    · simp only [Bool.false_eq_true, if_false, toList_node, match_cons_app,
        List.drop_succ_cons, List.drop_zero]
      rw [hc2, hDdec]
      simp [List.append_assoc]
    · simp only [Bool.false_eq_true, if_false, match_cons_app]
      rw [ok_node]
      simp only [Bool.and_eq_true, beq_iff_eq]
      refine ⟨⟨by simp; omega, ?_⟩, ?_⟩
      · obtain ⟨c0, hc0⟩ := List.exists_mem_of_ne_nil Cc hCcne
        have hx1 := heights_eq_of_sameHB hCsame hc0
        have hxx : ∀ c ∈ Cc ++ [d0], height c = height c0 := by
          intro c hc
          rcases List.mem_append.mp hc with hc | hc
          · exact (sameHB_iff Cc).mp hCsame c hc c0 hc0
          · rcases List.mem_singleton.mp hc with hc
            subst hc
            omega
        exact sameHB_of_forall hxx
      · rw [okAll_iff] at hCall hDall ⊢
        intro c hc
        rcases List.mem_append.mp hc with hc | hc
        · exact hCall c hc
        · rcases List.mem_singleton.mp hc with hc
          subst hc
          exact hDall _ hd0_mem
    · simp only [Bool.false_eq_true, if_false, List.drop_succ_cons, List.drop_zero]
      rw [ok_node]
      simp only [Bool.and_eq_true, beq_iff_eq]
      refine ⟨⟨?_, ?_⟩, ?_⟩
      · rw [List.length_drop]
        have h7 : rest.length + 1 = Dk.length + 1 := by
          have := hDlen
          simpa using this
        omega
      · exact sameHB_sublist (List.sublist_cons_self d0 rest) hDsame
      · exact okAll_sublist (List.sublist_cons_self d0 rest) hDall
    · simp only [Bool.false_eq_true, if_false, match_cons_app, height_mk, heights_append,
        heights_cons]
      have h0 : heights ([] : List Node) = 0 := rfl
      rw [h0, Nat.max_zero]
      obtain ⟨c0, hc0⟩ := List.exists_mem_of_ne_nil Cc hCcne
      have hx1 := heights_eq_of_sameHB hCsame hc0
      have h9 : height d0 + 1 = heights Cc := by omega
      rw [h9, Nat.max_self]
    · simp only [Bool.false_eq_true, if_false, List.drop_succ_cons, List.drop_zero,
        height_mk]
      obtain ⟨c1, hc1⟩ := List.exists_mem_of_ne_nil rest hrest_ne
      have hx1 : heights rest = height c1 + 1 :=
        heights_eq_of_forall
          (fun d hd => (sameHB_iff (d0 :: rest)).mp hDsame d (by simp [hd]) c1
            (by simp [hc1])) hrest_ne
      have hx2 : heights (d0 :: rest) = height c1 + 1 :=
        heights_eq_of_forall
          (fun d hd => (sameHB_iff (d0 :: rest)).mp hDsame d hd c1 (by simp [hc1]))
          (by simp)
      omega

theorem leafFlag_eq_of_heights {t : Nat} {C D : Node} (hokC : ok t C = true)
    (hokD : ok t D = true) (hh : height C = height D) : C.leafFlag = D.leafFlag := by
  have h1 := leafFlag_of_ok hokC
  have h2 := leafFlag_of_ok hokD
  cases hfC : C.leafFlag with
  | true =>
    cases hfD : D.leafFlag with
    | true => rfl
    | false =>
      exfalso
      have h3 := h1.mp hfC
      rw [hh] at h3
      have h4 := h2.mpr h3
      rw [hfD] at h4
      exact absurd h4 (by simp)
  | false =>
    cases hfD : D.leafFlag with
    | true =>
      exfalso
      have h3 := h2.mp hfD
      rw [← hh] at h3
      have h4 := h1.mpr h3
      rw [hfC] at h4
      exact absurd h4 (by simp)
    | false => rfl

/-- Full specification of `fill`: it leaves the flattening unchanged,
keeps the node shape and the subtree invariants, removes at most one key
of this node, and the child the deletion will descend into (at the
re-aimed index) has between `t` and `2t - 1` keys and still covers the
searched key. -/
theorem fill_spec {t : Nat} (ht : 2 ≤ t) {ks : List Int} {cs : List Node}
    (hlen : cs.length = ks.length + 1) (hsame : sameHB cs = true)
    (hall : okAll t cs = true)
    (hs : List.Sorted (· ≤ ·) (inter cs ks))
    (hks1 : 1 ≤ ks.length)
    {idx : Nat} (hidx : idx ≤ ks.length)
    (hdef : (cs.getD idx default).keys.length < t)
    {key : Int}
    (htake : ∀ x ∈ ks.take idx, x < key)
    (hgt : idx < ks.length → key < ks.getD idx 0) :
    ∃ j : Nat,
      j = (if idx = ks.length ∧ (fill t (.mk ks cs false) idx).keys.length < idx
            then idx - 1 else idx)
      ∧ toList (fill t (.mk ks cs false) idx) = inter cs ks
      ∧ (fill t (.mk ks cs false) idx).leafFlag = false
      ∧ (fill t (.mk ks cs false) idx).children.length
          = (fill t (.mk ks cs false) idx).keys.length + 1
      ∧ sameHB (fill t (.mk ks cs false) idx).children = true
      ∧ okAll t (fill t (.mk ks cs false) idx).children = true
      ∧ heights (fill t (.mk ks cs false) idx).children = heights cs
      ∧ ks.length - 1 ≤ (fill t (.mk ks cs false) idx).keys.length
      ∧ (fill t (.mk ks cs false) idx).keys.length ≤ ks.length
      ∧ j < (fill t (.mk ks cs false) idx).children.length
      ∧ t ≤ ((fill t (.mk ks cs false) idx).children.getD j default).keys.length
      ∧ ((fill t (.mk ks cs false) idx).children.getD j default).keys.length ≤ 2 * t - 1
      ∧ (∀ x ∈ (fill t (.mk ks cs false) idx).keys.take j, x < key)
      ∧ (j < (fill t (.mk ks cs false) idx).keys.length →
          key < (fill t (.mk ks cs false) idx).keys.getD j 0) := by
  have hks_sorted : List.Sorted (· ≤ ·) ks :=
    sorted_of_sublist (sublist_inter ks cs (by omega)) hs
  by_cases hb1 : idx ≠ 0 ∧ t ≤ (cs.getD (idx - 1) default).keys.length
  · -- borrow from the previous sibling
    obtain ⟨i, rfl⟩ : ∃ i, idx = i + 1 := ⟨idx - 1, by omega⟩
    have hb1b : t ≤ (cs.getD i default).keys.length := by
      have h1 := hb1.2
      simpa using h1
    have hiks : i < ks.length := by omega
    have hics : i < cs.length := by omega
    have hics1 : i + 1 < cs.length := by omega
    have hka_len : (ks.take i).length = i := by rw [List.length_take]; omega
    have hA_len : (cs.take i).length = i := by rw [List.length_take]; omega
    have hSmem : cs.getD i default ∈ cs := by
      rw [List.getD_eq_getElem _ _ hics]
      exact List.getElem_mem hics
    have hCmem : cs.getD (i + 1) default ∈ cs := by
      rw [List.getD_eq_getElem _ _ hics1]
      exact List.getElem_mem hics1
    obtain ⟨hSok, hSlo, hShi⟩ := (okAll_iff t cs).mp hall _ hSmem
    obtain ⟨hCok, hClo, hChi⟩ := (okAll_iff t cs).mp hall _ hCmem
    have hhSC : height (cs.getD i default) = height (cs.getD (i + 1) default) :=
      (sameHB_iff cs).mp hsame _ hSmem _ hCmem
    have hks_sp : ks = ks.take i ++ ks.getD i 0 :: ks.drop (i + 1) := by
      conv_lhs => rw [← List.take_append_drop i ks, drop_splice hiks, int_default]
    have hcs_sp : cs = cs.take i ++ cs.getD i default :: cs.getD (i + 1) default
        :: cs.drop (i + 2) := by
      have hd1 : cs.drop (i + 1) = cs.getD (i + 1) default :: cs.drop (i + 2) :=
        drop_splice hics1
      conv_lhs => rw [← List.take_append_drop i cs, drop_splice hics, hd1]
    obtain ⟨hp1, hp2, hp3, hp4, hp5⟩ :=
      borrow_pair_prev ht hSok hCok hhSC hb1b (ks.getD i 0)
    have hfe : fill t (.mk ks cs false) (i + 1) =
        borrow_from_prev (.mk ks cs false) (i + 1) := by
      simp only [fill]
      rw [if_pos]
      exact ⟨by omega, by simpa using hb1b⟩
    have hbp : borrow_from_prev (.mk ks cs false) (i + 1) =
        .mk (ks.take i ++ (cs.getD i default).keys.getLastD 0 :: ks.drop (i + 1))
          (cs.take i
            ++ (Node.mk (cs.getD i default).keys.dropLast
                (if (cs.getD (i + 1) default).leafFlag then (cs.getD i default).children
                  else (cs.getD i default).children.dropLast)
                (cs.getD i default).leafFlag)
            :: (Node.mk (ks.getD i 0 :: (cs.getD (i + 1) default).keys)
                (if (cs.getD (i + 1) default).leafFlag
                  then (cs.getD (i + 1) default).children
                  else match (cs.getD i default).children.getLast? with
                    | some sc => sc :: (cs.getD (i + 1) default).children
                    | none => (cs.getD (i + 1) default).children)
                (cs.getD (i + 1) default).leafFlag)
            :: cs.drop (i + 2)) false := by
      conv_lhs => rw [hks_sp, hcs_sp]
      exact borrow_from_prev_eq hA_len hka_len
    have hfill := hfe.trans hbp
    have htk : ks.take (i + 1) = ks.take i ++ [ks.getD i 0] := by
      have h1 := take_succ_getD (l := ks) (by omega : i < ks.length)
      rwa [int_default] at h1
    refine ⟨i + 1, ?_, ?_, ?_, ?_, ?_, ?_, ?_, ?_, ?_, ?_, ?_, ?_, ?_, ?_⟩
    · rw [hfill]
      rw [if_neg]
      rintro ⟨h1, h2⟩
      simp only [Node.keys_mk, List.length_append, List.length_cons, List.length_take,
        List.length_drop] at h2
      omega
    · rw [hfill, toList_node]
      conv_rhs => rw [hcs_sp, hks_sp]
      rw [inter_append (by rw [hA_len, hka_len])]
      rw [inter_append (by rw [hA_len, hka_len])]
      congr 1
      rw [inter_cons_cons, inter_cons_cons, inter_cons_eq, inter_cons_eq]
      rw [← List.cons_append, ← List.cons_append, ← List.append_assoc,
        ← List.append_assoc]
      rw [hp1]
    · rw [hfill]
      rfl
    · rw [hfill]
      simp only [Node.children_mk, Node.keys_mk, List.length_append, List.length_cons,
        List.length_take, List.length_drop]
      omega
    · rw [hfill]
      simp only [Node.children_mk]
      refine @sameHB_of_forall _ (height (cs.getD i default)) (fun c hc => ?_)
      rcases List.mem_append.mp hc with hc | hc
      · exact (sameHB_iff cs).mp hsame c ((List.take_sublist i cs).subset hc) _ hSmem
      · rcases List.mem_cons.mp hc with hc | hc
        · subst hc
          exact hp4
        · rcases List.mem_cons.mp hc with hc | hc
          · subst hc
            rw [hp5]
            exact hhSC.symm
          · exact (sameHB_iff cs).mp hsame c ((List.drop_sublist (i + 2) cs).subset hc)
              _ hSmem
    · rw [hfill]
      simp only [Node.children_mk]
      rw [okAll_iff]
      intro c hc
      rcases List.mem_append.mp hc with hc | hc
      · exact (okAll_iff t cs).mp hall c ((List.take_sublist i cs).subset hc)
      · rcases List.mem_cons.mp hc with hc | hc
        · subst hc
          refine ⟨hp2, ?_, ?_⟩
          · simp only [Node.keys_mk, List.length_dropLast]
            omega
          · simp only [Node.keys_mk, List.length_dropLast]
            omega
        · rcases List.mem_cons.mp hc with hc | hc
          · subst hc
            refine ⟨hp3, ?_, ?_⟩
            · simp only [Node.keys_mk, List.length_cons]
              omega
            · simp only [Node.keys_mk, List.length_cons]
              omega
          · exact (okAll_iff t cs).mp hall c ((List.drop_sublist (i + 2) cs).subset hc)
    · rw [hfill]
      simp only [Node.children_mk]
      rw [heights_eq_of_sameHB hsame hSmem]
      refine heights_eq_of_forall (fun c hc => ?_) ?_
      · rcases List.mem_append.mp hc with hc | hc
        · exact (sameHB_iff cs).mp hsame c ((List.take_sublist i cs).subset hc) _ hSmem
        · rcases List.mem_cons.mp hc with hc | hc
          · subst hc
            exact hp4
          · rcases List.mem_cons.mp hc with hc | hc
            · subst hc
              rw [hp5]
              exact hhSC.symm
            · exact (sameHB_iff cs).mp hsame c
                ((List.drop_sublist (i + 2) cs).subset hc) _ hSmem
      · intro hcon
        have h0 := congrArg List.length hcon
        simp at h0
    · rw [hfill]
      simp only [Node.keys_mk, List.length_append, List.length_cons, List.length_take,
        List.length_drop]
      omega
    · rw [hfill]
      simp only [Node.keys_mk, List.length_append, List.length_cons, List.length_take,
        List.length_drop]
      omega
    · rw [hfill]
      simp only [Node.children_mk, List.length_append, List.length_cons, List.length_take,
        List.length_drop]
      omega
    · rw [hfill]
      simp only [Node.children_mk]
      rw [getD_splice_at_succ hA_len]
      simp only [Node.keys_mk, List.length_cons]
      omega
    · rw [hfill]
      simp only [Node.children_mk]
      rw [getD_splice_at_succ hA_len]
      simp only [Node.keys_mk, List.length_cons]
      omega
    · rw [hfill]
      simp only [Node.keys_mk]
      rw [splice_take_succ_at hka_len]
      intro x hx
      rcases List.mem_append.mp hx with hx | hx
      · exact htake x (by rw [htk]; exact List.mem_append.mpr (Or.inl hx))
      · rcases List.mem_singleton.mp hx with rfl
        have hSkne : (cs.getD i default).keys ≠ [] := by
          intro hcon
          rw [hcon] at hb1b
          simp at hb1b
          omega
        have hv_mem2 : (cs.getD i default).keys.getLastD 0 ∈ toList (cs.getD i default) :=
          (keys_sublist_toList hSok).subset (getLastD_mem hSkne)
        have hv_le := child_le_sep hlen hs hiks _ hv_mem2
        have hs_lt : ks.getD i 0 < key := htake _ (by
          rw [htk]
          exact List.mem_append.mpr (Or.inr (by simp)))
        omega
    · rw [hfill]
      simp only [Node.keys_mk]
      intro hlt
      simp only [List.length_append, List.length_cons, List.length_take,
        List.length_drop] at hlt
      have hi1 : i + 1 < ks.length := by omega
      have hd2 : ks.drop (i + 1) = ks.getD (i + 1) 0 :: ks.drop (i + 2) := by
        have h1 := drop_splice (l := ks) hi1
        rwa [int_default] at h1
      rw [hd2, getD_splice_at_succ_int hka_len]
      exact hgt hi1
  · by_cases hb2 : idx ≠ ks.length ∧ t ≤ (cs.getD (idx + 1) default).keys.length
    · -- borrow from the next sibling
      obtain ⟨hb2a, hb2b⟩ := hb2
      have hilt : idx < ks.length := by omega
      have hics : idx < cs.length := by omega
      have hics1 : idx + 1 < cs.length := by omega
      have hka_len : (ks.take idx).length = idx := by rw [List.length_take]; omega
      have hA_len : (cs.take idx).length = idx := by rw [List.length_take]; omega
      have hCmem : cs.getD idx default ∈ cs := by
        rw [List.getD_eq_getElem _ _ hics]
        exact List.getElem_mem hics
      have hDmem : cs.getD (idx + 1) default ∈ cs := by
        rw [List.getD_eq_getElem _ _ hics1]
        exact List.getElem_mem hics1
      obtain ⟨hCok, hClo, hChi⟩ := (okAll_iff t cs).mp hall _ hCmem
      obtain ⟨hDok, hDlo, hDhi⟩ := (okAll_iff t cs).mp hall _ hDmem
      have hhCD : height (cs.getD idx default) = height (cs.getD (idx + 1) default) :=
        (sameHB_iff cs).mp hsame _ hCmem _ hDmem
      have hks_sp : ks = ks.take idx ++ ks.getD idx 0 :: ks.drop (idx + 1) := by
        conv_lhs => rw [← List.take_append_drop idx ks, drop_splice hilt, int_default]
      have hcs_sp : cs = cs.take idx ++ cs.getD idx default
          :: cs.getD (idx + 1) default :: cs.drop (idx + 2) := by
        have hd1 : cs.drop (idx + 1) = cs.getD (idx + 1) default :: cs.drop (idx + 2) :=
          drop_splice hics1
        conv_lhs => rw [← List.take_append_drop idx cs, drop_splice hics, hd1]
      obtain ⟨hp1, hp2, hp3, hp4, hp5⟩ :=
        borrow_pair_next ht hCok hDok hhCD hb2b (ks.getD idx 0)
      have hfe : fill t (.mk ks cs false) idx =
          borrow_from_next (.mk ks cs false) idx := by
        simp only [fill]
        rw [if_neg hb1, if_pos ⟨hb2a, hb2b⟩]
      have hbn : borrow_from_next (.mk ks cs false) idx =
          .mk (ks.take idx ++ (cs.getD (idx + 1) default).keys.headD 0
              :: ks.drop (idx + 1))
            (cs.take idx
              ++ (Node.mk ((cs.getD idx default).keys ++ [ks.getD idx 0])
                  (if (cs.getD idx default).leafFlag then (cs.getD idx default).children
                    else match (cs.getD (idx + 1) default).children with
                      | sc :: _ => (cs.getD idx default).children ++ [sc]
                      | [] => (cs.getD idx default).children)
                  (cs.getD idx default).leafFlag)
              :: (Node.mk ((cs.getD (idx + 1) default).keys.drop 1)
                  (if (cs.getD idx default).leafFlag
                    then (cs.getD (idx + 1) default).children
                    else (cs.getD (idx + 1) default).children.drop 1)
                  (cs.getD (idx + 1) default).leafFlag)
              :: cs.drop (idx + 2)) false := by
        conv_lhs => rw [hks_sp, hcs_sp]
        exact borrow_from_next_eq hA_len hka_len
      have hfill := hfe.trans hbn
      have hDkne : (cs.getD (idx + 1) default).keys ≠ [] := by
        intro hcon
        rw [hcon] at hb2b
        simp at hb2b
        omega
      refine ⟨idx, ?_, ?_, ?_, ?_, ?_, ?_, ?_, ?_, ?_, ?_, ?_, ?_, ?_, ?_⟩
      · rw [hfill]
        rw [if_neg]
        rintro ⟨h1, h2⟩
        exact hb2a h1
      · rw [hfill, toList_node]
        conv_rhs => rw [hcs_sp, hks_sp]
        rw [inter_append (by rw [hA_len, hka_len])]
        rw [inter_append (by rw [hA_len, hka_len])]
        congr 1
        rw [inter_cons_cons, inter_cons_cons, inter_cons_eq, inter_cons_eq]
        rw [← List.cons_append, ← List.cons_append, ← List.append_assoc,
          ← List.append_assoc]
        rw [hp1]
      · rw [hfill]
        rfl
      · rw [hfill]
        simp only [Node.children_mk, Node.keys_mk, List.length_append, List.length_cons,
          List.length_take, List.length_drop]
        omega
      · rw [hfill]
        simp only [Node.children_mk]
        refine @sameHB_of_forall _ (height (cs.getD idx default)) (fun c hc => ?_)
        rcases List.mem_append.mp hc with hc | hc
        · exact (sameHB_iff cs).mp hsame c ((List.take_sublist idx cs).subset hc) _ hCmem
        · rcases List.mem_cons.mp hc with hc | hc
          · subst hc
            exact hp4
          · rcases List.mem_cons.mp hc with hc | hc
            · subst hc
              rw [hp5]
              exact hhCD.symm
            · exact (sameHB_iff cs).mp hsame c
                ((List.drop_sublist (idx + 2) cs).subset hc) _ hCmem
      · rw [hfill]
        simp only [Node.children_mk]
        rw [okAll_iff]
        intro c hc
        rcases List.mem_append.mp hc with hc | hc
        · exact (okAll_iff t cs).mp hall c ((List.take_sublist idx cs).subset hc)
        · rcases List.mem_cons.mp hc with hc | hc
          · subst hc
            refine ⟨hp2, ?_, ?_⟩
            · simp only [Node.keys_mk, List.length_append, List.length_cons,
                List.length_nil]
              omega
            · simp only [Node.keys_mk, List.length_append, List.length_cons,
                List.length_nil]
              omega
          · rcases List.mem_cons.mp hc with hc | hc
            · subst hc
              refine ⟨hp3, ?_, ?_⟩
              · simp only [Node.keys_mk, List.length_drop]
                omega
              · simp only [Node.keys_mk, List.length_drop]
                omega
            · exact (okAll_iff t cs).mp hall c ((List.drop_sublist (idx + 2) cs).subset hc)
      · rw [hfill]
        simp only [Node.children_mk]
        rw [heights_eq_of_sameHB hsame hCmem]
        refine heights_eq_of_forall (fun c hc => ?_) ?_
        · rcases List.mem_append.mp hc with hc | hc
          · exact (sameHB_iff cs).mp hsame c ((List.take_sublist idx cs).subset hc) _ hCmem
          · rcases List.mem_cons.mp hc with hc | hc
            · subst hc
              exact hp4
            · rcases List.mem_cons.mp hc with hc | hc
              · subst hc
                rw [hp5]
                exact hhCD.symm
              · exact (sameHB_iff cs).mp hsame c
                  ((List.drop_sublist (idx + 2) cs).subset hc) _ hCmem
        · intro hcon
          have h0 := congrArg List.length hcon
          simp at h0
      · rw [hfill]
        simp only [Node.keys_mk, List.length_append, List.length_cons, List.length_take,
          List.length_drop]
        omega
      · rw [hfill]
        simp only [Node.keys_mk, List.length_append, List.length_cons, List.length_take,
          List.length_drop]
        omega
      · rw [hfill]
        simp only [Node.children_mk, List.length_append, List.length_cons,
          List.length_take, List.length_drop]
        omega
      · rw [hfill]
        simp only [Node.children_mk]
        rw [getD_splice_at hA_len]
        simp only [Node.keys_mk, List.length_append, List.length_cons, List.length_nil]
        omega
      · rw [hfill]
        simp only [Node.children_mk]
        rw [getD_splice_at hA_len]
        simp only [Node.keys_mk, List.length_append, List.length_cons, List.length_nil]
        omega
      · rw [hfill]
        simp only [Node.keys_mk]
        rw [splice_take_at hka_len]
        exact htake
      · rw [hfill]
        simp only [Node.keys_mk]
        intro hlt
        rw [getD_splice_at_int hka_len]
        have hw_mem : (cs.getD (idx + 1) default).keys.headD 0
            ∈ toList (cs.getD (idx + 1) default) :=
          (keys_sublist_toList hDok).subset (headD_mem hDkne)
        have hw_ge := sep_le_child hlen hs hilt _ hw_mem
        have hk_lt := hgt hilt
        omega
    · by_cases hb3 : idx ≠ ks.length
      · -- merge with the next sibling
        have hilt : idx < ks.length := by omega
        have hics : idx < cs.length := by omega
        have hics1 : idx + 1 < cs.length := by omega
        have hka_len : (ks.take idx).length = idx := by rw [List.length_take]; omega
        have hA_len : (cs.take idx).length = idx := by rw [List.length_take]; omega
        have hCmem : cs.getD idx default ∈ cs := by
          rw [List.getD_eq_getElem _ _ hics]
          exact List.getElem_mem hics
        have hDmem : cs.getD (idx + 1) default ∈ cs := by
          rw [List.getD_eq_getElem _ _ hics1]
          exact List.getElem_mem hics1
        obtain ⟨hCok, hClo, hChi⟩ := (okAll_iff t cs).mp hall _ hCmem
        obtain ⟨hDok, hDlo, hDhi⟩ := (okAll_iff t cs).mp hall _ hDmem
        have hDdef : (cs.getD (idx + 1) default).keys.length < t := by
          rw [not_and_or] at hb2
          rcases hb2 with h | h
          · exact absurd hb3 h
          · omega
        have hhCD : height (cs.getD idx default) = height (cs.getD (idx + 1) default) :=
          (sameHB_iff cs).mp hsame _ hCmem _ hDmem
        have hflagCD := leafFlag_eq_of_heights hCok hDok hhCD
        have hks_sp : ks = ks.take idx ++ ks.getD idx 0 :: ks.drop (idx + 1) := by
          conv_lhs => rw [← List.take_append_drop idx ks, drop_splice hilt, int_default]
        have hcs_sp : cs = cs.take idx ++ cs.getD idx default
            :: cs.getD (idx + 1) default :: cs.drop (idx + 2) := by
          have hd1 : cs.drop (idx + 1) = cs.getD (idx + 1) default :: cs.drop (idx + 2) :=
            drop_splice hics1
          conv_lhs => rw [← List.take_append_drop idx cs, drop_splice hics, hd1]
        have hMt := merge_child_toList hCok hDok hflagCD (ks.getD idx 0)
        have hMo := merge_child_ok hCok hDok hflagCD hhCD (ks.getD idx 0)
        have hfe : fill t (.mk ks cs false) idx = merge (.mk ks cs false) idx := by
          simp only [fill]
          rw [if_neg hb1, if_neg hb2, if_pos hb3]
        have hme : merge (.mk ks cs false) idx =
            .mk (ks.take idx ++ ks.drop (idx + 1))
              (cs.take idx
                ++ (Node.mk ((cs.getD idx default).keys
                      ++ ks.getD idx 0 :: (cs.getD (idx + 1) default).keys)
                    (if (cs.getD idx default).leafFlag then (cs.getD idx default).children
                      else (cs.getD idx default).children
                        ++ (cs.getD (idx + 1) default).children)
                    (cs.getD idx default).leafFlag)
                :: cs.drop (idx + 2)) false := by
          conv_lhs => rw [hks_sp, hcs_sp]
          exact merge_eq hA_len hka_len
        have hfill := hfe.trans hme
        refine ⟨idx, ?_, ?_, ?_, ?_, ?_, ?_, ?_, ?_, ?_, ?_, ?_, ?_, ?_, ?_⟩
        · rw [hfill]
          rw [if_neg]
          rintro ⟨h1, h2⟩
          exact hb3 h1
        · rw [hfill, toList_node]
          conv_rhs => rw [hcs_sp, hks_sp]
          rw [inter_append (by rw [hA_len, hka_len])]
          rw [inter_append (by rw [hA_len, hka_len])]
          congr 1
          rw [inter_cons_eq, inter_cons_cons, inter_cons_eq, hMt, List.append_assoc,
            List.cons_append]
        · rw [hfill]
          rfl
        · rw [hfill]
          simp only [Node.children_mk, Node.keys_mk, List.length_append, List.length_cons,
            List.length_take, List.length_drop]
          omega
        · rw [hfill]
          simp only [Node.children_mk]
          refine @sameHB_of_forall _ (height (cs.getD idx default)) (fun c hc => ?_)
          rcases List.mem_append.mp hc with hc | hc
          · exact (sameHB_iff cs).mp hsame c ((List.take_sublist idx cs).subset hc) _ hCmem
          · rcases List.mem_cons.mp hc with hc | hc
            · subst hc
              exact hMo.2
            · exact (sameHB_iff cs).mp hsame c
                ((List.drop_sublist (idx + 2) cs).subset hc) _ hCmem
        · rw [hfill]
          simp only [Node.children_mk]
          rw [okAll_iff]
          intro c hc
          rcases List.mem_append.mp hc with hc | hc
          · exact (okAll_iff t cs).mp hall c ((List.take_sublist idx cs).subset hc)
          · rcases List.mem_cons.mp hc with hc | hc
            · subst hc
              refine ⟨hMo.1, ?_, ?_⟩
              · simp only [Node.keys_mk, List.length_append, List.length_cons]
                omega
              · simp only [Node.keys_mk, List.length_append, List.length_cons]
                omega
            · exact (okAll_iff t cs).mp hall c ((List.drop_sublist (idx + 2) cs).subset hc)
        · rw [hfill]
          simp only [Node.children_mk]
          rw [heights_eq_of_sameHB hsame hCmem]
          refine heights_eq_of_forall (fun c hc => ?_) ?_
          · rcases List.mem_append.mp hc with hc | hc
            · exact (sameHB_iff cs).mp hsame c ((List.take_sublist idx cs).subset hc)
                _ hCmem
            · rcases List.mem_cons.mp hc with hc | hc
              · subst hc
                exact hMo.2
              · exact (sameHB_iff cs).mp hsame c
                  ((List.drop_sublist (idx + 2) cs).subset hc) _ hCmem
          · intro hcon
            have h0 := congrArg List.length hcon
            simp at h0
        · rw [hfill]
          simp only [Node.keys_mk, List.length_append, List.length_take, List.length_drop]
          omega
        · rw [hfill]
          simp only [Node.keys_mk, List.length_append, List.length_take, List.length_drop]
          omega
        · rw [hfill]
          simp only [Node.children_mk, List.length_append, List.length_cons,
            List.length_take, List.length_drop]
          omega
        · rw [hfill]
          simp only [Node.children_mk]
          rw [getD_splice_at hA_len]
          simp only [Node.keys_mk, List.length_append, List.length_cons]
          omega
        · rw [hfill]
          simp only [Node.children_mk]
          rw [getD_splice_at hA_len]
          simp only [Node.keys_mk, List.length_append, List.length_cons]
          omega
        · rw [hfill]
          simp only [Node.keys_mk]
          rw [take_left_at hka_len]
          exact htake
        · rw [hfill]
          simp only [Node.keys_mk]
          intro hlt
          simp only [List.length_append, List.length_take, List.length_drop] at hlt
          have hi1 : idx + 1 < ks.length := by omega
          have hd2 : ks.drop (idx + 1) = ks.getD (idx + 1) 0 :: ks.drop (idx + 2) := by
            have h1 := drop_splice (l := ks) hi1
            rwa [int_default] at h1
          rw [hd2, getD_splice_at_int hka_len]
          have h3 := sorted_getD_le hks_sorted (by omega : idx ≤ idx + 1) hi1
          have h4 := hgt hilt
          omega
      · -- merge with the previous sibling (last position)
        have hb3' : idx = ks.length := by omega
        obtain ⟨i, rfl⟩ : ∃ i, idx = i + 1 := ⟨idx - 1, by omega⟩
        have hC'def : (cs.getD i default).keys.length < t := by
          rw [not_and_or] at hb1
          rcases hb1 with h | h
          · exact absurd (by omega) h
          · simp only [Nat.add_sub_cancel] at h
            omega
        have hiks : i < ks.length := by omega
        have hics : i < cs.length := by omega
        have hics1 : i + 1 < cs.length := by omega
        have hka_len : (ks.take i).length = i := by rw [List.length_take]; omega
        have hA_len : (cs.take i).length = i := by rw [List.length_take]; omega
        have hCmem : cs.getD i default ∈ cs := by
          rw [List.getD_eq_getElem _ _ hics]
          exact List.getElem_mem hics
        have hDmem : cs.getD (i + 1) default ∈ cs := by
          rw [List.getD_eq_getElem _ _ hics1]
          exact List.getElem_mem hics1
        obtain ⟨hCok, hClo, hChi⟩ := (okAll_iff t cs).mp hall _ hCmem
        obtain ⟨hDok, hDlo, hDhi⟩ := (okAll_iff t cs).mp hall _ hDmem
        have hhCD : height (cs.getD i default) = height (cs.getD (i + 1) default) :=
          (sameHB_iff cs).mp hsame _ hCmem _ hDmem
        have hflagCD := leafFlag_eq_of_heights hCok hDok hhCD
        have hks_sp : ks = ks.take i ++ ks.getD i 0 :: ks.drop (i + 1) := by
          conv_lhs => rw [← List.take_append_drop i ks, drop_splice hiks, int_default]
        have hcs_sp : cs = cs.take i ++ cs.getD i default
            :: cs.getD (i + 1) default :: cs.drop (i + 2) := by
          have hd1 : cs.drop (i + 1) = cs.getD (i + 1) default :: cs.drop (i + 2) :=
            drop_splice hics1
          conv_lhs => rw [← List.take_append_drop i cs, drop_splice hics, hd1]
        have hMt := merge_child_toList hCok hDok hflagCD (ks.getD i 0)
        have hMo := merge_child_ok hCok hDok hflagCD hhCD (ks.getD i 0)
        have hfe : fill t (.mk ks cs false) (i + 1) = merge (.mk ks cs false) i := by
          simp only [fill]
          rw [if_neg hb1, if_neg hb2, if_neg hb3]
          simp only [Nat.add_sub_cancel]
        have hme : merge (.mk ks cs false) i =
            .mk (ks.take i ++ ks.drop (i + 1))
              (cs.take i
                ++ (Node.mk ((cs.getD i default).keys
                      ++ ks.getD i 0 :: (cs.getD (i + 1) default).keys)
                    (if (cs.getD i default).leafFlag then (cs.getD i default).children
                      else (cs.getD i default).children
                        ++ (cs.getD (i + 1) default).children)
                    (cs.getD i default).leafFlag)
                :: cs.drop (i + 2)) false := by
          conv_lhs => rw [hks_sp, hcs_sp]
          exact merge_eq hA_len hka_len
        have hfill := hfe.trans hme
        have htk : ks.take (i + 1) = ks.take i ++ [ks.getD i 0] := by
          have h1 := take_succ_getD (l := ks) (by omega : i < ks.length)
          rwa [int_default] at h1
        refine ⟨i, ?_, ?_, ?_, ?_, ?_, ?_, ?_, ?_, ?_, ?_, ?_, ?_, ?_, ?_⟩
        · have hcond : i + 1 = ks.length ∧
              (fill t (.mk ks cs false) (i + 1)).keys.length < i + 1 := by
            refine ⟨by omega, ?_⟩
            rw [hfill]
            simp only [Node.keys_mk, List.length_append, List.length_take,
              List.length_drop]
            omega
          rw [if_pos hcond]
          omega
        · rw [hfill, toList_node]
          conv_rhs => rw [hcs_sp, hks_sp]
          rw [inter_append (by rw [hA_len, hka_len])]
          rw [inter_append (by rw [hA_len, hka_len])]
          congr 1
          rw [inter_cons_eq, inter_cons_cons, inter_cons_eq, hMt, List.append_assoc,
            List.cons_append]
        · rw [hfill]
          rfl
        · rw [hfill]
          simp only [Node.children_mk, Node.keys_mk, List.length_append, List.length_cons,
            List.length_take, List.length_drop]
          omega
        · rw [hfill]
          simp only [Node.children_mk]
          refine @sameHB_of_forall _ (height (cs.getD i default)) (fun c hc => ?_)
          rcases List.mem_append.mp hc with hc | hc
          · exact (sameHB_iff cs).mp hsame c ((List.take_sublist i cs).subset hc) _ hCmem
          · rcases List.mem_cons.mp hc with hc | hc
            · subst hc
              exact hMo.2
            · exact (sameHB_iff cs).mp hsame c
                ((List.drop_sublist (i + 2) cs).subset hc) _ hCmem
        · rw [hfill]
          simp only [Node.children_mk]
          rw [okAll_iff]
          intro c hc
          rcases List.mem_append.mp hc with hc | hc
          · exact (okAll_iff t cs).mp hall c ((List.take_sublist i cs).subset hc)
          · rcases List.mem_cons.mp hc with hc | hc
            · subst hc
              refine ⟨hMo.1, ?_, ?_⟩
              · simp only [Node.keys_mk, List.length_append, List.length_cons]
                omega
              · simp only [Node.keys_mk, List.length_append, List.length_cons]
                omega
            · exact (okAll_iff t cs).mp hall c ((List.drop_sublist (i + 2) cs).subset hc)
        · rw [hfill]
          simp only [Node.children_mk]
          rw [heights_eq_of_sameHB hsame hCmem]
          refine heights_eq_of_forall (fun c hc => ?_) ?_
          · rcases List.mem_append.mp hc with hc | hc
            · exact (sameHB_iff cs).mp hsame c ((List.take_sublist i cs).subset hc) _ hCmem
            · rcases List.mem_cons.mp hc with hc | hc
              · subst hc
                exact hMo.2
              · exact (sameHB_iff cs).mp hsame c
                  ((List.drop_sublist (i + 2) cs).subset hc) _ hCmem
          · intro hcon
            have h0 := congrArg List.length hcon
            simp at h0
        · rw [hfill]
          simp only [Node.keys_mk, List.length_append, List.length_take, List.length_drop]
          omega
        · rw [hfill]
          simp only [Node.keys_mk, List.length_append, List.length_take, List.length_drop]
          omega
        · rw [hfill]
          simp only [Node.children_mk, List.length_append, List.length_cons,
            List.length_take, List.length_drop]
          omega
        · rw [hfill]
          simp only [Node.children_mk]
          rw [getD_splice_at hA_len]
          simp only [Node.keys_mk, List.length_append, List.length_cons]
          omega
        · rw [hfill]
          simp only [Node.children_mk]
          rw [getD_splice_at hA_len]
          simp only [Node.keys_mk, List.length_append, List.length_cons]
          omega
        · rw [hfill]
          simp only [Node.keys_mk]
          rw [take_left_at hka_len]
          intro x hx
          exact htake x (by rw [htk]; exact List.mem_append.mpr (Or.inl hx))
        · rw [hfill]
          simp only [Node.keys_mk]
          intro hlt
          exfalso
          simp only [List.length_append, List.length_take, List.length_drop] at hlt
          omega

theorem eraseIdx_gki_eq_erase {ks : List Int} {key : Int}
    (hsorted : List.Sorted (· ≤ ·) ks)
    (hfound : get_key_index ks key < ks.length
      ∧ ks.getD (get_key_index ks key) 0 = key) :
    ks.eraseIdx (get_key_index ks key) = ks.erase key := by
  induction ks with
  | nil => simp [get_key_index] at hfound
  | cons k ks ih =>
    by_cases hk : key ≤ k
    · have hidx : get_key_index (k :: ks) key = 0 := by simp [get_key_index, hk]
      rw [hidx] at hfound ⊢
      have hkey : k = key := by simpa using hfound.2
      subst hkey
      simp [List.eraseIdx_cons_zero, List.erase_cons_head]
    · have hidx : get_key_index (k :: ks) key = get_key_index ks key + 1 := by
        simp [get_key_index, hk]
      rw [hidx] at hfound ⊢
      simp only [List.length_cons, List.getD_cons_succ] at hfound
      have hf2 : get_key_index ks key < ks.length
          ∧ ks.getD (get_key_index ks key) 0 = key := ⟨by omega, hfound.2⟩
      rw [List.eraseIdx_cons_succ, ih (List.Sorted.of_cons hsorted) hf2,
        List.erase_cons_tail]
      simp only [beq_iff_eq]
      omega

theorem toList_eq_inter {n : Node} (h : n.leafFlag = false) :
    toList n = inter n.children n.keys := by
  cases n with
  | mk ks cs leaf =>
    cases leaf with
    | true => simp at h
    | false => rfl

/-- Key contents specification of `_delete_internal`: on a well-formed
sorted subtree it removes exactly the first occurrence of `key` from the
flattening (a no-op when the key is absent), preserves the invariant, the
height and the leaf flag, and removes at most one key of this node. -/
theorem delete_internal_spec {t : Nat} (ht : 2 ≤ t) :
    ∀ n, ok t n = true → List.Sorted (· ≤ ·) (toList n) →
    (n.leafFlag = false → 1 ≤ n.keys.length) →
    ∀ key,
    toList (delete_internal t n key) = (toList n).erase key
    ∧ ok t (delete_internal t n key) = true
    ∧ height (delete_internal t n key) = height n
    ∧ (delete_internal t n key).leafFlag = n.leafFlag
    ∧ n.keys.length - 1 ≤ (delete_internal t n key).keys.length
    ∧ (delete_internal t n key).keys.length ≤ n.keys.length := by
  apply Node.height_induction (P := fun n => ok t n = true →
    List.Sorted (· ≤ ·) (toList n) → (n.leafFlag = false → 1 ≤ n.keys.length) →
    ∀ key,
    toList (delete_internal t n key) = (toList n).erase key
    ∧ ok t (delete_internal t n key) = true
    ∧ height (delete_internal t n key) = height n
    ∧ (delete_internal t n key).leafFlag = n.leafFlag
    ∧ n.keys.length - 1 ≤ (delete_internal t n key).keys.length
    ∧ (delete_internal t n key).keys.length ≤ n.keys.length)
  intro n IH hok hs hleaf key
  cases n with
  | mk ks cs leaf =>
  have hks_sorted : List.Sorted (· ≤ ·) ks :=
    sorted_of_sublist (by simpa using keys_sublist_toList hok) hs
  obtain ⟨idx, hidxeq⟩ : ∃ i, get_key_index ks key = i := ⟨_, rfl⟩
  have hidxle : idx ≤ ks.length := by
    rw [← hidxeq]
    exact get_key_index_le_length ks key
  have htake : ∀ x ∈ ks.take idx, x < key := by
    rw [← hidxeq]
    exact gki_take_lt ks key
  by_cases hfound : idx < ks.length ∧ ks.getD idx 0 = key
  · -- the key sits in this node
    cases leaf with
    | true =>
      -- remove_from_leaf
      have hde : delete_internal t (.mk ks cs true) key =
          .mk (ks.eraseIdx idx) cs true := by
        rw [delete_internal.eq_def]
        simp only [hidxeq, if_pos hfound]
        simp
      have herase : ks.eraseIdx idx = ks.erase key := by
        have h1 := eraseIdx_gki_eq_erase hks_sorted (by rw [hidxeq]; exact hfound)
        rwa [hidxeq] at h1
      rw [ok_leaf] at hok
      refine ⟨?_, ?_, ?_, ?_, ?_, ?_⟩
      · rw [hde, toList_leaf, toList_leaf, herase]
      · rw [hde, ok_leaf]
        exact hok
      · rw [hde, height_mk, height_mk]
      · rw [hde]
        rfl
      · rw [hde]
        simp only [Node.keys_mk, List.length_eraseIdx, if_pos hfound.1]
        omega
      · rw [hde]
        simp only [Node.keys_mk, List.length_eraseIdx, if_pos hfound.1]
        omega
    | false =>
      -- remove_from_non_leaf
      rw [ok_node] at hok
      simp only [Bool.and_eq_true, beq_iff_eq] at hok
      obtain ⟨⟨hlen, hsame⟩, hall⟩ := hok
      have hsinter : List.Sorted (· ≤ ·) (inter cs ks) := by simpa using hs
      have hidxlt : idx < ks.length := hfound.1
      have hkeyeq : ks.getD idx 0 = key := hfound.2
      have hics : idx < cs.length := by omega
      have hics1 : idx + 1 < cs.length := by omega
      have hka_len : (ks.take idx).length = idx := by rw [List.length_take]; omega
      have hA_len : (cs.take idx).length = idx := by rw [List.length_take]; omega
      have hCmem : cs.getD idx default ∈ cs := by
        rw [List.getD_eq_getElem _ _ hics]
        exact List.getElem_mem hics
      have hDmem : cs.getD (idx + 1) default ∈ cs := by
        rw [List.getD_eq_getElem _ _ hics1]
        exact List.getElem_mem hics1
      obtain ⟨hCok, hClo, hChi⟩ := (okAll_iff t cs).mp hall _ hCmem
      obtain ⟨hDok, hDlo, hDhi⟩ := (okAll_iff t cs).mp hall _ hDmem
      have hhCD : height (cs.getD idx default) = height (cs.getD (idx + 1) default) :=
        (sameHB_iff cs).mp hsame _ hCmem _ hDmem
      have hCh_lt : height (cs.getD idx default) < height (.mk ks cs false) := by
        rw [height_mk]
        exact height_lt_of_mem hCmem
      have hDh_lt : height (cs.getD (idx + 1) default)
          < height (.mk ks cs false) := by
        rw [height_mk]
        exact height_lt_of_mem hDmem
      have hks_sp : ks = ks.take idx ++ ks.getD idx 0 :: ks.drop (idx + 1) := by
        conv_lhs => rw [← List.take_append_drop idx ks, drop_splice hidxlt, int_default]
      have hcs_sp : cs = cs.take idx ++ cs.getD idx default
          :: cs.getD (idx + 1) default :: cs.drop (idx + 2) := by
        have hd1 : cs.drop (idx + 1) = cs.getD (idx + 1) default :: cs.drop (idx + 2) :=
          drop_splice hics1
        conv_lhs => rw [← List.take_append_drop idx cs, drop_splice hics, hd1]
      have hde : delete_internal t (.mk ks cs false) key =
          remove_from_non_leaf t (.mk ks cs false) idx := by
        rw [delete_internal.eq_def]
        simp only [hidxeq, if_pos hfound, Bool.false_eq_true, if_false]
      have hdec : inter cs ks = interPre (cs.take idx) (ks.take idx) ++
          (toList (cs.getD idx default) ++ key ::
            (toList (cs.getD (idx + 1) default) ++
              interTail (cs.drop (idx + 2)) (ks.drop (idx + 1)))) := by
        conv_lhs => rw [hcs_sp, hks_sp]
        rw [inter_append (by rw [hA_len, hka_len])]
        rw [inter_cons_cons, inter_cons_eq, hkeyeq]
      have hPsorted : List.Sorted (· ≤ ·)
          (interPre (cs.take idx) (ks.take idx)) := by
        refine sorted_of_sublist ?_ hsinter
        rw [hdec]
        exact List.sublist_append_left _ _
      have hPnk : key ∉ interPre (cs.take idx) (ks.take idx) := by
        intro hc
        have h1 := interPre_elems_lt (by rw [hA_len, hka_len]) hPsorted htake _ hc
        omega
      have hdec2 : inter cs ks = interPre (cs.take idx) (ks.take idx)
          ++ toList (cs.getD idx default)
          ++ (key :: (toList (cs.getD (idx + 1) default) ++
            interTail (cs.drop (idx + 2)) (ks.drop (idx + 1)))) := by
        rw [hdec]
        simp [List.append_assoc]
      have hdec3 : inter cs ks = (interPre (cs.take idx) (ks.take idx)
          ++ toList (cs.getD idx default) ++ [key])
          ++ toList (cs.getD (idx + 1) default)
          ++ interTail (cs.drop (idx + 2)) (ks.drop (idx + 1)) := by
        rw [hdec]
        simp [List.append_assoc]
      have hCsorted : List.Sorted (· ≤ ·) (toList (cs.getD idx default)) :=
        sorted_of_sublist (sublist_of_segment hdec2) hsinter
      have hDsorted : List.Sorted (· ≤ ·) (toList (cs.getD (idx + 1) default)) :=
        sorted_of_sublist (sublist_of_segment hdec3) hsinter
      have hCle : ∀ x ∈ toList (cs.getD idx default), x ≤ key := by
        have h1 := child_le_sep hlen hsinter hidxlt
        rw [hkeyeq] at h1
        exact h1
      by_cases hR1 : t ≤ (cs.getD idx default).keys.length
      · -- replace with the predecessor from the left child
        have hCkne : (cs.getD idx default).keys ≠ [] := by
          intro hc
          rw [hc] at hR1
          simp at hR1
          omega
        obtain ⟨hpredeq, hCtne⟩ := get_predecessor_spec t ht _ hCok hCkne
        obtain ⟨hI1, hI2, hI3, hI4, hI5, hI6⟩ := IH _ hCh_lt hCok hCsorted
          (fun _ => by omega) (get_predecessor (cs.getD idx default))
        have hrm : remove_from_non_leaf t (.mk ks cs false) idx =
            .mk (ks.set idx (get_predecessor (cs.getD idx default)))
              (cs.set idx (delete_internal t (cs.getD idx default)
                (get_predecessor (cs.getD idx default)))) false := by
          rw [remove_from_non_leaf.eq_def]
          simp only [if_pos hR1]
          rw [dif_pos hics, List.get_eq_getElem,
            ← List.getD_eq_getElem _ default hics]
        have hde2 := hde.trans hrm
        have hset_cs : cs.set idx (delete_internal t (cs.getD idx default)
            (get_predecessor (cs.getD idx default))) =
            cs.take idx ++ (delete_internal t (cs.getD idx default)
              (get_predecessor (cs.getD idx default)))
              :: cs.getD (idx + 1) default :: cs.drop (idx + 2) := by
          conv_lhs => arg 1; rw [hcs_sp]
          exact splice_set_at hA_len
        have hset_ks : ks.set idx (get_predecessor (cs.getD idx default)) =
            ks.take idx ++ (get_predecessor (cs.getD idx default))
              :: ks.drop (idx + 1) := by
          conv_lhs => arg 1; rw [hks_sp]
          exact splice_set_at hka_len
        have hres_toList : toList (.mk
            (ks.set idx (get_predecessor (cs.getD idx default)))
            (cs.set idx (delete_internal t (cs.getD idx default)
              (get_predecessor (cs.getD idx default)))) false) =
            interPre (cs.take idx) (ks.take idx) ++
              (toList (delete_internal t (cs.getD idx default)
                (get_predecessor (cs.getD idx default)))
                ++ (get_predecessor (cs.getD idx default)) ::
                (toList (cs.getD (idx + 1) default) ++
                  interTail (cs.drop (idx + 2)) (ks.drop (idx + 1)))) := by
          rw [toList_node, hset_cs, hset_ks]
          rw [inter_append (by rw [hA_len, hka_len])]
          rw [inter_cons_cons, inter_cons_eq]
        have hsco := @set_child_ok t
          (ks.set idx (get_predecessor (cs.getD idx default))) cs idx
          (delete_internal t (cs.getD idx default)
            (get_predecessor (cs.getD idx default)))
          (by rw [List.length_set]; omega) hsame hall hics
          hI2 hI3 (by omega) (by omega)
        refine ⟨?_, ?_, ?_, ?_, ?_, ?_⟩
        · rw [hde2, hres_toList, toList_node, hdec,
            List.erase_append_right _ hPnk]
          by_cases hkC : key ∈ toList (cs.getD idx default)
          · have hpk_eq : get_predecessor (cs.getD idx default) = key := by
              rw [hpredeq]
              exact getLastD_eq_of_mem_of_le hCsorted hkC hCle
            rw [List.erase_append_left _ hkC, hI1, hpk_eq]
          · rw [List.erase_append_right _ hkC, List.erase_cons_head, hI1]
            congr 1
            have h6 := getLastD_erase_append hCsorted hCtne
            rw [hpredeq]
            rw [show (toList (cs.getD idx default)).erase
                  ((toList (cs.getD idx default)).getLastD 0) ++
                  ((toList (cs.getD idx default)).getLastD 0) ::
                  (toList (cs.getD (idx + 1) default) ++
                    interTail (cs.drop (idx + 2)) (ks.drop (idx + 1)))
                = ((toList (cs.getD idx default)).erase
                    ((toList (cs.getD idx default)).getLastD 0) ++
                    [(toList (cs.getD idx default)).getLastD 0]) ++
                  (toList (cs.getD (idx + 1) default) ++
                    interTail (cs.drop (idx + 2)) (ks.drop (idx + 1)))
              from by simp]
            rw [h6]
        · rw [hde2]
          exact hsco.1
        · rw [hde2, hsco.2, height_mk, height_mk]
        · rw [hde2]
          rfl
        · rw [hde2]
          simp only [Node.keys_mk, List.length_set]
          omega
        · rw [hde2]
          simp only [Node.keys_mk, List.length_set]
          omega
      · by_cases hR2 : t ≤ (cs.getD (idx + 1) default).keys.length
        · -- replace with the successor from the right child
          have hDkne : (cs.getD (idx + 1) default).keys ≠ [] := by
            intro hc
            rw [hc] at hR2
            simp at hR2
            omega
          have hCkne : (cs.getD idx default).keys ≠ [] := by
            intro hc
            rw [hc] at hClo
            simp at hClo
            omega
          have hCtne : toList (cs.getD idx default) ≠ [] := toList_ne_nil hCok hCkne
          obtain ⟨hsucceq, hDtne⟩ := get_successor_spec t ht _ hDok hDkne
          obtain ⟨hI1, hI2, hI3, hI4, hI5, hI6⟩ := IH _ hDh_lt hDok hDsorted
            (fun _ => by omega) (get_successor (cs.getD (idx + 1) default))
          have hrm : remove_from_non_leaf t (.mk ks cs false) idx =
              .mk (ks.set idx (get_successor (cs.getD (idx + 1) default)))
                (cs.set (idx + 1) (delete_internal t (cs.getD (idx + 1) default)
                  (get_successor (cs.getD (idx + 1) default)))) false := by
            rw [remove_from_non_leaf.eq_def]
            simp only [if_neg hR1, if_pos hR2]
            rw [dif_pos hics1, List.get_eq_getElem,
              ← List.getD_eq_getElem _ default hics1]
          have hde2 := hde.trans hrm
          have hset_cs : cs.set (idx + 1) (delete_internal t
              (cs.getD (idx + 1) default)
              (get_successor (cs.getD (idx + 1) default))) =
              cs.take idx ++ cs.getD idx default
                :: (delete_internal t (cs.getD (idx + 1) default)
                  (get_successor (cs.getD (idx + 1) default)))
                :: cs.drop (idx + 2) := by
            conv_lhs => arg 1; rw [hcs_sp]
            exact splice_set_succ_at hA_len
          have hset_ks : ks.set idx (get_successor (cs.getD (idx + 1) default)) =
              ks.take idx ++ (get_successor (cs.getD (idx + 1) default))
                :: ks.drop (idx + 1) := by
            conv_lhs => arg 1; rw [hks_sp]
            exact splice_set_at hka_len
          have hres_toList : toList (.mk
              (ks.set idx (get_successor (cs.getD (idx + 1) default)))
              (cs.set (idx + 1) (delete_internal t (cs.getD (idx + 1) default)
                (get_successor (cs.getD (idx + 1) default)))) false) =
              interPre (cs.take idx) (ks.take idx) ++
                (toList (cs.getD idx default)
                  ++ (get_successor (cs.getD (idx + 1) default)) ::
                  (toList (delete_internal t (cs.getD (idx + 1) default)
                    (get_successor (cs.getD (idx + 1) default))) ++
                    interTail (cs.drop (idx + 2)) (ks.drop (idx + 1)))) := by
            rw [toList_node, hset_cs, hset_ks]
            rw [inter_append (by rw [hA_len, hka_len])]
            rw [inter_cons_cons, inter_cons_eq]
          have hsco := @set_child_ok t
            (ks.set idx (get_successor (cs.getD (idx + 1) default))) cs (idx + 1)
            (delete_internal t (cs.getD (idx + 1) default)
              (get_successor (cs.getD (idx + 1) default)))
            (by rw [List.length_set]; omega) hsame hall hics1
            hI2 hI3 (by omega) (by omega)
          have h7 : (get_successor (cs.getD (idx + 1) default)) ::
              toList (delete_internal t (cs.getD (idx + 1) default)
                (get_successor (cs.getD (idx + 1) default))) =
              toList (cs.getD (idx + 1) default) := by
            rw [hI1, hsucceq]
            exact headD_cons_erase hDtne
          refine ⟨?_, ?_, ?_, ?_, ?_, ?_⟩
          · rw [hde2, hres_toList, toList_node, hdec,
              List.erase_append_right _ hPnk]
            have hLHS : toList (cs.getD idx default)
                ++ (get_successor (cs.getD (idx + 1) default)) ::
                (toList (delete_internal t (cs.getD (idx + 1) default)
                  (get_successor (cs.getD (idx + 1) default))) ++
                  interTail (cs.drop (idx + 2)) (ks.drop (idx + 1))) =
                toList (cs.getD idx default) ++
                  (toList (cs.getD (idx + 1) default) ++
                    interTail (cs.drop (idx + 2)) (ks.drop (idx + 1))) := by
              rw [← h7]
              simp
            rw [hLHS]
            by_cases hkC : key ∈ toList (cs.getD idx default)
            · have hk_eq : (toList (cs.getD idx default)).getLastD 0 = key :=
                getLastD_eq_of_mem_of_le hCsorted hkC hCle
              rw [List.erase_append_left _ hkC]
              have h6 := getLastD_erase_append hCsorted hCtne
              rw [hk_eq] at h6
              have h8 : (toList (cs.getD idx default)).erase key
                  ++ key :: (toList (cs.getD (idx + 1) default) ++
                    interTail (cs.drop (idx + 2)) (ks.drop (idx + 1)))
                  = toList (cs.getD idx default)
                    ++ (toList (cs.getD (idx + 1) default) ++
                      interTail (cs.drop (idx + 2)) (ks.drop (idx + 1))) := by
                conv_rhs => rw [← h6]
                simp
              rw [h8]
            · rw [List.erase_append_right _ hkC, List.erase_cons_head]
          · rw [hde2]
            exact hsco.1
          · rw [hde2, hsco.2, height_mk, height_mk]
          · rw [hde2]
            rfl
          · rw [hde2]
            simp only [Node.keys_mk, List.length_set]
            omega
          · rw [hde2]
            simp only [Node.keys_mk, List.length_set]
            omega
        · -- merge the two children and delete from the merged node
          have hflagCD := leafFlag_eq_of_heights hCok hDok hhCD
          have hMt := merge_child_toList hCok hDok hflagCD key
          have hMo := merge_child_ok hCok hDok hflagCD hhCD key
          have hme : merge (.mk ks cs false) idx =
              .mk (ks.take idx ++ ks.drop (idx + 1))
                (cs.take idx ++ (Node.mk ((cs.getD idx default).keys
                      ++ key :: (cs.getD (idx + 1) default).keys)
                    (if (cs.getD idx default).leafFlag
                      then (cs.getD idx default).children
                      else (cs.getD idx default).children
                        ++ (cs.getD (idx + 1) default).children)
                    (cs.getD idx default).leafFlag)
                  :: cs.drop (idx + 2)) false := by
            conv_lhs => rw [hks_sp, hcs_sp]
            rw [merge_eq hA_len hka_len, hkeyeq]
          obtain ⟨M, hMgen⟩ : ∃ M, (Node.mk ((cs.getD idx default).keys
              ++ key :: (cs.getD (idx + 1) default).keys)
              (if (cs.getD idx default).leafFlag then (cs.getD idx default).children
                else (cs.getD idx default).children
                  ++ (cs.getD (idx + 1) default).children)
              (cs.getD idx default).leafFlag) = M := ⟨_, rfl⟩
          rw [hMgen] at hme hMt hMo
          have hMklen : M.keys.length = (cs.getD idx default).keys.length
              + (cs.getD (idx + 1) default).keys.length + 1 := by
            rw [← hMgen]
            simp only [Node.keys_mk, List.length_append, List.length_cons]
            omega
          have hdec4 : inter cs ks = (interPre (cs.take idx) (ks.take idx)
              ++ (toList (cs.getD idx default) ++ key ::
                toList (cs.getD (idx + 1) default)))
              ++ interTail (cs.drop (idx + 2)) (ks.drop (idx + 1)) := by
            rw [hdec]
            simp [List.append_assoc]
          have hMsorted : List.Sorted (· ≤ ·) (toList M) := by
            rw [hMt]
            refine sorted_of_sublist ?_ hsinter
            rw [hdec4]
            refine List.Sublist.trans (List.sublist_append_right _ _)
              (List.sublist_append_left _ _)
          have hMh_lt : height M < height (.mk ks cs false) := by
            rw [hMo.2]
            exact hCh_lt
          obtain ⟨hI1, hI2, hI3, hI4, hI5, hI6⟩ := IH _ hMh_lt hMo.1 hMsorted
            (fun _ => by omega) key
          have hlt' : idx < (cs.take idx ++ M :: cs.drop (idx + 2)).length := by
            simp only [List.length_append, List.length_cons, List.length_take,
              List.length_drop]
            omega
          have hrm : remove_from_non_leaf t (.mk ks cs false) idx =
              .mk (ks.take idx ++ ks.drop (idx + 1))
                (cs.take idx ++ (delete_internal t M key) :: cs.drop (idx + 2))
                false := by
            rw [remove_from_non_leaf.eq_def]
            simp only [if_neg hR1, if_neg hR2]
            rw [hme]
            simp only [Node.children_mk, Node.keys_mk, Node.leafFlag_mk]
            rw [dif_pos hlt', List.get_eq_getElem,
              ← List.getD_eq_getElem _ default hlt']
            rw [getD_splice_at hA_len, hkeyeq, splice_set_at hA_len]
          have hde2 := hde.trans hrm
          have hres_toList : toList (.mk (ks.take idx ++ ks.drop (idx + 1))
              (cs.take idx ++ (delete_internal t M key) :: cs.drop (idx + 2))
              false) =
              interPre (cs.take idx) (ks.take idx) ++
                toList (delete_internal t M key) ++
                interTail (cs.drop (idx + 2)) (ks.drop (idx + 1)) := by
            rw [toList_node]
            rw [inter_append (by rw [hA_len, hka_len])]
            rw [inter_cons_eq, List.append_assoc]
          refine ⟨?_, ?_, ?_, ?_, ?_, ?_⟩
          · rw [hde2, hres_toList, toList_node, hdec4]
            rw [List.erase_append_left _ (List.mem_append.mpr (Or.inr (by simp)))]
            rw [List.erase_append_right _ hPnk]
            rw [hI1, hMt]
          · rw [hde2, ok_node]
            simp only [Bool.and_eq_true, beq_iff_eq]
            refine ⟨⟨?_, ?_⟩, ?_⟩
            · simp only [List.length_append, List.length_cons, List.length_take,
                List.length_drop]
              omega
            · refine @sameHB_of_forall _ (height (cs.getD idx default))
                (fun c hc => ?_)
              rcases List.mem_append.mp hc with hc | hc
              · exact (sameHB_iff cs).mp hsame c
                  ((List.take_sublist idx cs).subset hc) _ hCmem
              · rcases List.mem_cons.mp hc with hc | hc
                · subst hc
                  rw [hI3, hMo.2]
                · exact (sameHB_iff cs).mp hsame c
                    ((List.drop_sublist (idx + 2) cs).subset hc) _ hCmem
            · rw [okAll_iff]
              intro c hc
              rcases List.mem_append.mp hc with hc | hc
              · exact (okAll_iff t cs).mp hall c ((List.take_sublist idx cs).subset hc)
              · rcases List.mem_cons.mp hc with hc | hc
                · subst hc
                  exact ⟨hI2, by omega, by omega⟩
                · exact (okAll_iff t cs).mp hall c
                    ((List.drop_sublist (idx + 2) cs).subset hc)
          · rw [hde2, height_mk, height_mk]
            rw [heights_eq_of_sameHB hsame hCmem]
            refine heights_eq_of_forall (fun c hc => ?_) ?_
            · rcases List.mem_append.mp hc with hc | hc
              · exact (sameHB_iff cs).mp hsame c
                  ((List.take_sublist idx cs).subset hc) _ hCmem
              · rcases List.mem_cons.mp hc with hc | hc
                · subst hc
                  rw [hI3, hMo.2]
                · exact (sameHB_iff cs).mp hsame c
                    ((List.drop_sublist (idx + 2) cs).subset hc) _ hCmem
            · intro hcon
              have h0 := congrArg List.length hcon
              simp at h0
          · rw [hde2]
            rfl
          · rw [hde2]
            simp only [Node.keys_mk, List.length_append, List.length_take,
              List.length_drop]
            omega
          · rw [hde2]
            simp only [Node.keys_mk, List.length_append, List.length_take,
              List.length_drop]
            omega
  · -- the key is not in this node
    cases leaf with
    | true =>
      have hde : delete_internal t (.mk ks cs true) key = .mk ks cs true := by
        rw [delete_internal.eq_def]
        simp only [hidxeq, if_neg hfound]
        simp
      have hnm : key ∉ ks :=
        gki_not_mem_of_sorted hks_sorted (by rw [hidxeq]; exact hfound)
      refine ⟨?_, ?_, ?_, ?_, ?_, ?_⟩
      · rw [hde, toList_leaf, List.erase_of_not_mem hnm]
      · rw [hde]
        exact hok
      · rw [hde]
      · rw [hde]
      · rw [hde]
        omega
      · rw [hde]
    | false =>
      rw [ok_node] at hok
      simp only [Bool.and_eq_true, beq_iff_eq] at hok
      obtain ⟨⟨hlen, hsame⟩, hall⟩ := hok
      have hsinter : List.Sorted (· ≤ ·) (inter cs ks) := by simpa using hs
      have hks1 : 1 ≤ ks.length := by simpa using hleaf rfl
      have hgt2 : idx < ks.length → key < ks.getD idx 0 := by
        intro hi
        have h1 := gki_le_getD ks key (by rw [hidxeq]; exact hi)
        rw [hidxeq] at h1
        have h2 : ¬(ks.getD idx 0 = key) := fun hc => hfound ⟨hi, hc⟩
        omega
      by_cases hdef : (cs.getD idx default).keys.length < t
      · -- refill the deficient child, then recurse
        obtain ⟨j, hjeq, hft, hfflag, hfshape, hfsame, hfall, hfheights, hflo, hfhi,
          hjlt, htlo, hthi, hjtake, hjgt⟩ :=
          fill_spec ht hlen hsame hall hsinter hks1 hidxle hdef htake hgt2
        have hlisteq : (if (cs.getD (get_key_index ks key) default).keys.length < t
            then fill t (.mk ks cs false) (get_key_index ks key)
            else .mk ks cs false) = fill t (.mk ks cs false) idx := by
          simp only [hidxeq, if_pos hdef]
        have hde1 : delete_internal t (.mk ks cs false) key =
            .mk (fill t (.mk ks cs false) idx).keys
              ((fill t (.mk ks cs false) idx).children.set j
                (delete_internal t
                  ((fill t (.mk ks cs false) idx).children.getD j default) key))
              (fill t (.mk ks cs false) idx).leafFlag := by
          have hjlt' : (if idx = ks.length ∧
              (fill t (.mk ks cs false) idx).keys.length < idx
              then idx - 1 else idx)
              < (fill t (.mk ks cs false) idx).children.length := by
            rw [← hjeq]
            exact hjlt
          have hb : j < (if (cs.getD (get_key_index ks key) default).keys.length < t
              then fill t (.mk ks cs false) (get_key_index ks key)
              else .mk ks cs false).children.length := by
            rw [hlisteq]
            exact hjlt
          rw [delete_internal.eq_def]
          simp only [hidxeq, if_neg hfound, Bool.false_eq_true, if_false, if_pos hdef]
          rw [dif_pos hjlt']
          simp only [← hjeq]
          rw [List.get_eq_getElem, ← List.getD_eq_getElem _ default hb]
          rw [hlisteq]
        rw [hfflag] at hde1
        obtain ⟨F, hFgen⟩ : ∃ F, fill t (.mk ks cs false) idx = F := ⟨_, rfl⟩
        rw [hFgen] at hde1 hft hfflag hfshape hfsame hfall hfheights hflo hfhi hjlt hjtake hjgt htlo hthi
        have hYmem : F.children.getD j default ∈ F.children := by
          rw [List.getD_eq_getElem _ _ hjlt]
          exact List.getElem_mem hjlt
        obtain ⟨hYok, hYlo2, hYhi2⟩ := (okAll_iff t F.children).mp hfall _ hYmem
        have hmdec := @toList_decomp F.keys F.children hfshape j hjlt
        have hsm : List.Sorted (· ≤ ·) (inter F.children F.keys) := by
          rw [← toList_eq_inter hfflag, hft]
          exact hsinter
        have hYsorted : List.Sorted (· ≤ ·) (toList (F.children.getD j default)) :=
          sorted_of_sublist (sublist_of_segment hmdec) hsm
        have hYh_lt : height (F.children.getD j default)
            < height (.mk ks cs false) := by
          rw [height_mk, ← hfheights]
          exact height_lt_of_mem hYmem
        obtain ⟨hI1, hI2, hI3, hI4, hI5, hI6⟩ := IH _ hYh_lt hYok hYsorted
          (fun _ => by omega) key
        have hP : ∀ x ∈ interPre (F.children.take j) (F.keys.take j), x < key := by
          refine interPre_elems_lt ?_ ?_ hjtake
          · rw [List.length_take, List.length_take]
            omega
          · refine sorted_of_sublist ?_ hsm
            rw [hmdec, List.append_assoc]
            exact List.sublist_append_left _ _
        have hT : ∀ x ∈ interTail (F.children.drop (j + 1)) (F.keys.drop j),
            key < x := by
          refine interTail_elems_gt ?_ hjgt
          refine sorted_of_sublist ?_ hsm
          rw [hmdec]
          exact List.sublist_append_right _ _
        have hres_toList := toList_set_decomp hfshape hjlt
          (delete_internal t (F.children.getD j default) key)
        have hsco := set_child_ok hfshape hfsame hfall hjlt hI2 hI3
          (by omega) (by omega)
        refine ⟨?_, ?_, ?_, ?_, ?_, ?_⟩
        · rw [hde1, hres_toList, hI1, toList_node, ← hft, toList_eq_inter hfflag,
            hmdec]
          by_cases hkY : key ∈ toList (F.children.getD j default)
          · rw [List.erase_append_left _ (List.mem_append.mpr (Or.inr hkY))]
            rw [List.erase_append_right _ (fun hc => absurd (hP _ hc) (by omega))]
          · have hnm2 : key ∉ (interPre (F.children.take j) (F.keys.take j) ++
                toList (F.children.getD j default)) ++
                interTail (F.children.drop (j + 1)) (F.keys.drop j) := by
              intro hc
              rcases List.mem_append.mp hc with hc | hc
              · rcases List.mem_append.mp hc with hc | hc
                · exact absurd (hP _ hc) (by omega)
                · exact hkY hc
              · exact absurd (hT _ hc) (by omega)
            rw [List.erase_of_not_mem hnm2, List.erase_of_not_mem hkY]
        · rw [hde1]
          exact hsco.1
        · rw [hde1, hsco.2, height_mk, height_mk]
          exact hfheights
        · rw [hde1]
          rfl
        · rw [hde1]
          simp only [Node.keys_mk]
          omega
        · rw [hde1]
          simp only [Node.keys_mk]
          omega
      · -- the child is already big enough; recurse directly
        have hics : idx < cs.length := by omega
        have hlisteq : (if (cs.getD (get_key_index ks key) default).keys.length < t
            then fill t (.mk ks cs false) (get_key_index ks key)
            else .mk ks cs false) = .mk ks cs false := by
          simp only [hidxeq, if_neg hdef]
        have hidx2eq : (if idx = ks.length ∧ ks.length < idx then idx - 1 else idx)
            = idx := by
          rw [if_neg]
          rintro ⟨h1, h2⟩
          omega
        have hde1 : delete_internal t (.mk ks cs false) key =
            .mk ks (cs.set idx (delete_internal t (cs.getD idx default) key))
              false := by
          have hb2 : (if idx = ks.length ∧ ks.length < idx then idx - 1 else idx)
              < cs.length := by
            rw [hidx2eq]
            exact hics
          have hb3 : (if idx = ks.length ∧ ks.length < idx then idx - 1 else idx)
              < (if (cs.getD (get_key_index ks key) default).keys.length < t
                then fill t (.mk ks cs false) (get_key_index ks key)
                else .mk ks cs false).children.length := by
            rw [hlisteq]
            simp only [Node.children_mk]
            exact hb2
          rw [delete_internal.eq_def]
          simp only [hidxeq, if_neg hfound, Bool.false_eq_true, if_false, if_neg hdef,
            Node.keys_mk, Node.children_mk, Node.leafFlag_mk]
          rw [dif_pos hb2]
          rw [List.get_eq_getElem, ← List.getD_eq_getElem _ default hb3]
          rw [hlisteq]
          simp only [Node.children_mk, hidx2eq]
        have hYmem : cs.getD idx default ∈ cs := by
          rw [List.getD_eq_getElem _ _ hics]
          exact List.getElem_mem hics
        obtain ⟨hYok, hYlo2, hYhi2⟩ := (okAll_iff t cs).mp hall _ hYmem
        have hmdec := @toList_decomp ks cs hlen idx hics
        have hYsorted : List.Sorted (· ≤ ·) (toList (cs.getD idx default)) :=
          sorted_of_sublist (sublist_of_segment hmdec) hsinter
        have hYh_lt : height (cs.getD idx default) < height (.mk ks cs false) := by
          rw [height_mk]
          exact height_lt_of_mem hYmem
        obtain ⟨hI1, hI2, hI3, hI4, hI5, hI6⟩ := IH _ hYh_lt hYok hYsorted
          (fun _ => by omega) key
        have hP : ∀ x ∈ interPre (cs.take idx) (ks.take idx), x < key := by
          refine interPre_elems_lt ?_ ?_ htake
          · rw [List.length_take, List.length_take]
            omega
          · refine sorted_of_sublist ?_ hsinter
            rw [hmdec, List.append_assoc]
            exact List.sublist_append_left _ _
        have hT : ∀ x ∈ interTail (cs.drop (idx + 1)) (ks.drop idx), key < x := by
          refine interTail_elems_gt ?_ hgt2
          refine sorted_of_sublist ?_ hsinter
          rw [hmdec]
          exact List.sublist_append_right _ _
        have hres_toList := toList_set_decomp hlen hics
          (delete_internal t (cs.getD idx default) key)
        have hsco := set_child_ok hlen hsame hall hics hI2 hI3
          (by omega) (by omega)
        refine ⟨?_, ?_, ?_, ?_, ?_, ?_⟩
        · rw [hde1, hres_toList, hI1, toList_node, hmdec]
          by_cases hkY : key ∈ toList (cs.getD idx default)
          · rw [List.erase_append_left _ (List.mem_append.mpr (Or.inr hkY))]
            rw [List.erase_append_right _ (fun hc => absurd (hP _ hc) (by omega))]
          · have hnm2 : key ∉ (interPre (cs.take idx) (ks.take idx) ++
                toList (cs.getD idx default)) ++
                interTail (cs.drop (idx + 1)) (ks.drop idx) := by
              intro hc
              rcases List.mem_append.mp hc with hc | hc
              · rcases List.mem_append.mp hc with hc | hc
                · exact absurd (hP _ hc) (by omega)
                · exact hkY hc
              · exact absurd (hT _ hc) (by omega)
            rw [List.erase_of_not_mem hnm2, List.erase_of_not_mem hkY]
        · rw [hde1]
          exact hsco.1
        · rw [hde1, hsco.2]
        · rw [hde1]
          rfl
        · rw [hde1]
          simp only [Node.keys_mk]
          omega
        · rw [hde1]
          simp only [Node.keys_mk]
          omega

/-- The node-level deletion of `main.py` computes exactly the same node as
the package's `_delete_internal`: the two mutual recursions have identical
bodies. -/
theorem deleteMNode_eq_delete_internal {t : Nat} :
    ∀ n, (∀ idx, remove_from_non_leafM t n idx = remove_from_non_leaf t n idx)
      ∧ (∀ key, deleteMNode t n key = delete_internal t n key) := by
  apply Node.height_induction (P := fun n =>
    (∀ idx, remove_from_non_leafM t n idx = remove_from_non_leaf t n idx)
    ∧ (∀ key, deleteMNode t n key = delete_internal t n key))
  intro n IH
  cases n with
  | mk ks cs leaf =>
  have hrm : ∀ idx, remove_from_non_leafM t (.mk ks cs leaf) idx
      = remove_from_non_leaf t (.mk ks cs leaf) idx := by
    intro idx
    rw [remove_from_non_leafM.eq_def, remove_from_non_leaf.eq_def]
    by_cases h1 : t ≤ (cs.getD idx default).keys.length
    · simp only [if_pos h1]
      by_cases h2 : idx < cs.length
      · rw [dif_pos h2, dif_pos h2]
        have hx := (IH (cs.get ⟨idx, h2⟩) (by
          rw [height_mk]
          exact height_lt_of_mem (List.get_mem _ _ _))).2
        rw [hx]
      · rw [dif_neg h2, dif_neg h2]
    · simp only [if_neg h1]
      by_cases h2 : t ≤ (cs.getD (idx + 1) default).keys.length
      · simp only [if_pos h2]
        by_cases h3 : idx + 1 < cs.length
        · rw [dif_pos h3, dif_pos h3]
          have hx := (IH (cs.get ⟨idx + 1, h3⟩) (by
            rw [height_mk]
            exact height_lt_of_mem (List.get_mem _ _ _))).2
          rw [hx]
        · rw [dif_neg h3, dif_neg h3]
      · simp only [if_neg h2]
        refine dite_congr rfl (fun h3 => ?_) (fun h3 => rfl)
        have hx := ((IH ((merge (.mk ks cs leaf) idx).children.get ⟨idx, h3⟩)
          (height_merge_lt (List.get_mem _ _ _))).2 (ks.getD idx 0))
        rw [hx]
  refine ⟨hrm, ?_⟩
  intro key
  rw [deleteMNode.eq_def, delete_internal.eq_def]
  by_cases h1 : get_key_index ks key < ks.length
      ∧ ks.getD (get_key_index ks key) 0 = key
  · simp only [if_pos h1]
    cases leaf with
    | true => rfl
    | false =>
      simp only [Bool.false_eq_true, if_false]
      exact hrm _
  · simp only [if_neg h1]
    cases leaf with
    | true => rfl
    | false =>
      simp only [Bool.false_eq_true, if_false]
      obtain ⟨m, hm⟩ : ∃ m, (if (cs.getD (get_key_index ks key) default).keys.length < t
          then fill t (.mk ks cs false) (get_key_index ks key)
          else .mk ks cs false) = m := ⟨_, rfl⟩
      have hmlt : ∀ c ∈ m.children, height c < height (Node.mk ks cs false) := by
        intro c hc
        rw [← hm] at hc
        exact height_fill_branch_lt hc
      rw [hm]
      refine dite_congr rfl (fun h3 => ?_) (fun h3 => rfl)
      rw [(IH _ (hmlt _ (List.get_mem _ _ _))).2]

theorem set_get_self {α : Type} (l : List α) (i : Nat) (h : i < l.length) :
    l.set i (l.get ⟨i, h⟩) = l := by
  apply List.ext_getElem
  · simp
  · intro n h1 h2
    rw [List.getElem_set]
    split
    · rename_i he
      subst he
      simp
    · rfl

theorem toList_of_leaf {n : Node} (h : n.leafFlag = true) : toList n = n.keys := by
  cases n with
  | mk ks cs leaf =>
    cases leaf with
    | false => simp at h
    | true => rfl

/-- The guarded `delete` of the package's node class: contents shrink by
exactly the first occurrence of `key`, and the invariant survives. -/
theorem deleteNode_spec {t : Nat} (ht : 2 ≤ t) {n : Node} (hok : ok t n = true)
    (hs : List.Sorted (· ≤ ·) (toList n))
    (hleaf : n.leafFlag = false → 1 ≤ n.keys.length) (key : Int) :
    toList (deleteNode t n key) = (toList n).erase key
    ∧ ok t (deleteNode t n key) = true
    ∧ (deleteNode t n key).leafFlag = n.leafFlag
    ∧ n.keys.length - 1 ≤ (deleteNode t n key).keys.length
    ∧ (deleteNode t n key).keys.length ≤ n.keys.length := by
  rw [deleteNode]
  cases hsearch : searchNode n key with
  | none =>
    have hnm : key ∉ toList n := (searchNode_spec ht n hok hs hleaf key).mp hsearch
    rw [List.erase_of_not_mem hnm]
    exact ⟨rfl, hok, rfl, Nat.sub_le _ _, Nat.le_refl _⟩
  | some m =>
    obtain ⟨h1, h2, h3, h4, h5, h6⟩ := delete_internal_spec ht n hok hs hleaf key
    exact ⟨h1, h2, h4, h5, h6⟩

/-- An internal node left with zero keys has exactly one child, which
carries the whole flattening. -/
theorem root_shrink {t : Nat} {r : Node} (hok : ok t r = true)
    (hz : r.keys.length = 0) (hfl : r.leafFlag = false) :
    toList (r.children.getD 0 default) = toList r
    ∧ ok t (r.children.getD 0 default) = true
    ∧ t - 1 ≤ (r.children.getD 0 default).keys.length
    ∧ (r.children.getD 0 default).keys.length ≤ 2 * t - 1 := by
  cases r with
  | mk ks cs leaf =>
    cases leaf with
    | true => simp at hfl
    | false =>
      rw [ok_node] at hok
      simp only [Bool.and_eq_true, beq_iff_eq] at hok
      obtain ⟨⟨hlen, hsame⟩, hall⟩ := hok
      simp only [Node.keys_mk] at hz
      have hks : ks = [] := List.length_eq_zero.mp hz
      subst hks
      obtain ⟨c, hc⟩ : ∃ c, cs = [c] := by
        cases cs with
        | nil => simp at hlen
        | cons c rest =>
          cases rest with
          | nil => exact ⟨c, rfl⟩
          | cons d rest2 => simp at hlen
      subst hc
      have hcf := (okAll_iff t [c]).mp hall c (by simp)
      refine ⟨?_, hcf.1, hcf.2.1, hcf.2.2⟩
      simp only [Node.children_mk, toList_node, List.getD_cons_zero, inter_cons_nil]

/-- The root-shrinking step shared by both `BTree.delete` methods. -/
theorem shrink_spec {t : Nat} (ht : 2 ≤ t) {r : Node}
    (hok : ok t r = true) (hcount : r.keys.length ≤ 2 * t - 1)
    (hs : List.Sorted (· ≤ ·) (toList r)) :
    TreeInv (if r.keys.length = 0 ∧ r.leafFlag = false
        then (⟨r.children.getD 0 default, t⟩ : BTree) else ⟨r, t⟩)
    ∧ toList (if r.keys.length = 0 ∧ r.leafFlag = false
        then (⟨r.children.getD 0 default, t⟩ : BTree) else ⟨r, t⟩).root = toList r := by
  by_cases hshrink : r.keys.length = 0 ∧ r.leafFlag = false
  · rw [if_pos hshrink]
    obtain ⟨htl, hcok, hclo, hchi⟩ := root_shrink hok hshrink.1 hshrink.2
    refine ⟨TreeInv_mk ht hcok hchi (fun _ => by omega) ?_, htl⟩
    rw [htl]
    exact hs
  · rw [if_neg hshrink]
    refine ⟨TreeInv_mk ht hok hcount (fun hf => ?_) hs, rfl⟩
    by_contra hcon
    exact hshrink ⟨by omega, hf⟩

/-- The `BTree.delete` of `btree/__init__.py` preserves the tree invariant
and removes exactly the first occurrence of the key from the contents. -/
theorem deleteI_spec {tr : BTree} (hinv : TreeInv tr) (key : Int) :
    TreeInv (tr.deleteI key)
    ∧ (tr.deleteI key).min_degree = tr.min_degree
    ∧ toList (tr.deleteI key).root = (toList tr.root).erase key := by
  obtain ⟨ht, hok, hcount, hleaf1, hs⟩ := hinv
  obtain ⟨root, t⟩ := tr
  simp only at ht hok hcount hleaf1 hs ⊢
  obtain ⟨hd1, hd2, hd3, hd4, hd5⟩ := deleteNode_spec ht hok hs hleaf1 key
  have hrs : List.Sorted (· ≤ ·) (toList (deleteNode t root key)) := by
    rw [hd1]
    exact sorted_of_sublist (List.erase_sublist _ _) hs
  have hss := shrink_spec ht hd2 (by omega) hrs
  rw [BTree.deleteI]
  simp only
  refine ⟨hss.1, ?_, ?_⟩
  · split <;> rfl
  · rw [hss.2, hd1]

/-- The `BTree.delete` of `main.py`: same contents and invariant effect as
the package version (though the intermediate tree can differ). -/
theorem deleteM_spec {tr : BTree} (hinv : TreeInv tr) (key : Int) :
    TreeInv (tr.deleteM key)
    ∧ (tr.deleteM key).min_degree = tr.min_degree
    ∧ toList (tr.deleteM key).root = (toList tr.root).erase key := by
  obtain ⟨ht, hok, hcount, hleaf1, hs⟩ := hinv
  obtain ⟨root, t⟩ := tr
  simp only at ht hok hcount hleaf1 hs ⊢
  have heq : deleteMNode t root key = delete_internal t root key :=
    (deleteMNode_eq_delete_internal root).2 key
  obtain ⟨hd1, hd2, hd3, hd4, hd5, hd6⟩ := delete_internal_spec ht root hok hs hleaf1 key
  rw [← heq] at hd1 hd2 hd5 hd6
  have hrs : List.Sorted (· ≤ ·) (toList (deleteMNode t root key)) := by
    rw [hd1]
    exact sorted_of_sublist (List.erase_sublist _ _) hs
  have hss := shrink_spec ht hd2 (by omega) hrs
  rw [BTree.deleteM]
  simp only
  refine ⟨hss.1, ?_, ?_⟩
  · split <;> rfl
  · rw [hss.2, hd1]

/-- The two `BTree.insert` methods are literally the same function. -/
theorem insertM_eq_insertI (tr : BTree) (key : Int) :
    tr.insertM key = tr.insertI key := rfl

/-- The guarded delete leaves the tree completely untouched when the key
is absent. -/
theorem deleteI_noop {tr : BTree} (hinv : TreeInv tr) {key : Int}
    (habs : key ∉ toList tr.root) : tr.deleteI key = tr := by
  obtain ⟨ht, hok, hcount, hleaf1, hs⟩ := hinv
  have hnone : searchNode tr.root key = none :=
    (searchNode_spec ht _ hok hs hleaf1 key).mpr habs
  rw [BTree.deleteI]
  simp only [deleteNode, hnone]
  have hcond : ¬(tr.root.keys.length = 0 ∧ tr.root.leafFlag = false) := by
    rintro ⟨h1, h2⟩
    have h3 := hleaf1 h2
    omega
  rw [if_neg hcond]

theorem searchI_none_iff {tr : BTree} (hinv : TreeInv tr) (key : Int) :
    tr.searchI key = none ↔ key ∉ toList tr.root := by
  obtain ⟨ht, hok, hcount, hleaf1, hs⟩ := hinv
  rw [BTree.searchI]
  by_cases hempty : tr.root.keys = []
  · rw [if_pos hempty]
    simp only [true_iff]
    have hfl : tr.root.leafFlag = true := by
      cases hb : tr.root.leafFlag with
      | true => rfl
      | false =>
        have h1 := hleaf1 hb
        rw [hempty] at h1
        simp at h1
    rw [toList_of_leaf hfl, hempty]
    simp
  · rw [if_neg hempty]
    exact searchNode_spec ht _ hok hs hleaf1 key

theorem searchM_none_iff {tr : BTree} (hinv : TreeInv tr) (key : Int) :
    tr.searchM key = none ↔ key ∉ toList tr.root := by
  obtain ⟨ht, hok, hcount, hleaf1, hs⟩ := hinv
  rw [BTree.searchM]
  exact searchNode_spec ht _ hok hs hleaf1 key

/-- One step of the reference model: ordered insertion for an insert, first
occurrence removal for a delete. -/
def modelStep (l : List Int) : Op → List Int
  | .ins k => List.orderedInsert (· ≤ ·) k l
  | .del k => l.erase k

/-- The reference model of a whole operation sequence, starting empty. -/
def model (ops : List Op) : List Int :=
  ops.foldl modelStep []

theorem stepI_spec {tr : BTree} (hinv : TreeInv tr) (op : Op) :
    TreeInv (stepI tr op) ∧ (stepI tr op).min_degree = tr.min_degree
    ∧ BTree.traverse (stepI tr op) = modelStep (BTree.traverse tr) op := by
  cases op with
  | ins k =>
    obtain ⟨h1, h2, h3⟩ := insertI_spec hinv k
    exact ⟨h1, h2, h3⟩
  | del k =>
    obtain ⟨h1, h2, h3⟩ := deleteI_spec hinv k
    exact ⟨h1, h2, h3⟩

theorem stepM_spec {tr : BTree} (hinv : TreeInv tr) (op : Op) :
    TreeInv (stepM tr op) ∧ (stepM tr op).min_degree = tr.min_degree
    ∧ BTree.traverse (stepM tr op) = modelStep (BTree.traverse tr) op := by
  cases op with
  | ins k =>
    obtain ⟨h1, h2, h3⟩ := insertI_spec hinv k
    rw [← insertM_eq_insertI] at h1 h2 h3
    exact ⟨h1, h2, h3⟩
  | del k =>
    obtain ⟨h1, h2, h3⟩ := deleteM_spec hinv k
    exact ⟨h1, h2, h3⟩

theorem run_master_aux (t : Nat) : ∀ (ops : List Op) (u v : BTree) (l : List Int),
    TreeInv u → u.min_degree = t → BTree.traverse u = l →
    TreeInv v → v.min_degree = t → BTree.traverse v = l →
    TreeInv (ops.foldl stepI u) ∧ (ops.foldl stepI u).min_degree = t
    ∧ BTree.traverse (ops.foldl stepI u) = ops.foldl modelStep l
    ∧ TreeInv (ops.foldl stepM v) ∧ (ops.foldl stepM v).min_degree = t
    ∧ BTree.traverse (ops.foldl stepM v) = ops.foldl modelStep l := by
  intro ops
  induction ops with
  | nil =>
    intro u v l h1 h2 h3 h4 h5 h6
    exact ⟨h1, h2, h3, h4, h5, h6⟩
  | cons op ops ih =>
    intro u v l h1 h2 h3 h4 h5 h6
    simp only [List.foldl_cons]
    obtain ⟨g1, g2, g3⟩ := stepI_spec h1 op
    obtain ⟨g4, g5, g6⟩ := stepM_spec h4 op
    exact ih (stepI u op) (stepM v op) (modelStep l op)
      g1 (by omega) (by rw [g3, h3]) g4 (by omega) (by rw [g6, h6])

/-- Both copies maintain the tree invariant along any operation sequence
and realise exactly the reference model's contents. -/
theorem run_master (t : Nat) (ht : 2 ≤ t) (ops : List Op) :
    TreeInv (runI t ops) ∧ (runI t ops).min_degree = t
    ∧ BTree.traverse (runI t ops) = model ops
    ∧ TreeInv (runM t ops) ∧ (runM t ops).min_degree = t
    ∧ BTree.traverse (runM t ops) = model ops := by
  have h0 : TreeInv (⟨Node.mk [] [] true, t⟩ : BTree) := TreeInv_new ht
  exact run_master_aux t ops _ _ [] h0 rfl rfl h0 rfl rfl

/-! Per-node boolean predicates over a whole subtree, used to state the
node-local clauses of the documented invariant. -/

mutual
/-- `p` holds at every node of the subtree. -/
def allNodes (p : Node → Bool) : Node → Bool
  | .mk ks cs leaf => p (.mk ks cs leaf) && allNodesL p cs
/-- `allNodes p` for every node of the list. -/
def allNodesL (p : Node → Bool) : List Node → Bool
  | [] => true
  | c :: rest => allNodes p c && allNodesL p rest
end

theorem allNodes_unfold (p : Node → Bool) (c : Node) :
    allNodes p c = (p c && allNodesL p c.children) := by
  cases c
  rfl

theorem allNodesL_iff (p : Node → Bool) (cs : List Node) :
    allNodesL p cs = true ↔ ∀ c ∈ cs, allNodes p c = true := by
  induction cs with
  | nil => simp [allNodesL]
  | cons c rest ih =>
    simp only [allNodesL, Bool.and_eq_true, ih]
    constructor
    · rintro ⟨h1, h2⟩ d hd
      rcases List.mem_cons.mp hd with h | h
      · subst h; exact h1
      · exact h2 d h
    · intro h
      exact ⟨h c (by simp), fun d hd => h d (by simp [hd])⟩

/-- The keys of the node are nondecreasing. -/
def sortedLeB (n : Node) : Bool :=
  decide (List.Sorted (· ≤ ·) n.keys)

/-- The keys of the node are strictly increasing. -/
def strictB (n : Node) : Bool :=
  decide (List.Sorted (· < ·) n.keys)

/-- Non-root occupancy: between `t - 1` and `2t - 1` keys. -/
def nodeBoundB (t : Nat) (n : Node) : Bool :=
  decide (t - 1 ≤ n.keys.length) && decide (n.keys.length ≤ 2 * t - 1)

/-- An internal node with `k` keys has exactly `k + 1` children; a leaf has
none. -/
def childCountB (n : Node) : Bool :=
  if n.leafFlag then n.children.isEmpty else n.children.length == n.keys.length + 1

mutual
/-- Every leaf of the subtree sits exactly `d` levels below the node. -/
def allLeavesDepth : Node → Nat → Bool
  | .mk _ _ true, d => d == 0
  | .mk _ _ false, 0 => false
  | .mk _ cs false, d + 1 => allLeavesDepthL cs d
/-- `allLeavesDepth · d` for every node of the list. -/
def allLeavesDepthL : List Node → Nat → Bool
  | [], _ => true
  | c :: rest, d => allLeavesDepth c d && allLeavesDepthL rest d
end

theorem allLeavesDepthL_iff (cs : List Node) (d : Nat) :
    allLeavesDepthL cs d = true ↔ ∀ c ∈ cs, allLeavesDepth c d = true := by
  induction cs with
  | nil => simp [allLeavesDepthL]
  | cons c rest ih =>
    simp only [allLeavesDepthL, Bool.and_eq_true, ih]
    constructor
    · rintro ⟨h1, h2⟩ d hd
      rcases List.mem_cons.mp hd with h | h
      · subst h; exact h1
      · exact h2 _ h
    · intro h
      exact ⟨h c (by simp), fun d hd => h d (by simp [hd])⟩

theorem child_toList_sublist {cs : List Node} {ks : List Int}
    (hlen : cs.length = ks.length + 1) {c : Node} (hc : c ∈ cs) :
    List.Sublist (toList c) (inter cs ks) := by
  obtain ⟨j, hjlt, hjeq⟩ := List.mem_iff_getElem.mp hc
  have hgd : cs.getD j default = c := by rw [List.getD_eq_getElem _ _ hjlt, hjeq]
  have h := toList_decomp hlen hjlt
  rw [hgd] at h
  exact sublist_of_segment h

theorem allNodes_sortedLeB_of_ok {t : Nat} : ∀ n, ok t n = true →
    List.Sorted (· ≤ ·) (toList n) → allNodes sortedLeB n = true := by
  apply Node.height_induction (P := fun n => ok t n = true →
    List.Sorted (· ≤ ·) (toList n) → allNodes sortedLeB n = true)
  intro n IH hok hs
  cases n with
  | mk ks cs leaf =>
    rw [allNodes_unfold, Bool.and_eq_true]
    refine ⟨?_, ?_⟩
    · have hsub := keys_sublist_toList hok
      have h2 := sorted_of_sublist hsub hs
      simpa [sortedLeB] using h2
    · rw [Node.children_mk, allNodesL_iff]
      intro c hc
      cases leaf with
      | true =>
        have hcs : cs = [] := by simpa using hok
        subst hcs
        simp at hc
      | false =>
        rw [ok_node] at hok
        simp only [Bool.and_eq_true, beq_iff_eq] at hok
        obtain ⟨⟨hlen, hsame⟩, hall⟩ := hok
        have hokc := ((okAll_iff t cs).mp hall c hc).1
        have hsubc : List.Sublist (toList c) (toList (Node.mk ks cs false)) := by
          rw [toList_node]
          exact child_toList_sublist hlen hc
        exact IH c (by rw [height_mk]; exact height_lt_of_mem hc) hokc
          (sorted_of_sublist hsubc hs)

theorem sorted_lt_of_sublist {l l' : List Int} (h : List.Sublist l' l)
    (hs : List.Sorted (· < ·) l) : List.Sorted (· < ·) l' :=
  List.Pairwise.sublist h hs

theorem allNodes_strictB_of_ok {t : Nat} : ∀ n, ok t n = true →
    List.Sorted (· < ·) (toList n) → allNodes strictB n = true := by
  apply Node.height_induction (P := fun n => ok t n = true →
    List.Sorted (· < ·) (toList n) → allNodes strictB n = true)
  intro n IH hok hs
  cases n with
  | mk ks cs leaf =>
    rw [allNodes_unfold, Bool.and_eq_true]
    refine ⟨?_, ?_⟩
    · have hsub := keys_sublist_toList hok
      have h2 := sorted_lt_of_sublist hsub hs
      simpa [strictB] using h2
    · rw [Node.children_mk, allNodesL_iff]
      intro c hc
      cases leaf with
      | true =>
        have hcs : cs = [] := by simpa using hok
        subst hcs
        simp at hc
      | false =>
        rw [ok_node] at hok
        simp only [Bool.and_eq_true, beq_iff_eq] at hok
        obtain ⟨⟨hlen, hsame⟩, hall⟩ := hok
        have hokc := ((okAll_iff t cs).mp hall c hc).1
        have hsubc : List.Sublist (toList c) (toList (Node.mk ks cs false)) := by
          rw [toList_node]
          exact child_toList_sublist hlen hc
        exact IH c (by rw [height_mk]; exact height_lt_of_mem hc) hokc
          (sorted_lt_of_sublist hsubc hs)

theorem allNodesL_nodeBound_of_ok {t : Nat} : ∀ n, ok t n = true →
    allNodesL (nodeBoundB t) n.children = true := by
  apply Node.height_induction (P := fun n => ok t n = true →
    allNodesL (nodeBoundB t) n.children = true)
  intro n IH hok
  cases n with
  | mk ks cs leaf =>
    rw [Node.children_mk, allNodesL_iff]
    intro c hc
    cases leaf with
    | true =>
      have hcs : cs = [] := by simpa using hok
      subst hcs
      simp at hc
    | false =>
      rw [ok_node] at hok
      simp only [Bool.and_eq_true, beq_iff_eq] at hok
      obtain ⟨⟨hlen, hsame⟩, hall⟩ := hok
      obtain ⟨hokc, hlo, hhi⟩ := (okAll_iff t cs).mp hall c hc
      rw [allNodes_unfold, Bool.and_eq_true]
      refine ⟨?_, IH c (by rw [height_mk]; exact height_lt_of_mem hc) hokc⟩
      simp only [nodeBoundB, Bool.and_eq_true, decide_eq_true_eq]
      exact ⟨hlo, hhi⟩

theorem allNodes_childCount_of_ok {t : Nat} : ∀ n, ok t n = true →
    allNodes childCountB n = true := by
  apply Node.height_induction (P := fun n => ok t n = true →
    allNodes childCountB n = true)
  intro n IH hok
  cases n with
  | mk ks cs leaf =>
    rw [allNodes_unfold, Bool.and_eq_true]
    cases leaf with
    | true =>
      have hcs : cs = [] := by simpa using hok
      subst hcs
      exact ⟨by simp [childCountB], by simp [allNodesL]⟩
    | false =>
      rw [ok_node] at hok
      simp only [Bool.and_eq_true, beq_iff_eq] at hok
      obtain ⟨⟨hlen, hsame⟩, hall⟩ := hok
      refine ⟨by simp [childCountB, hlen], ?_⟩
      rw [Node.children_mk, allNodesL_iff]
      intro c hc
      exact IH c (by rw [height_mk]; exact height_lt_of_mem hc)
        ((okAll_iff t cs).mp hall c hc).1

theorem allLeavesDepth_of_ok {t : Nat} : ∀ n, ok t n = true →
    allLeavesDepth n (height n) = true := by
  apply Node.height_induction (P := fun n => ok t n = true →
    allLeavesDepth n (height n) = true)
  intro n IH hok
  cases n with
  | mk ks cs leaf =>
    cases leaf with
    | true =>
      have hcs : cs = [] := by simpa using hok
      subst hcs
      rfl
    | false =>
      rw [ok_node] at hok
      simp only [Bool.and_eq_true, beq_iff_eq] at hok
      obtain ⟨⟨hlen, hsame⟩, hall⟩ := hok
      have hne : cs ≠ [] := by
        intro h
        rw [h] at hlen
        simp at hlen
      obtain ⟨c0, rest, hc0⟩ : ∃ c0 rest, cs = c0 :: rest := by
        cases cs with
        | nil => exact absurd rfl hne
        | cons a b => exact ⟨a, b, rfl⟩
      have hh : heights cs = height c0 + 1 :=
        heights_eq_of_sameHB hsame (by rw [hc0]; simp)
      rw [height_mk, hh]
      show allLeavesDepthL cs (height c0) = true
      rw [allLeavesDepthL_iff]
      intro c hc
      have hokc := ((okAll_iff t cs).mp hall c hc).1
      have hhc : height c = height c0 := by
        have h1 := heights_eq_of_sameHB hsame hc
        omega
      have hlt : height c < height (Node.mk ks cs false) := by
        rw [height_mk, hh]
        omega
      rw [← hhc]
      exact IH c hlt hokc

/-! The reference model of insert-only runs, and counting helpers. -/

theorem model_ins_perm : ∀ (keys l : List Int),
    List.Perm (List.foldl modelStep l (keys.map Op.ins)) (l ++ keys) := by
  intro keys
  induction keys with
  | nil => intro l; simp
  | cons k ks ih =>
    intro l
    simp only [List.map_cons, List.foldl_cons]
    refine (ih _).trans ?_
    have h2 : List.Perm (modelStep l (Op.ins k)) (k :: l) :=
      List.perm_orderedInsert _ _ _
    refine (h2.append_right ks).trans ?_
    exact List.perm_middle.symm

theorem not_mem_erase_iff_count_le_one {l : List Int} {key : Int} :
    key ∉ l.erase key ↔ l.count key ≤ 1 := by
  rw [← List.count_eq_zero, List.count_erase_self]
  omega

/-- Inserting into an internal node whose target child is not full keeps the
node's own keys and its child count. -/
theorem insert_non_full_internal_shape {t : Nat} {ks : List Int} {cs : List Node}
    (key : Int)
    (hnf : ¬ (cs.getD (get_key_index ks key) default).keys.length = 2 * t - 1)
    (hlt : get_key_index ks key < cs.length) :
    (insert_non_full t (.mk ks cs false) key).keys = ks
    ∧ (insert_non_full t (.mk ks cs false) key).children.length = cs.length
    ∧ (insert_non_full t (.mk ks cs false) key).leafFlag = false := by
  rw [insert_non_full.eq_def]
  simp only [Bool.false_eq_true, if_false]
  rw [if_neg hnf, dif_pos hlt]
  simp

/-! State-passing renderings of the observer methods.  The source's `search`
and `traverse` only read attributes, but to state that as a theorem the two
methods are re-embedded with the node threaded through as mutable state:
whenever the source re-enters a child, the child's resulting state is written
back into the children list, and the final state of the whole node is
returned alongside the method's result. -/

def searchNodeSt (n : Node) (key : Int) : Option Node × Node :=
  match n with
  | .mk ks cs leaf =>
    if ks = [] then (none, .mk ks cs leaf)
    else
      let idx := get_key_index ks key
      if idx < ks.length ∧ ks.getD idx 0 = key then
        (some (.mk ks cs leaf), .mk ks cs leaf)
      else if leaf then (none, .mk ks cs leaf)
      else if h : idx < cs.length then
        let r := searchNodeSt (cs.get ⟨idx, h⟩) key
        (r.1, .mk ks (cs.set idx r.2) leaf)
      else (none, .mk ks cs leaf)
termination_by height n
decreasing_by
  rw [height_mk]
  exact height_lt_of_mem (List.get_mem _ _ _)

mutual
/-- `traverse` with the node threaded as state: the printed keys and the
node's state after the call. -/
def traverseSt : Node → List Int × Node
  | .mk ks cs leaf =>
    if leaf then (ks, .mk ks cs leaf)
    else
      let r := interSt cs ks
      (r.1, .mk ks r.2 leaf)
/-- The child-interleaving loop of `traverse`, threading the children list
as state. -/
def interSt : List Node → List Int → List Int × List Node
  | [], _ => ([], [])
  | c :: cs, [] =>
    let r := traverseSt c
    (r.1, r.2 :: cs)
  | c :: cs, k :: ks =>
    let r := traverseSt c
    let r2 := interSt cs ks
    (r.1 ++ k :: r2.1, r.2 :: r2.2)
end

theorem interSt_pure : ∀ (cs : List Node) (ks : List Int),
    (∀ c ∈ cs, traverseSt c = (toList c, c)) →
    interSt cs ks = (inter cs ks, cs) := by
  intro cs
  induction cs with
  | nil => intro ks h; cases ks <;> rfl
  | cons c rest ih =>
    intro ks h
    cases ks with
    | nil =>
      show (let r := traverseSt c; (r.1, r.2 :: rest)) = _
      rw [h c (by simp)]
      simp
    | cons k ks =>
      show (let r := traverseSt c; let r2 := interSt rest ks;
        (r.1 ++ k :: r2.1, r.2 :: r2.2)) = _
      rw [h c (by simp), ih ks (fun d hd => h d (by simp [hd]))]
      simp

theorem traverseSt_pure : ∀ n : Node, traverseSt n = (toList n, n) := by
  apply Node.height_induction (P := fun n => traverseSt n = (toList n, n))
  intro n IH
  cases n with
  | mk ks cs leaf =>
    cases leaf with
    | true => rfl
    | false =>
      show (let r := interSt cs ks; (r.1, Node.mk ks r.2 false)) = _
      rw [interSt_pure cs ks (fun c hc =>
        IH c (by rw [height_mk]; exact height_lt_of_mem hc))]
      rw [toList_node]

theorem searchNodeSt_pure : ∀ (n : Node) (key : Int),
    searchNodeSt n key = (searchNode n key, n) := by
  apply Node.height_induction
    (P := fun n => ∀ key, searchNodeSt n key = (searchNode n key, n))
  intro n IH key
  cases n with
  | mk ks cs leaf =>
    simp only [searchNodeSt, searchNode]
    by_cases h0 : ks = []
    · rw [if_pos h0, if_pos h0]
    · rw [if_neg h0, if_neg h0]
      by_cases h1 : get_key_index ks key < ks.length ∧ ks.getD (get_key_index ks key) 0 = key
      · rw [if_pos h1, if_pos h1]
      · rw [if_neg h1, if_neg h1]
        cases leaf with
        | true => rfl
        | false =>
          simp only [Bool.false_eq_true, if_false]
          by_cases h2 : get_key_index ks key < cs.length
          · rw [dif_pos h2, dif_pos h2]
            rw [IH (cs.get ⟨get_key_index ks key, h2⟩)
              (by rw [height_mk]; exact height_lt_of_mem (List.get_mem _ _ _)) key]
            rw [set_get_self]
          · rw [dif_neg h2, dif_neg h2]

/-- The preemptive root split of `BTree.insert`: a one-key internal root over
the two halves of the old root, each holding `t - 1` keys. -/
theorem root_split_shape {t : Nat} (ht : 2 ≤ t) {r : Node} (hok : ok t r = true)
    (hfull : r.keys.length = 2 * t - 1) :
    split_child t (.mk [] [r] false) 0 =
      .mk [r.keys.getD (t - 1) 0] [leftHalf t r, rightHalf t r] false
    ∧ (leftHalf t r).keys.length = t - 1
    ∧ (rightHalf t r).keys.length = t - 1 := by
  obtain ⟨-, -, -, hL, hR, -⟩ := halves_spec ht hok hfull
  refine ⟨?_, hL, hR⟩
  simp [split_child, leftHalf, rightHalf]

/-- Inserting into a tree whose root is full leaves a root that is internal
with exactly one key and two children. -/
theorem insert_full_root_shape {tr : BTree} (hinv : TreeInv tr)
    (hfull : tr.root.keys.length = 2 * tr.min_degree - 1) (key : Int) :
    (tr.insertI key).root.leafFlag = false
    ∧ (tr.insertI key).root.keys.length = 1
    ∧ (tr.insertI key).root.children.length = 2 := by
  obtain ⟨ht, hok, hcount, hleaf1, hs⟩ := hinv
  obtain ⟨root, t⟩ := tr
  simp only at ht hok hcount hleaf1 hs hfull ⊢
  rw [BTree.insertI]
  simp only [hfull, if_true]
  obtain ⟨hsplit, hL, hR⟩ := root_split_shape ht hok hfull
  rw [hsplit]
  set m := root.keys.getD (t - 1) 0 with hm
  have hi : get_key_index [m] key < 2 := by
    have := get_key_index_le_length [m] key
    simp only [List.length_cons, List.length_nil] at this
    omega
  have hnf : ¬ ([leftHalf t root, rightHalf t root].getD (get_key_index [m] key)
      default).keys.length = 2 * t - 1 := by
    by_cases hz : get_key_index [m] key = 0
    · rw [hz]
      simp only [List.getD_cons_zero]
      omega
    · have h1 : get_key_index [m] key = 1 := by omega
      rw [h1]
      simp only [List.getD_cons_succ, List.getD_cons_zero]
      omega
  obtain ⟨h1, h2, h3⟩ := insert_non_full_internal_shape key hnf
    (by simpa using hi)
  refine ⟨h3, ?_, ?_⟩
  · rw [h1]
    rfl
  · rw [h2]
    rfl

/-! The ten claims. -/

/-- C1: along any operation sequence on a fresh tree of minimum degree
`t ≥ 2`, the class invariant holds after each operation: the root has at most
`2t-1` keys, every other node has between `t-1` and `2t-1` keys, every
internal node has one more child than keys, all leaves sit at the same depth,
and keys within each node are nondecreasing — strictly increasing whenever
the stored contents are duplicate-free (inserting a duplicate key makes a
node's keys non-strict, so strictness cannot hold unconditionally). -/
theorem C1_invariant_preservation (t : Nat) (ht : 2 ≤ t) (ops : List Op) :
    (runI t ops).root.keys.length ≤ 2 * t - 1
    ∧ allNodesL (nodeBoundB t) (runI t ops).root.children = true
    ∧ allNodes childCountB (runI t ops).root = true
    ∧ allLeavesDepth (runI t ops).root (height (runI t ops).root) = true
    ∧ allNodes sortedLeB (runI t ops).root = true
    ∧ ((BTree.traverse (runI t ops)).Nodup →
        allNodes strictB (runI t ops).root = true) := by
  obtain ⟨hinv, hmd, htr, -⟩ := run_master t ht ops
  obtain ⟨ht2, hok, hcount, hleaf1, hs⟩ := hinv
  rw [hmd] at hok hcount
  refine ⟨hcount, allNodesL_nodeBound_of_ok _ hok, allNodes_childCount_of_ok _ hok,
    allLeavesDepth_of_ok _ hok, allNodes_sortedLeB_of_ok _ hok hs, ?_⟩
  intro hnd
  exact allNodes_strictB_of_ok _ hok (hs.lt_of_le hnd)

theorem C1_witness :
    2 ≤ 2
    ∧ ((runI 2 [Op.ins 5]).root.keys.length ≤ 2 * 2 - 1
    ∧ allNodesL (nodeBoundB 2) (runI 2 [Op.ins 5]).root.children = true
    ∧ allNodes childCountB (runI 2 [Op.ins 5]).root = true
    ∧ allLeavesDepth (runI 2 [Op.ins 5]).root (height (runI 2 [Op.ins 5]).root) = true
    ∧ allNodes sortedLeB (runI 2 [Op.ins 5]).root = true
    ∧ ((BTree.traverse (runI 2 [Op.ins 5])).Nodup →
        allNodes strictB (runI 2 [Op.ins 5]).root = true)) :=
  ⟨by decide, C1_invariant_preservation 2 (by decide) [Op.ins 5]⟩

/-- Inserting the same key twice yields a root whose key list `[1, 1]` is not
strictly increasing, refuting the strictly-increasing clause of C1. -/
theorem C1_counterexample :
    (runI 2 [Op.ins 1, Op.ins 1]).root.keys = [1, 1]
    ∧ ¬ List.Sorted (· < ·) (runI 2 [Op.ins 1, Op.ins 1]).root.keys := by
  have h : runI 2 [Op.ins 1, Op.ins 1] = ⟨Node.mk [1, 1] [] true, 2⟩ := by
    simp [runI, stepI, BTree.insertI, insert_non_full, get_key_index]
  rw [h]
  exact ⟨rfl, by decide⟩

/-- C2: search reports present exactly for the keys in the current contents,
and deletion removes one occurrence, so search after `delete k` reports
absent if and only if `k` was stored at most once (a key inserted twice is
still found after one deletion, so the unconditional delete-then-search
clause cannot hold). -/
theorem C2_search_correctness (t : Nat) (ht : 2 ≤ t) (ops : List Op) (key : Int) :
    ((runI t ops).searchI key = none ↔ key ∉ BTree.traverse (runI t ops))
    ∧ BTree.traverse ((runI t ops).deleteI key) =
        (BTree.traverse (runI t ops)).erase key
    ∧ (((runI t ops).deleteI key).searchI key = none ↔
        (BTree.traverse (runI t ops)).count key ≤ 1) := by
  obtain ⟨hinv, hmd, htr, -⟩ := run_master t ht ops
  have hd := deleteI_spec hinv key
  refine ⟨searchI_none_iff hinv key, hd.2.2, ?_⟩
  rw [searchI_none_iff hd.1 key]
  show key ∉ toList ((runI t ops).deleteI key).root ↔ _
  rw [hd.2.2]
  exact not_mem_erase_iff_count_le_one

theorem C2_witness :
    2 ≤ 2
    ∧ (((runI 2 [Op.ins 1]).searchI 1 = none ↔ 1 ∉ BTree.traverse (runI 2 [Op.ins 1]))
    ∧ BTree.traverse ((runI 2 [Op.ins 1]).deleteI 1) =
        (BTree.traverse (runI 2 [Op.ins 1])).erase 1
    ∧ (((runI 2 [Op.ins 1]).deleteI 1).searchI 1 = none ↔
        (BTree.traverse (runI 2 [Op.ins 1])).count 1 ≤ 1)) :=
  ⟨by decide, C2_search_correctness 2 (by decide) [Op.ins 1] 1⟩

/-- After inserting 1 twice and deleting it once, search still finds 1:
delete-then-search does not report absent when duplicates are stored. -/
theorem C2_counterexample :
    ((runI 2 [Op.ins 1, Op.ins 1]).deleteI 1).searchI 1 ≠ none := by
  have h : runI 2 [Op.ins 1, Op.ins 1] = ⟨Node.mk [1, 1] [] true, 2⟩ := by
    simp [runI, stepI, BTree.insertI, insert_non_full, get_key_index]
  rw [h]
  simp [BTree.deleteI, BTree.searchI, deleteNode, searchNode, delete_internal,
    get_key_index]

/-- C3: after any sequence of inserts the traversal is exactly the ascending
(insertion) sort of the inserted keys — nondecreasing, and strictly
ascending only when the inserted keys are distinct, since duplicates are
kept. -/
theorem C3_traverse_sorted (t : Nat) (ht : 2 ≤ t) (keys : List Int) :
    BTree.traverse (runI t (keys.map Op.ins)) = List.insertionSort (· ≤ ·) keys := by
  obtain ⟨hinv, hmd, htr, -⟩ := run_master t ht (keys.map Op.ins)
  rw [htr]
  refine List.eq_of_perm_of_sorted ?_ ?_ (List.sorted_insertionSort _ _)
  · refine (model_ins_perm keys []).trans ?_
    have h2 := (List.perm_insertionSort (· ≤ ·) keys).symm
    simpa using h2
  · rw [← htr]
    exact hinv.2.2.2.2

theorem C3_witness :
    2 ≤ 2
    ∧ BTree.traverse (runI 2 ([3, 1].map Op.ins)) = List.insertionSort (· ≤ ·) [3, 1] :=
  ⟨by decide, C3_traverse_sorted 2 (by decide) [3, 1]⟩

/-- Inserting 1 twice gives the traversal `[1, 1]`: the ascending sort of the
inserted keys, but not a strictly ascending sequence. -/
theorem C3_counterexample :
    BTree.traverse (runI 2 [Op.ins 1, Op.ins 1]) = [1, 1]
    ∧ ¬ List.Sorted (· < ·) (BTree.traverse (runI 2 [Op.ins 1, Op.ins 1])) := by
  have h : runI 2 [Op.ins 1, Op.ins 1] = ⟨Node.mk [1, 1] [] true, 2⟩ := by
    simp [runI, stepI, BTree.insertI, insert_non_full, get_key_index]
  rw [h]
  exact ⟨rfl, by decide⟩

/-- C4: deleting an absent key is a complete structural no-op for the
package copy (`btree/__init__.py`), whose node-level delete searches first;
the `main.py` copy preserves the stored contents but may restructure nodes
(its recursive delete calls `fill` before noticing the key is absent), so
for it only observable equality holds. -/
theorem C4_absent_delete {tr : BTree} (hinv : TreeInv tr) {key : Int}
    (habs : key ∉ BTree.traverse tr) :
    tr.deleteI key = tr
    ∧ BTree.traverse (tr.deleteM key) = BTree.traverse tr := by
  refine ⟨deleteI_noop hinv habs, ?_⟩
  have hd := deleteM_spec hinv key
  show toList (tr.deleteM key).root = toList tr.root
  rw [hd.2.2]
  exact List.erase_of_not_mem habs

theorem C4_witness :
    TreeInv ⟨Node.mk [5] [] true, 2⟩
    ∧ (3 : Int) ∉ BTree.traverse ⟨Node.mk [5] [] true, 2⟩
    ∧ ((⟨Node.mk [5] [] true, 2⟩ : BTree).deleteI 3 = ⟨Node.mk [5] [] true, 2⟩
    ∧ BTree.traverse ((⟨Node.mk [5] [] true, 2⟩ : BTree).deleteM 3) =
        BTree.traverse ⟨Node.mk [5] [] true, 2⟩) :=
  ⟨(TreeInv_mk (by decide) (by decide) (by decide) (by intro h; simp at h) (by decide)), by decide, C4_absent_delete (TreeInv_mk (by decide) (by decide) (by decide) (by intro h; simp at h) (by decide)) (by decide)⟩

/-- Deleting the absent key 0 from the `main.py` copy rearranges the tree:
the root's keys change from `[2]` to `[3]` even though nothing is removed. -/
theorem C4_counterexample :
    (0 : Int) ∉ BTree.traverse (runM 2 [Op.ins 2, Op.ins 1, Op.ins 3, Op.ins 4])
    ∧ ((runM 2 [Op.ins 2, Op.ins 1, Op.ins 3, Op.ins 4]).deleteM 0).root.keys ≠
        (runM 2 [Op.ins 2, Op.ins 1, Op.ins 3, Op.ins 4]).root.keys := by
  have h : runM 2 [Op.ins 2, Op.ins 1, Op.ins 3, Op.ins 4] =
      ⟨Node.mk [2] [Node.mk [1] [] true, Node.mk [3, 4] [] true] false, 2⟩ := by
    simp [runM, stepM, BTree.insertM, insert_non_full, get_key_index, split_child]
  rw [h]
  constructor
  · decide
  · simp [BTree.deleteM, deleteMNode, remove_from_non_leafM, get_key_index, fill,
      merge, borrow_from_prev, borrow_from_next]

/-- C5: insert places the key at the leftmost position `≥ key` and never
rejects: inserting a key that is already stored adds another copy, raising
its multiplicity by one (to at least two). -/
theorem C5_duplicate_insert {tr : BTree} (hinv : TreeInv tr) {key : Int}
    (hmem : key ∈ BTree.traverse tr) :
    BTree.traverse (tr.insertI key) =
      List.orderedInsert (· ≤ ·) key (BTree.traverse tr)
    ∧ (BTree.traverse (tr.insertI key)).count key =
        (BTree.traverse tr).count key + 1
    ∧ 2 ≤ (BTree.traverse (tr.insertI key)).count key := by
  have hi := insertI_spec hinv key
  have he : BTree.traverse (tr.insertI key) =
      List.orderedInsert (· ≤ ·) key (BTree.traverse tr) := hi.2.2
  have hperm : List.Perm (BTree.traverse (tr.insertI key)) (key :: BTree.traverse tr) := by
    rw [he]
    exact List.perm_orderedInsert _ _ _
  have hc : (BTree.traverse (tr.insertI key)).count key =
      (BTree.traverse tr).count key + 1 := by
    rw [hperm.count_eq]
    exact List.count_cons_self _ _
  refine ⟨he, hc, ?_⟩
  have hpos : 0 < (BTree.traverse tr).count key := List.count_pos_iff.mpr hmem
  omega

theorem C5_witness :
    TreeInv ⟨Node.mk [5] [] true, 2⟩
    ∧ (5 : Int) ∈ BTree.traverse ⟨Node.mk [5] [] true, 2⟩
    ∧ (BTree.traverse ((⟨Node.mk [5] [] true, 2⟩ : BTree).insertI 5) =
        List.orderedInsert (· ≤ ·) 5 (BTree.traverse ⟨Node.mk [5] [] true, 2⟩)
    ∧ (BTree.traverse ((⟨Node.mk [5] [] true, 2⟩ : BTree).insertI 5)).count 5 =
        (BTree.traverse ⟨Node.mk [5] [] true, 2⟩).count 5 + 1
    ∧ 2 ≤ (BTree.traverse ((⟨Node.mk [5] [] true, 2⟩ : BTree).insertI 5)).count 5) :=
  ⟨(TreeInv_mk (by decide) (by decide) (by decide) (by intro h; simp at h) (by decide)), by decide, C5_duplicate_insert (TreeInv_mk (by decide) (by decide) (by decide) (by intro h; simp at h) (by decide)) (by decide)⟩

/-- C6: splitting a full root produces a one-key internal root whose two
children hold `t - 1` keys each at that moment, and after the full insert the
root is still internal with one key and two children; in the t = 2 scenario
(inserting 1, 2, 3, 4) the root ends with keys `[2]` and children `[1]` and
`[3, 4]` — the children hold `t - 1` and `t` keys after the insert, not
`t - 1` each. -/
theorem C6_preemptive_split (tr : BTree) (hinv : TreeInv tr)
    (hfull : tr.root.keys.length = 2 * tr.min_degree - 1) (key : Int) :
    ((split_child tr.min_degree (.mk [] [tr.root] false) 0).keys.length = 1
    ∧ (split_child tr.min_degree (.mk [] [tr.root] false) 0).children.length = 2
    ∧ ∀ c ∈ (split_child tr.min_degree (.mk [] [tr.root] false) 0).children,
        c.keys.length = tr.min_degree - 1)
    ∧ ((tr.insertI key).root.leafFlag = false
    ∧ (tr.insertI key).root.keys.length = 1
    ∧ (tr.insertI key).root.children.length = 2)
    ∧ ((runI 2 [Op.ins 1, Op.ins 2, Op.ins 3, Op.ins 4]).root.leafFlag = false
    ∧ (runI 2 [Op.ins 1, Op.ins 2, Op.ins 3, Op.ins 4]).root.keys = [2]
    ∧ (runI 2 [Op.ins 1, Op.ins 2, Op.ins 3, Op.ins 4]).root.children.map Node.keys
        = [[1], [3, 4]]
    ∧ BTree.traverse (runI 2 [Op.ins 1, Op.ins 2, Op.ins 3, Op.ins 4]) = [1, 2, 3, 4]) := by
  obtain ⟨ht, hok, hcount, hleaf1, hs⟩ := hinv
  obtain ⟨hsplit, hL, hR⟩ := root_split_shape ht hok hfull
  have hrun : runI 2 [Op.ins 1, Op.ins 2, Op.ins 3, Op.ins 4] =
      ⟨Node.mk [2] [Node.mk [1] [] true, Node.mk [3, 4] [] true] false, 2⟩ := by
    simp [runI, stepI, BTree.insertI, insert_non_full, get_key_index, split_child]
  refine ⟨?_, insert_full_root_shape ⟨ht, hok, hcount, hleaf1, hs⟩ hfull key, ?_⟩
  · rw [hsplit]
    refine ⟨rfl, rfl, ?_⟩
    intro c hc
    rcases List.mem_cons.mp hc with h | h
    · rw [h]; exact hL
    · rcases List.mem_cons.mp h with h | h
      · rw [h]; exact hR
      · simp at h
  · rw [hrun]
    exact ⟨rfl, rfl, rfl, rfl⟩

theorem C6_witness :
    TreeInv ⟨Node.mk [1, 2, 3] [] true, 2⟩
    ∧ (⟨Node.mk [1, 2, 3] [] true, 2⟩ : BTree).root.keys.length =
        2 * (⟨Node.mk [1, 2, 3] [] true, 2⟩ : BTree).min_degree - 1
    ∧ (((split_child 2 (.mk [] [Node.mk [1, 2, 3] [] true] false) 0).keys.length = 1
    ∧ (split_child 2 (.mk [] [Node.mk [1, 2, 3] [] true] false) 0).children.length = 2
    ∧ ∀ c ∈ (split_child 2 (.mk [] [Node.mk [1, 2, 3] [] true] false) 0).children,
        c.keys.length = 2 - 1)
    ∧ (((⟨Node.mk [1, 2, 3] [] true, 2⟩ : BTree).insertI 4).root.leafFlag = false
    ∧ ((⟨Node.mk [1, 2, 3] [] true, 2⟩ : BTree).insertI 4).root.keys.length = 1
    ∧ ((⟨Node.mk [1, 2, 3] [] true, 2⟩ : BTree).insertI 4).root.children.length = 2)
    ∧ ((runI 2 [Op.ins 1, Op.ins 2, Op.ins 3, Op.ins 4]).root.leafFlag = false
    ∧ (runI 2 [Op.ins 1, Op.ins 2, Op.ins 3, Op.ins 4]).root.keys = [2]
    ∧ (runI 2 [Op.ins 1, Op.ins 2, Op.ins 3, Op.ins 4]).root.children.map Node.keys
        = [[1], [3, 4]]
    ∧ BTree.traverse (runI 2 [Op.ins 1, Op.ins 2, Op.ins 3, Op.ins 4]) = [1, 2, 3, 4])) :=
  ⟨(TreeInv_mk (by decide) (by decide) (by decide) (by intro h; simp at h) (by decide)), by decide, C6_preemptive_split ⟨Node.mk [1, 2, 3] [] true, 2⟩
    (TreeInv_mk (by decide) (by decide) (by decide) (by intro h; simp at h) (by decide)) (by decide) 4⟩

/-- In the claim's own t = 2 scenario the two children of the final root do
not each hold `t - 1 = 1` key: the second holds two. -/
theorem C6_counterexample :
    ¬ ∀ c ∈ (runI 2 [Op.ins 1, Op.ins 2, Op.ins 3, Op.ins 4]).root.children,
        c.keys.length = 2 - 1 := by
  have h : runI 2 [Op.ins 1, Op.ins 2, Op.ins 3, Op.ins 4] =
      ⟨Node.mk [2] [Node.mk [1] [] true, Node.mk [3, 4] [] true] false, 2⟩ := by
    simp [runI, stepI, BTree.insertI, insert_non_full, get_key_index, split_child]
  rw [h]
  decide

/-- C7: the constructor fails (raises `ValueError`, modelled as `none`)
exactly when `min_degree < 2`; otherwise it succeeds and the root is an
empty leaf satisfying the tree invariant. -/
theorem C7_constructor (d : Int) :
    (BTree.create d = none ↔ d < 2)
    ∧ (2 ≤ d → ∃ tr, BTree.create d = some tr
        ∧ tr.root.leafFlag = true ∧ tr.root.keys = [] ∧ tr.root.children = []
        ∧ TreeInv tr) := by
  constructor
  · rw [BTree.create]
    by_cases h : d < 2
    · simp [h]
    · simp [h]
  · intro h2
    refine ⟨⟨Node.mk [] [] true, d.toNat⟩, ?_, rfl, rfl, rfl, TreeInv_new (by omega)⟩
    rw [BTree.create, if_neg (by omega)]

theorem C7_witness :
    ((BTree.create 1 = none ↔ (1 : Int) < 2)
    ∧ (2 ≤ (1 : Int) → ∃ tr, BTree.create 1 = some tr
        ∧ tr.root.leafFlag = true ∧ tr.root.keys = [] ∧ tr.root.children = []
        ∧ TreeInv tr))
    ∧ ((BTree.create 3 = none ↔ (3 : Int) < 2)
    ∧ (2 ≤ (3 : Int) → ∃ tr, BTree.create 3 = some tr
        ∧ tr.root.leafFlag = true ∧ tr.root.keys = [] ∧ tr.root.children = []
        ∧ TreeInv tr)) :=
  ⟨C7_constructor 1, C7_constructor 3⟩

/-- C8: a second deletion of the same key removes a further occurrence, so
double delete equals single delete exactly on duplicate-free contents; in
general the contents after two deletions are the once-more-erased contents. -/
theorem C8_double_delete {tr : BTree} (hinv : TreeInv tr) (key : Int) :
    BTree.traverse ((tr.deleteI key).deleteI key) =
      ((BTree.traverse tr).erase key).erase key
    ∧ ((BTree.traverse tr).Nodup →
        (tr.deleteI key).deleteI key = tr.deleteI key) := by
  have h1 := deleteI_spec hinv key
  have h2 := deleteI_spec h1.1 key
  constructor
  · show toList ((tr.deleteI key).deleteI key).root = _
    rw [h2.2.2, h1.2.2]
    rfl
  · intro hnd
    apply deleteI_noop h1.1
    rw [h1.2.2]
    refine not_mem_erase_iff_count_le_one.mpr ?_
    exact List.nodup_iff_count_le_one.mp hnd key

theorem C8_witness :
    TreeInv ⟨Node.mk [5] [] true, 2⟩
    ∧ (BTree.traverse (((⟨Node.mk [5] [] true, 2⟩ : BTree).deleteI 5).deleteI 5) =
        ((BTree.traverse ⟨Node.mk [5] [] true, 2⟩).erase 5).erase 5
    ∧ ((BTree.traverse (⟨Node.mk [5] [] true, 2⟩ : BTree)).Nodup →
        ((⟨Node.mk [5] [] true, 2⟩ : BTree).deleteI 5).deleteI 5 =
          (⟨Node.mk [5] [] true, 2⟩ : BTree).deleteI 5)) :=
  ⟨(TreeInv_mk (by decide) (by decide) (by decide) (by intro h; simp at h) (by decide)), C8_double_delete (TreeInv_mk (by decide) (by decide) (by decide) (by intro h; simp at h) (by decide)) 5⟩

/-- With the key 1 stored twice, the second `delete 1` removes another copy:
the traversal after two deletions differs from the traversal after one. -/
theorem C8_counterexample :
    BTree.traverse (((runI 2 [Op.ins 1, Op.ins 1]).deleteI 1).deleteI 1) ≠
      BTree.traverse ((runI 2 [Op.ins 1, Op.ins 1]).deleteI 1) := by
  have h : runI 2 [Op.ins 1, Op.ins 1] = ⟨Node.mk [1, 1] [] true, 2⟩ := by
    simp [runI, stepI, BTree.insertI, insert_non_full, get_key_index]
  rw [h]
  simp [BTree.deleteI, BTree.traverse, deleteNode, searchNode, delete_internal,
    get_key_index]

/-- C9: the two copies of the B-tree class are observably equivalent — after
any operation sequence they print the same traversal and give the same
present/absent answer to every search. -/
theorem C9_copies_equivalent (t : Nat) (ht : 2 ≤ t) (ops : List Op) (key : Int) :
    BTree.traverse (runI t ops) = BTree.traverse (runM t ops)
    ∧ ((runI t ops).searchI key = none ↔ (runM t ops).searchM key = none) := by
  obtain ⟨hinvI, hmdI, htrI, hinvM, hmdM, htrM⟩ := run_master t ht ops
  refine ⟨by rw [htrI, htrM], ?_⟩
  rw [searchI_none_iff hinvI key, searchM_none_iff hinvM key]
  show key ∉ BTree.traverse (runI t ops) ↔ key ∉ BTree.traverse (runM t ops)
  rw [htrI, htrM]

theorem C9_witness :
    2 ≤ 2
    ∧ (BTree.traverse (runI 2 [Op.ins 1]) = BTree.traverse (runM 2 [Op.ins 1])
    ∧ ((runI 2 [Op.ins 1]).searchI 1 = none ↔ (runM 2 [Op.ins 1]).searchM 1 = none)) :=
  ⟨by decide, C9_copies_equivalent 2 (by decide) [Op.ins 1] 1⟩

/-- C10: `search` and `traverse` are pure observers — threading the node
through them as state returns the node unchanged alongside the result of the
purely functional reading. -/
theorem C10_observers_pure (n : Node) (key : Int) :
    searchNodeSt n key = (searchNode n key, n)
    ∧ traverseSt n = (toList n, n) :=
  ⟨searchNodeSt_pure n key, traverseSt_pure n⟩
